import Mathlib

/-! # Ledis: an in-memory key/value store

A shallow embedding of `backend/utils/utils.go`, `backend/storage/ledis.go`,
`backend/storage/garbage_collector.go` and `backend/storage/mapper.go`.

* Go strings are Lean `String`s, instants and durations are `Int` nanoseconds.
* Go maps are association lists without repeated names; ranging over a map visits
  the entries in list order.
* `*Key` pointers are indices into an explicit heap of `Key` records, because the
  metadata map, the dispatcher's `keyEntries` slice and the expiration tree alias
  the same record.
* `time.Now()` is the parameter `now`, the same for the whole command.
* A run-time panic (nil dereference) is the outcome `Result.crash`.
* One tick of the background sweeper is the function `garbageCollector.clean`, a step of
  its own between two commands; `garbageCollector.cleanSnapshot` is a tick of the sweeper
  that runs for the snapshot.
-/

namespace Storage

/-! ## Runtime pieces of the Go standard library -/

/-- The parts of the Go standard library that the store calls and that are tables or
floating point: `unicode.ToUpper` on runes above ASCII, `strconv.Quote` (used in the
text of an `Atoi` error) and `uint64(d.Seconds())` for a positive duration `d`. -/
structure Runtime where
  toUpperExt : Char → Char
  quote : String → String
  wholeSeconds : Int → Nat

/-- A runtime for evaluating commands: identity above ASCII, plain double quotes, and
whole seconds by integer division. -/
def asciiRuntime : Runtime where
  toUpperExt := fun c => c
  quote := fun s => "\"" ++ s ++ "\""
  wholeSeconds := fun d => (d / 1000000000).toNat

/-! ## utils.go -/

/-- Go standard library `unicode.IsSpace`. -/
def isSpace (c : Char) : Bool :=
  c = '\t' || c = '\n' || c.val = 11 || c.val = 12 || c = '\r' || c = ' ' ||
  c.val = 0x85 || c.val = 0xA0 || c.val = 0x1680 ||
  (0x2000 ≤ c.val && c.val ≤ 0x200A) || c.val = 0x2028 || c.val = 0x2029 ||
  c.val = 0x202F || c.val = 0x205F || c.val = 0x3000

/-- Go standard library `strings.TrimSpace`, on the runes of a string. -/
def trimSpace (s : List Char) : List Char :=
  ((s.dropWhile isSpace).reverse.dropWhile isSpace).reverse

/-- Go standard library `strings.Split(s, " ")`: cut at every single space. -/
def splitSpace : List Char → List (List Char)
  | [] => [[]]
  | c :: cs =>
    if c = ' ' then [] :: splitSpace cs
    else
      match splitSpace cs with
      | [] => [[c]]
      | t :: ts => (c :: t) :: ts

/-- Function `ParseCmd` of utils.go. -/
def ParseCmd (s : String) : List String :=
  (splitSpace (trimSpace s.data)).map String.mk

/-- Go standard library `unicode.ToUpper`: ASCII letters directly, other runes by the case
table. -/
def toUpperRune (rt : Runtime) (c : Char) : Char :=
  if c.toNat < 128 then
    (if 'a'.toNat ≤ c.toNat ∧ c.toNat ≤ 'z'.toNat then Char.ofNat (c.toNat - 32) else c)
  else rt.toUpperExt c

/-- Go standard library `strings.ToUpper`. -/
def ToUpper (rt : Runtime) (s : String) : String :=
  String.mk (s.data.map (toUpperRune rt))

/-- The `switch cmd[0]` of `ValidateCmdAndGetKeys`: `cmd` is the slice whose first
token has already been replaced by its upper-case form `verb`. -/
def validateSwitch (verb : String) (cmd : List String) : Except String (List String) :=
  let n := cmd.length
  let key1 := [cmd.getD 1 ""]
  if verb = "SET" then
    (if n ≠ 3 then .error "SET command format is: SET key value" else .ok key1)
  else if verb = "GET" then
    (if n ≠ 2 then .error "GET command format is: GET key" else .ok key1)
  else if verb = "SADD" then
    (if n < 3 then .error "SADD command format is: SADD key value1 [value2...]" else .ok key1)
  else if verb = "SREM" then
    (if n < 3 then .error "SREM command format is: SREM key value1 [value2...]" else .ok key1)
  else if verb = "SMEMBERS" then
    (if n ≠ 2 then .error "SMEMBERS command format is: SMEMBERS key" else .ok key1)
  else if verb = "SINTER" then
    (if n < 2 then .error "SINTER command format is: SINTER key1 [key2] ..."
      else .ok (cmd.drop 1))
  else if verb = "KEYS" then
    (if n ≠ 1 then .error "KEYS command format is: KEYS" else .ok [])
  else if verb = "DEL" then
    (if n ≠ 2 then .error "DEL command format is: DEL key" else .ok key1)
  else if verb = "EXPIRE" then
    (if n ≠ 3 then .error "EXPIRE command format is: EXPIRE key seconds" else .ok key1)
  else if verb = "TTL" then
    (if n ≠ 2 then .error "TTL command format is: TTL key" else .ok key1)
  else if verb = "SAVE" then
    (if n ≠ 1 then .error "SAVE command format is: SAVE" else .ok [])
  else if verb = "RESTORE" then
    (if n ≠ 1 then .error "RESTORE command format is: RESTORE" else .ok [])
  else .error "Unknown command"

/-- Function `ValidateCmdAndGetKeys` of utils.go. The Go function overwrites `cmd[0]` with its
upper-case form; the second component is the slice after the call. -/
def ValidateCmdAndGetKeys (rt : Runtime) (cmd : List String) :
    Except String (List String) × List String :=
  match cmd with
  | [] => (.error "empty command", [])
  | c0 :: rest => (validateSwitch (ToUpper rt c0) (ToUpper rt c0 :: rest), ToUpper rt c0 :: rest)

/-- Wrap an integer into the signed 64-bit range. -/
def wrap64 (x : Int) : Int :=
  (x + 9223372036854775808) % 18446744073709551616 - 9223372036854775808

/-- The value of a run of decimal digits, `none` when a rune is not a digit. -/
def parseDigits : List Char → Nat → Option Nat
  | [], acc => some acc
  | c :: cs, acc =>
    if '0'.val ≤ c.val ∧ c.val ≤ '9'.val then parseDigits cs (acc * 10 + (c.toNat - 48))
    else none

/-- Whether the scan of `strconv.ParseUint` runs over the `uint64` range at a digit that
comes before the first rune that is not a digit: the scan then stops with a range error. -/
def overflowsFirst : List Char → Nat → Bool
  | [], _ => false
  | c :: cs, acc =>
    if '0'.val ≤ c.val ∧ c.val ≤ '9'.val then
      (if 18446744073709551615 < acc * 10 + (c.toNat - 48) then true
       else overflowsFirst cs (acc * 10 + (c.toNat - 48)))
    else false

/-- Go standard library `strconv.Atoi` on a 64-bit platform: an optional sign and at least one
decimal digit, the value within the `int64` range; the error is its Go text, "value out of
range" when the digits run over the range before a rune that is not a digit is met. -/
def Atoi (rt : Runtime) (s : String) : Except String Int :=
  let syntaxErr := "strconv.Atoi: parsing " ++ rt.quote s ++ ": invalid syntax"
  let rangeErr := "strconv.Atoi: parsing " ++ rt.quote s ++ ": value out of range"
  let body : List Char × Bool :=
    match s.data with
    | '-' :: cs => (cs, true)
    | '+' :: cs => (cs, false)
    | cs => (cs, false)
  if body.1 = [] then .error syntaxErr
  else
    match parseDigits body.1 0 with
    | none => if overflowsFirst body.1 0 then .error rangeErr else .error syntaxErr
    | some n =>
      let v : Int := if body.2 then - (n : Int) else (n : Int)
      if v < -9223372036854775808 ∨ 9223372036854775807 < v then .error rangeErr
      else .ok v

/-- Function `Str2TimeDuration` of utils.go: `time.Duration(num) * time.Second` in `int64`. -/
def Str2TimeDuration (rt : Runtime) (s : String) : Except String Int :=
  match Atoi rt s with
  | .error e => .error e
  | .ok num => .ok (wrap64 (num * 1000000000))

/-! ## Go maps -/

/-- Go `m[k]` with the comma-ok result. -/
def mapGet {V : Type} : List (String × V) → String → Option V
  | [], _ => none
  | e :: es, k => if e.1 = k then some e.2 else mapGet es k

/-- Go `m[k] = v`. -/
def mapSet {V : Type} : List (String × V) → String → V → List (String × V)
  | [], k, v => [(k, v)]
  | e :: es, k, v => if e.1 = k then (k, v) :: es else e :: mapSet es k v

/-- Go `delete(m, k)`. -/
def mapDelete {V : Type} (m : List (String × V)) (k : String) : List (String × V) :=
  m.filter (fun e => decide (e.1 ≠ k))

/-- Go `set[v] = true` on a `map[string]bool` used as a set. -/
def setInsert (s : List String) (v : String) : List String :=
  if v ∈ s then s else s ++ [v]

/-- Go `delete(set, v)` on a `map[string]bool` used as a set. -/
def setRemove (s : List String) (v : String) : List String :=
  s.filter (fun x => decide (x ≠ v))

/-! ## The expiration tree

The specification names the expiration index as a left-leaning red-black tree (§4.3, §9);
the store imports it as the package GoLLRB, whose source is not part of the repository.
The definitions below follow that package function by function: `InsertNoReplace`,
`Delete` and `AscendGreaterOrEqual` with their helpers. An item is the `*Key` it holds,
and the order `Less` of the items is a parameter. The package panics when a rotation or
a colour flip meets a missing child or a black link; on the trees it builds itself this
does not happen, and here such a node is left as it is. -/

namespace llrb

/-- Modelled from the spec: the index is a left-leaning red-black tree (§4.3, §9), in the
source the `Node` of the GoLLRB package (not under src/). `Item` is the `*Key` held by the
`item` stored in the node, `Black` the colour of the link from the parent. -/
inductive Node where
  | nil : Node
  | node (Item : Nat) (Left Right : Node) (Black : Bool) : Node
deriving DecidableEq, Repr

/-- Modelled from the spec: field `Left` of a GoLLRB node (not under src/); `nil` has none. -/
def Node.Left : Node → Node
  | .nil => .nil
  | .node _ l _ _ => l

/-- Modelled from the spec: field `Right` of a GoLLRB node (not under src/); `nil` has none. -/
def Node.Right : Node → Node
  | .nil => .nil
  | .node _ _ r _ => r

/-- Modelled from the spec: number of nodes of a GoLLRB tree (not under src/), the bound of
the recursion of `Delete`. -/
def Node.size : Node → Nat
  | .nil => 0
  | .node _ l r _ => l.size + r.size + 1

/-- Modelled from the spec: the items of a GoLLRB tree (not under src/) in ascending tree
order, the order of the traversal of §4.3. -/
def Node.inorder : Node → List Nat
  | .nil => []
  | .node i l r _ => l.inorder ++ i :: r.inorder

/-- Modelled from the spec: function `isRed` of GoLLRB (not under src/). -/
def isRed : Node → Bool
  | .nil => false
  | .node _ _ _ b => !b

/-- Modelled from the spec: the colour change `h.Black = !h.Black` of GoLLRB (not under src/). -/
def toggle : Node → Node
  | .nil => .nil
  | .node i l r b => .node i l r (!b)

/-- Modelled from the spec: function `flip` of GoLLRB (not under src/): the colours of a node
and of its two children are inverted. -/
def flip : Node → Node
  | .nil => .nil
  | .node i l r b => .node i (toggle l) (toggle r) (!b)

/-- Modelled from the spec: function `rotateLeft` of GoLLRB (not under src/), around a red
right link. -/
def rotateLeft : Node → Node
  | .node hi hl (.node xi xl xr false) hb => .node xi (.node hi hl xl false) xr hb
  | h => h

/-- Modelled from the spec: function `rotateRight` of GoLLRB (not under src/), around a red
left link. -/
def rotateRight : Node → Node
  | .node hi (.node xi xl xr false) hr hb => .node xi xl (.node hi xr hr false) hb
  | h => h

/-- Modelled from the spec: function `walkUpRot23` of GoLLRB (not under src/): rebalancing on
the way up after an insertion. -/
def walkUpRot23 (h : Node) : Node :=
  let h := if isRed h.Right && !isRed h.Left then rotateLeft h else h
  let h := if isRed h.Left && isRed h.Left.Left then rotateRight h else h
  if isRed h.Left && isRed h.Right then flip h else h

/-- Modelled from the spec: function `fixUp` of GoLLRB (not under src/): rebalancing on the
way up after a deletion. -/
def fixUp (h : Node) : Node :=
  let h := if isRed h.Right then rotateLeft h else h
  let h := if isRed h.Left && isRed h.Left.Left then rotateRight h else h
  if isRed h.Left && isRed h.Right then flip h else h

/-- Modelled from the spec: function `moveRedLeft` of GoLLRB (not under src/). -/
def moveRedLeft (h : Node) : Node :=
  match flip h with
  | .nil => .nil
  | .node i l r b =>
    if isRed r.Left then flip (rotateLeft (.node i l (rotateRight r) b))
    else .node i l r b

/-- Modelled from the spec: function `moveRedRight` of GoLLRB (not under src/). -/
def moveRedRight (h : Node) : Node :=
  let h := flip h
  if isRed h.Left.Left then flip (rotateRight h) else h

/-- Modelled from the spec: method `insertNoReplace` of GoLLRB (not under src/): recursive
insertion that keeps items of equal order. -/
def insertNoReplace (less : Nat → Nat → Bool) : Node → Nat → Node
  | .nil, item => .node item .nil .nil false
  | .node i l r b, item =>
    if less item i then walkUpRot23 (.node i (insertNoReplace less l item) r b)
    else walkUpRot23 (.node i l (insertNoReplace less r item) b)

/-- Modelled from the spec: the assignment `t.root.Black = true` of GoLLRB (not under src/). -/
def blacken : Node → Node
  | .nil => .nil
  | .node i l r _ => .node i l r true

/-- Modelled from the spec: insert of the index (§4.3), method `InsertNoReplace` of GoLLRB
(not under src/). -/
def InsertNoReplace (less : Nat → Nat → Bool) (root : Node) (item : Nat) : Node :=
  blacken (insertNoReplace less root item)

/-- Modelled from the spec: function `deleteMin` of GoLLRB (not under src/): the minimum of a
subtree is removed; `fuel` bounds the depth of the recursion. -/
def deleteMin : Nat → Node → Node × Option Nat
  | _, .nil => (.nil, none)
  | 0, h => (h, none)
  | fuel + 1, .node i l r b =>
    match l with
    | .nil => (.nil, some i)
    | .node _ _ _ _ =>
      match (if !isRed l && !isRed l.Left then moveRedLeft (.node i l r b)
             else .node i l r b) with
      | .nil => (.nil, none)
      | .node i1 l1 r1 b1 =>
        let res := deleteMin fuel l1
        (fixUp (.node i1 res.1 r1 b1), res.2)

/-- Modelled from the spec: method `delete` of GoLLRB (not under src/): recursive deletion of
an item that is neither less nor greater than `item`; `fuel` bounds the depth of the
recursion. -/
def delete (less : Nat → Nat → Bool) : Nat → Node → Nat → Node × Option Nat
  | _, .nil, _ => (.nil, none)
  | 0, h, _ => (h, none)
  | fuel + 1, .node i l r b, item =>
    if less item i then
      match l with
      | .nil => (.node i l r b, none)
      | .node _ _ _ _ =>
        match (if !isRed l && !isRed l.Left then moveRedLeft (.node i l r b)
               else .node i l r b) with
        | .nil => (.nil, none)
        | .node i1 l1 r1 b1 =>
          let res := delete less fuel l1 item
          (fixUp (.node i1 res.1 r1 b1), res.2)
    else
      match (if isRed l then rotateRight (.node i l r b) else .node i l r b) with
      | .nil => (.nil, none)
      | .node i1 l1 r1 b1 =>
        if !less i1 item && decide (r1 = .nil) then (.nil, some i1)
        else
          match (if decide (r1 ≠ .nil) && !isRed r1 && !isRed r1.Left
                 then moveRedRight (.node i1 l1 r1 b1) else .node i1 l1 r1 b1) with
          | .nil => (.nil, none)
          | .node i2 l2 r2 b2 =>
            if !less i2 item then
              let res := deleteMin fuel r2
              match res.2 with
              | none => (.node i2 l2 r2 b2, none)
              | some sub => (fixUp (.node sub l2 res.1 b2), some i2)
            else
              let res := delete less fuel r2 item
              (fixUp (.node i2 l2 res.1 b2), res.2)

/-- Modelled from the spec: delete-by-key of the index (§4.3), method `Delete` of GoLLRB (not
under src/). -/
def Delete (less : Nat → Nat → Bool) (root : Node) (item : Nat) : Node :=
  blacken (delete less root.size root item).1

/-- Modelled from the spec: in-order traversal of the index (§4.3), method
`ascendGreaterOrEqual` of GoLLRB (not under src/): the items not less than the pivot are
visited in ascending order, threading the iterator's state, until the iterator answers
`false`. -/
def ascendGreaterOrEqual {σ : Type} (lessPivot : Nat → Bool) (iterator : σ → Nat → σ × Bool) :
    Node → σ → σ × Bool
  | .nil, s => (s, true)
  | .node i l r _, s =>
    if !lessPivot i then
      let a := ascendGreaterOrEqual lessPivot iterator l s
      if !a.2 then (a.1, false)
      else
        let c := iterator a.1 i
        if !c.2 then (c.1, false)
        else ascendGreaterOrEqual lessPivot iterator r c.1
    else ascendGreaterOrEqual lessPivot iterator r s

end llrb

/-! ## ledis.go and garbage_collector.go -/

/-- The two kinds of key. -/
inductive KeyType where
  | KeyTypeString
  | KeyTypeSet
deriving DecidableEq, Repr

/-- The metadata record of a key; times are nanoseconds. -/
structure Key where
  name : String
  _type : KeyType
  lastRenewed : Int
  expireTime : Int
deriving DecidableEq, Repr

/-- Method `Key.getExpireTime` of ledis.go. -/
def Key.getExpireTime (k : Key) : Int := k.lastRenewed + k.expireTime

/-- Method `Key.isExpired` of ledis.go: a nonzero `expireTime` and the expiration strictly
before now. -/
def Key.isExpired (k : Key) (now : Int) : Bool :=
  decide (k.expireTime ≠ 0) && decide (k.getExpireTime < now)

/-- Function `newKey` of ledis.go; `time.Now()` is `now`. -/
def newKey (key : String) (keyType : KeyType) (expireTime : Int) (now : Int) : Key :=
  { name := key, _type := keyType, lastRenewed := now, expireTime := expireTime }

/-- The record a `*Key` points to. Every pointer the store holds was allocated on
the heap, so the default is never read. -/
def deref (heap : List Key) (p : Nat) : Key :=
  heap.getD p { name := "", _type := .KeyTypeString, lastRenewed := 0, expireTime := 0 }

/-- Method `item.Less` of garbage_collector.go between two items that hold keys: by expiration
instant only. -/
def item.Less (heap : List Key) (i than : Nat) : Bool :=
  decide ((deref heap i).getExpireTime < (deref heap than).getExpireTime)

/-- The expiration index: the tree of the garbage collector. -/
structure garbageCollector where
  tree : llrb.Node
deriving DecidableEq, Repr

/-- Method `garbageCollector.add` of garbage_collector.go. -/
def garbageCollector.add (gc : garbageCollector) (heap : List Key) (key : Option Nat) :
    garbageCollector :=
  match key with
  | none => gc
  | some p => { tree := llrb.InsertNoReplace (item.Less heap) gc.tree p }

/-- Method `garbageCollector.remove` of garbage_collector.go. -/
def garbageCollector.remove (gc : garbageCollector) (heap : List Key) (key : Option Nat) :
    garbageCollector :=
  match key with
  | none => gc
  | some p => { tree := llrb.Delete (item.Less heap) gc.tree p }

/-- Method `garbageCollector.clone` of garbage_collector.go: a new tree holding the very keys of
the old one. The pivot `&item{}` has no key, so `Less` against it is `false` for every item. -/
def garbageCollector.clone (gc : garbageCollector) (heap : List Key) : garbageCollector :=
  (llrb.ascendGreaterOrEqual (fun _ => false)
    (fun (newGC : garbageCollector) i => (newGC.add heap (some i), true))
    gc.tree { tree := .nil }).1

/-- The scan of one tick of `garbageCollector.clean` of garbage_collector.go: the keys of the
tree in ascending order, up to the first one whose expiration is after `now`. -/
def garbageCollector.collect (gc : garbageCollector) (heap : List Key) (now : Int) : List Nat :=
  (llrb.ascendGreaterOrEqual (fun _ => false)
    (fun (removedKeys : List Nat) i =>
      if now < (deref heap i).getExpireTime then (removedKeys, false)
      else (removedKeys ++ [i], true))
    gc.tree []).1

/-- The maps and the collector of one `Ledis` value (the `snapshots` field apart). -/
structure Store where
  atomicData : List (String × String)
  setData : List (String × List String)
  keys : List (String × Nat)
  gc : garbageCollector
deriving DecidableEq, Repr

/-- The live `Ledis` value together with the heap of `Key` records. A snapshot is a
`Ledis` whose own `snapshots` field is always nil, hence a `Store`. -/
structure Ledis where
  heap : List Key
  atomicData : List (String × String)
  setData : List (String × List String)
  keys : List (String × Nat)
  snapshots : Option Store
  gc : garbageCollector
deriving DecidableEq, Repr

/-- Function `NewLedis` of ledis.go: the empty store. -/
def NewLedis : Ledis :=
  { heap := [], atomicData := [], setData := [], keys := [], snapshots := none,
    gc := { tree := .nil } }

/-- Result of a call that can return a value, return an error, or panic. -/
inductive Result (α : Type) where
  | ok (val : α) : Result α
  | error (msg : String) : Result α
  | crash : Result α
deriving DecidableEq, Repr

/-- What `HandleCommand` gives back: a response slice (`none` is the nil slice), an
error, or a panic. -/
abbrev Outcome := Result (Option (List String))

/-- Function `setDataToStrings` of mapper.go; a nil set pointer is a nil dereference. -/
def setDataToStrings (data : Option (List String)) : Result (List String) :=
  match data with
  | none => .crash
  | some s => .ok s

/-- Method `Ledis.renewKey` of ledis.go: the key is taken out of the tree, renewed, and put
back when its duration is not zero. -/
def Ledis.renewKey (l : Ledis) (now : Int) (key : Option Nat) : Ledis :=
  match key with
  | none => l
  | some p =>
    let gc1 := l.gc.remove l.heap (some p)
    let heap1 := l.heap.set p { deref l.heap p with lastRenewed := now }
    if (deref heap1 p).expireTime ≠ 0 then
      { l with heap := heap1, gc := gc1.add heap1 (some p) }
    else { l with heap := heap1, gc := gc1 }

/-- Method `Ledis.deleteKey` of ledis.go. -/
def Ledis.deleteKey (l : Ledis) (key : Option Nat) : Option String × Ledis :=
  match key with
  | none => (some "key not found", l)
  | some p =>
    let k := deref l.heap p
    let l1 : Ledis :=
      if k._type = .KeyTypeString then { l with atomicData := mapDelete l.atomicData k.name }
      else { l with setData := mapDelete l.setData k.name }
    (none, { l1 with gc := l1.gc.remove l1.heap (some p), keys := mapDelete l1.keys k.name })

/-- Method `Ledis.set` of ledis.go: the value is stored before the kind of the key is looked at. -/
def Ledis.set (l : Ledis) (now : Int) (key : Option Nat) (value : String) :
    Result Unit × Ledis :=
  match key with
  | none => (.crash, l)
  | some p =>
    let k := deref l.heap p
    let l1 : Ledis := { l with atomicData := mapSet l.atomicData k.name value }
    if k._type ≠ .KeyTypeString then
      (.error "key is not valid, this key may be a set key and does not support SET command", l1)
    else (.ok (), l1.renewKey now (some p))

/-- Method `Ledis.get` of ledis.go; a missing scalar is a nil dereference. -/
def Ledis.get (l : Ledis) (key : Option Nat) : Result String :=
  match key with
  | none =>
    .error "key is not valid, this key may be a set key and does not support GET command"
  | some p =>
    let k := deref l.heap p
    if k._type ≠ .KeyTypeString then
      .error "key is not valid, this key may be a set key and does not support GET command"
    else
      match mapGet l.atomicData k.name with
      | none => .crash
      | some v => .ok v

/-- One round of the loop of `Ledis.sadd`: create the set if the map has none under
the name, then add the value. -/
def saddStep (name : String) (l : Ledis) (value : String) : Ledis :=
  let cur := (mapGet l.setData name).getD []
  { l with setData := mapSet l.setData name (setInsert cur value) }

/-- Method `Ledis.sadd` of ledis.go. -/
def Ledis.sadd (l : Ledis) (key : Option Nat) (values : List String) : Result Unit × Ledis :=
  match key with
  | none =>
    (.error "key is not valid, this key may be a string key and does not support SADD command", l)
  | some p =>
    let k := deref l.heap p
    if k._type ≠ .KeyTypeSet then
      (.error "key is not valid, this key may be a string key and does not support SADD command", l)
    else (.ok (), values.foldl (saddStep k.name) l)

/-- The loop of `Ledis.srem`: each round dereferences the set pointer of the key. -/
def sremLoop (l : Ledis) (name : String) : List String → Result Unit × Ledis
  | [] => (.ok (), l)
  | value :: rest =>
    match mapGet l.setData name with
    | none => (.crash, l)
    | some s => sremLoop { l with setData := mapSet l.setData name (setRemove s value) } name rest

/-- Method `Ledis.srem` of ledis.go. -/
def Ledis.srem (l : Ledis) (key : Option Nat) (values : List String) : Result Unit × Ledis :=
  match key with
  | none =>
    (.error "key is not valid, this key may be a string key and does not support SREM command", l)
  | some p =>
    let k := deref l.heap p
    if k._type ≠ .KeyTypeSet then
      (.error "key is not valid, this key may be a string key and does not support SREM command", l)
    else sremLoop l k.name values

/-- Method `Ledis.smembers` of ledis.go. -/
def Ledis.smembers (l : Ledis) (key : Option Nat) : Result (List String) :=
  match key with
  | none =>
    .error "key is not valid, this key may be a string key and does not support SMEMBERS command"
  | some p =>
    let k := deref l.heap p
    if k._type ≠ .KeyTypeSet then
      .error "key is not valid, this key may be a string key and does not support SMEMBERS command"
    else setDataToStrings (mapGet l.setData k.name)

/-- First loop of `Ledis.sinter`: the index of the first set of least size, from the
state `(idOfSetHasMinSize, minSize)`; `none` stands for the index `-1`. -/
def sinterMinLoop (l : Ledis) : List Nat → Nat → Option Nat → Nat → Result (Option Nat)
  | [], _, idOfSetHasMinSize, _ => .ok idOfSetHasMinSize
  | key :: rest, index, idOfSetHasMinSize, minSize =>
    if (deref l.heap key)._type = .KeyTypeString then
      sinterMinLoop l rest (index + 1) idOfSetHasMinSize minSize
    else
      match mapGet l.setData (deref l.heap key).name with
      | none => .crash
      | some s =>
        match idOfSetHasMinSize with
        | none => sinterMinLoop l rest (index + 1) (some index) s.length
        | some id =>
          if s.length < minSize then sinterMinLoop l rest (index + 1) (some index) s.length
          else sinterMinLoop l rest (index + 1) (some id) minSize

/-- Second loop of `Ledis.sinter`: drop from the candidates what a set lacks. The
set pointer is dereferenced once per candidate, so not at all without candidates. -/
def sinterFilterLoop (l : Ledis) (idOfSetHasMinSize : Nat) :
    List Nat → Nat → List String → Result (List String)
  | [], _, candidates => .ok candidates
  | key :: rest, index, candidates =>
    if (deref l.heap key)._type = .KeyTypeString ∨ index = idOfSetHasMinSize then
      sinterFilterLoop l idOfSetHasMinSize rest (index + 1) candidates
    else
      match mapGet l.setData (deref l.heap key).name with
      | none =>
        if candidates = [] then sinterFilterLoop l idOfSetHasMinSize rest (index + 1) candidates
        else .crash
      | some s =>
        sinterFilterLoop l idOfSetHasMinSize rest (index + 1)
          (candidates.filter (fun value => decide (value ∈ s)))

/-- The test `key == nil || key._type != KeyTypeSet` of `sinter`. -/
def Ledis.notSetKey (l : Ledis) (key : Option Nat) : Bool :=
  match key with
  | none => true
  | some p => decide ((deref l.heap p)._type ≠ .KeyTypeSet)

/-- Method `Ledis.sinter` of ledis.go. -/
def Ledis.sinter (l : Ledis) (keys : List (Option Nat)) : Result (List String) :=
  if keys.length = 0 then .error "no keys provided"
  else if keys.any l.notSetKey then
    .error "key is not valid, this key may be a string key and does not support SINTER command"
  else
    let ptrs := keys.filterMap (fun key => key)
    match sinterMinLoop l ptrs 0 none 0 with
    | .crash => .crash
    | .error e => .error e
    | .ok none => .error "no set key found"
    | .ok (some id) =>
      match mapGet l.setData (deref l.heap (ptrs.getD id 0)).name with
      | none => .crash
      | some s =>
        -- candidatesIntersection is the elements of the set with the minimum size
        sinterFilterLoop l id ptrs 0 (s.foldl setInsert [])

/-- Method `Ledis.listKeys` of ledis.go: the names of the keys that are not expired; the
expired ones are deleted afterwards. -/
def Ledis.listKeys (l : Ledis) (now : Int) : List String × Ledis :=
  let keys := (l.keys.filter (fun e => !(deref l.heap e.2).isExpired now)).map Prod.fst
  let needRemoveKeys := (l.keys.filter (fun e => (deref l.heap e.2).isExpired now)).map Prod.fst
  (keys, needRemoveKeys.foldl (fun (l : Ledis) key => (l.deleteKey (mapGet l.keys key)).2) l)

/-- Method `Ledis.setExpireKey` of ledis.go: the new duration is written into the key before the key
is taken out of the tree by `renewKey`. -/
def Ledis.setExpireKey (l : Ledis) (now : Int) (key : Option Nat) (expireTime : Int) :
    Option String × Ledis :=
  match key with
  | none => (some "key not found", l)
  | some p =>
    let l1 : Ledis := { l with heap := l.heap.set p { deref l.heap p with expireTime := expireTime } }
    (none, l1.renewKey now (some p))

/-- Go standard library `Time.Sub`: the difference of two instants, saturated to the `int64`
range. -/
def timeSub (t u : Int) : Int :=
  if t - u < -9223372036854775808 then -9223372036854775808
  else if 9223372036854775807 < t - u then 9223372036854775807
  else t - u

/-- Method `Ledis.getTTL` of ledis.go. -/
def Ledis.getTTL (rt : Runtime) (l : Ledis) (now : Int) (key : Option Nat) : Except String Nat :=
  match key with
  | none => .error "key not found"
  | some p =>
    let k := deref l.heap p
    if k.expireTime = 0 then .error "key has no expiration time"
    else
      let expiration := k.lastRenewed + k.expireTime
      let ttl := timeSub expiration now
      if ttl ≤ 0 then .error "key expired"
      else .ok (rt.wholeSeconds ttl)

/-- The maps and the collector of the live store. -/
def Ledis.toStore (l : Ledis) : Store :=
  { atomicData := l.atomicData, setData := l.setData, keys := l.keys, gc := l.gc }

/-- Method `Ledis.copy` of ledis.go: the three maps of `other` copied entry by entry (every
`Key` into a newly allocated record) and the collector cloned; the result is the new heap and
the new contents of the receiver. -/
def Ledis.copy (heap : List Key) (other : Option Store) : Except String (List Key × Store) :=
  match other with
  | none => .error "nil copy source"
  | some o =>
    let atomicData : List (String × String) :=
      o.atomicData.foldl (fun m e => mapSet m e.1 e.2) []
    let setData : List (String × List String) :=
      o.setData.foldl (fun m e => mapSet m e.1 (e.2.foldl setInsert [])) []
    let hk : List Key × List (String × Nat) :=
      o.keys.foldl (fun hk e => (hk.1 ++ [deref hk.1 e.2], mapSet hk.2 e.1 hk.1.length))
        (heap, [])
    .ok (hk.1, { atomicData := atomicData, setData := setData, keys := hk.2,
                 gc := o.gc.clone hk.1 })

/-- Method `Ledis.save` of ledis.go: the snapshot is a copy of the live store. The sweeper
that `clone` starts for the snapshot is `garbageCollector.cleanSnapshot` below. -/
def Ledis.save (l : Ledis) : Option String × Ledis :=
  match Ledis.copy l.heap (some l.toStore) with
  | .error _ => (none, { l with snapshots := some { atomicData := [], setData := [], keys := [],
                                                     gc := { tree := .nil } } })
  | .ok (heap1, snapshot) => (none, { l with heap := heap1, snapshots := some snapshot })

/-- Method `Ledis.restore` of ledis.go: the live store becomes a copy of the snapshot and the
slot is emptied. -/
def Ledis.restore (l : Ledis) : Option String × Ledis :=
  match Ledis.copy l.heap l.snapshots with
  | .error e => (some ("failed to restore: " ++ e), l)
  | .ok (heap1, s) =>
    (none, { heap := heap1, atomicData := s.atomicData, setData := s.setData, keys := s.keys,
             snapshots := none, gc := s.gc })

/-- One tick of method `garbageCollector.clean` of garbage_collector.go, for the collector of
the live store `l` at the instant `now`: the collected keys are deleted from the store. -/
def garbageCollector.clean (l : Ledis) (now : Int) : Ledis :=
  (l.gc.collect l.heap now).foldl
    (fun (l : Ledis) removedKey => (l.deleteKey (some removedKey)).2) l

/-- One tick of method `garbageCollector.clean` for the collector that `clone` starts for the
snapshot (`go newGC.clean(ctx)`, bound to the snapshot): the keys collected from the tree of
the snapshot are deleted from the snapshot. Without a snapshot there is nothing to do. -/
def garbageCollector.cleanSnapshot (l : Ledis) (now : Int) : Ledis :=
  match l.snapshots with
  | none => l
  | some o =>
    let snapshot : Ledis :=
      { heap := l.heap, atomicData := o.atomicData, setData := o.setData, keys := o.keys,
        snapshots := none, gc := o.gc }
    { l with snapshots := some (garbageCollector.clean snapshot now).toStore }

/-- Method `Ledis.convertKeys` of ledis.go: the entry of each name, nil when absent. -/
def Ledis.convertKeys (l : Ledis) (keys : List String) : Except String (List (Option Nat)) :=
  if keys.length = 0 then .error "no keys provided"
  else .ok (keys.map (fun key => mapGet l.keys key))

/-- The pruning loop of `HandleCommand`: every expired entry is deleted from the
store. The loop assigns nil to its own variable, so the slice keeps the entry. -/
def Ledis.pruneLoop (l : Ledis) (now : Int) (keyEntries : List (Option Nat)) : Ledis :=
  keyEntries.foldl (fun (l : Ledis) keyEntry =>
    match keyEntry with
    | none => l
    | some p => if (deref l.heap p).isExpired now then (l.deleteKey (some p)).2 else l) l

/-- Turn the result of a verb body that returns only an error into an outcome. -/
def unitOutcome (r : Result Unit × Ledis) : Outcome × Ledis :=
  match r.1 with
  | .ok _ => (.ok none, r.2)
  | .error e => (.error e, r.2)
  | .crash => (.crash, r.2)

/-- Turn the result of a verb body that returns a slice into an outcome. -/
def listOutcome (r : Result (List String)) (l : Ledis) : Outcome × Ledis :=
  match r with
  | .ok v => (.ok (some v), l)
  | .error e => (.error e, l)
  | .crash => (.crash, l)

/-- The `switch` of `HandleCommand`, on the validated and upper-cased tokens. -/
def Ledis.dispatch (rt : Runtime) (l : Ledis) (now : Int) (cmdArg keys : List String)
    (keyEntries : List (Option Nat)) : Outcome × Ledis :=
  let verb := cmdArg.headD ""
  let entry0 := keyEntries.headD none
  if verb = "SET" then
    match entry0 with
    | none =>
      let p := l.heap.length
      let l1 : Ledis := { l with heap := l.heap ++ [newKey (keys.headD "") .KeyTypeString 0 now],
                                 keys := mapSet l.keys (keys.headD "") p }
      unitOutcome (l1.set now (some p) (cmdArg.getD 2 ""))
    | some p => unitOutcome (l.set now (some p) (cmdArg.getD 2 ""))
  else if verb = "GET" then
    match l.get entry0 with
    | .ok value => (.ok (some [value]), l)
    | .error e => (.error e, l)
    | .crash => (.crash, l)
  else if verb = "SADD" then
    match entry0 with
    | none =>
      let p := l.heap.length
      let l1 : Ledis := { l with heap := l.heap ++ [newKey (keys.headD "") .KeyTypeSet 0 now],
                                 keys := mapSet l.keys (keys.headD "") p }
      unitOutcome (l1.sadd (some p) (cmdArg.drop 2))
    | some p => unitOutcome (l.sadd (some p) (cmdArg.drop 2))
  else if verb = "SREM" then unitOutcome (l.srem entry0 (cmdArg.drop 2))
  else if verb = "SMEMBERS" then listOutcome (l.smembers entry0) l
  else if verb = "SINTER" then listOutcome (l.sinter keyEntries) l
  else if verb = "KEYS" then (.ok (some (l.listKeys now).1), (l.listKeys now).2)
  else if verb = "DEL" then
    match l.deleteKey entry0 with
    | (some e, l1) => (.error e, l1)
    | (none, l1) => (.ok none, l1)
  else if verb = "EXPIRE" then
    match Str2TimeDuration rt (cmdArg.getD 2 "") with
    | .error e => (.error ("invalid duration: " ++ e), l)
    | .ok timeDuration =>
      match l.setExpireKey now entry0 timeDuration with
      | (some e, l1) => (.error e, l1)
      | (none, l1) => (.ok none, l1)
  else if verb = "TTL" then
    match l.getTTL rt now entry0 with
    | .error e => (.error e, l)
    | .ok ttl => (.ok (some [toString ttl]), l)
  else if verb = "SAVE" then
    match l.save with
    | (some e, l1) => (.error e, l1)
    | (none, l1) => (.ok none, l1)
  else if verb = "RESTORE" then
    match l.restore with
    | (some e, l1) => (.error e, l1)
    | (none, l1) => (.ok none, l1)
  else (.ok none, l)

/-- Method `Ledis.HandleCommand` of ledis.go at the instant `now`. -/
def Ledis.HandleCommand (rt : Runtime) (l : Ledis) (now : Int) (cmd : String) :
    Outcome × Ledis :=
  let v := ValidateCmdAndGetKeys rt (ParseCmd cmd)
  match v.1 with
  | .error e => (.error e, l)
  | .ok keys =>
    if keys.length > 0 then
      match l.convertKeys keys with
      | .error e => (.error e, l)
      | .ok keyEntries => (l.pruneLoop now keyEntries).dispatch rt now v.2 keys keyEntries
    else l.dispatch rt now v.2 keys []

/-- Run a list of timed command lines, keeping the last state. -/
def Ledis.run (rt : Runtime) (l : Ledis) (cmds : List (Int × String)) : Ledis :=
  cmds.foldl (fun l c => (l.HandleCommand rt c.1 c.2).2) l

/-- The response slice `executeCommand` of server.go serialises for a success: a nil
slice becomes `["OK"]`. -/
def responseValues (resp : Option (List String)) : List String :=
  match resp with
  | none => ["OK"]
  | some vs => vs

end Storage

namespace Storage

/-! ## Specification-side tables -/

/-- Arity table of the specification (§4.1), written from its words: whether a
command of `n` tokens (verb included) is acceptable for the upper-cased `verb`. -/
def specArity (verb : String) (n : Nat) : Prop :=
  (verb = "SET" ∧ n = 3) ∨ (verb = "GET" ∧ n = 2) ∨ (verb = "SADD" ∧ 3 ≤ n) ∨
  (verb = "SREM" ∧ 3 ≤ n) ∨ (verb = "SMEMBERS" ∧ n = 2) ∨ (verb = "SINTER" ∧ 2 ≤ n) ∨
  (verb = "KEYS" ∧ n = 1) ∨ (verb = "DEL" ∧ n = 2) ∨ (verb = "EXPIRE" ∧ n = 3) ∨
  (verb = "TTL" ∧ n = 2) ∨ (verb = "SAVE" ∧ n = 1) ∨ (verb = "RESTORE" ∧ n = 1)

/-- Key column of the specification's table (§4.1), written from its words: `args[1..]`
for SINTER, nothing for KEYS, SAVE and RESTORE, `[args[1]]` for the other verbs. -/
def specKeys (verb : String) (args : List String) : List String :=
  if verb = "SINTER" then args.drop 1
  else if verb = "KEYS" ∨ verb = "SAVE" ∨ verb = "RESTORE" then []
  else (args.get? 1).toList

/-- The twelve verbs in their canonical upper-case form. -/
def verbs : List String :=
  ["SET", "GET", "SADD", "SREM", "SMEMBERS", "SINTER", "KEYS", "DEL", "EXPIRE", "TTL",
   "SAVE", "RESTORE"]

/-- The token `c0` spells `verb` up to the case of its ASCII letters. -/
def spellsVerb (c0 verb : String) : Prop := c0.data.map Char.toUpper = verb.data

/-- The command line tokenises to a first token that upper-cases to `verb`, followed
by the tokens `args`. -/
def isCmd (rt : Runtime) (line verb : String) (args : List String) : Prop :=
  ∃ c0, ParseCmd line = c0 :: args ∧ ToUpper rt c0 = verb

/-- Type invariant of the specification (§3, invariant 1), written from its words: a
name has metadata iff it has a value in exactly one of the two value maps, the one of
the metadata's kind. -/
def typeInvariant (l : Ledis) : Prop :=
  (∀ e ∈ l.keys,
    ((deref l.heap e.2)._type = .KeyTypeString →
      mapGet l.atomicData e.1 ≠ none ∧ mapGet l.setData e.1 = none) ∧
    ((deref l.heap e.2)._type = .KeyTypeSet →
      mapGet l.setData e.1 ≠ none ∧ mapGet l.atomicData e.1 = none)) ∧
  (∀ e ∈ l.atomicData, mapGet l.keys e.1 ≠ none) ∧
  (∀ e ∈ l.setData, mapGet l.keys e.1 ≠ none)

instance (l : Ledis) : Decidable (typeInvariant l) := by
  unfold typeInvariant; infer_instance

/-- Expiration-index invariant of the specification (§3, invariant 2), written from
its words: a key of the keyspace with a positive ttl has exactly one entry in the
index, a key with ttl 0 has none, and the entries are in the order of their current
expiration instants. -/
def indexInvariant (l : Ledis) : Prop :=
  (∀ e ∈ l.keys,
    (0 < (deref l.heap e.2).expireTime → l.gc.tree.inorder.count e.2 = 1) ∧
    ((deref l.heap e.2).expireTime = 0 → e.2 ∉ l.gc.tree.inorder)) ∧
  l.gc.tree.inorder.Pairwise
    (fun p q => (deref l.heap p).getExpireTime ≤ (deref l.heap q).getExpireTime)

instance (l : Ledis) : Decidable (indexInvariant l) := by
  unfold indexInvariant; infer_instance

/-- The store after `SET k v` and `EXPIRE k 1` at instant 0. -/
def storeWithExpiry : Ledis :=
  NewLedis.run asciiRuntime [(0, "SET k v"), (0, "EXPIRE k 1")]

/-- The store after `SADD s 1` at instant 0. -/
def storeWithSet : Ledis := NewLedis.run asciiRuntime [(0, "SADD s 1")]

/-- The store after `SET a x`, `SET b y`, `EXPIRE a 100` and `EXPIRE b 10` at instant 0. -/
def storeTwoExpiries : Ledis :=
  NewLedis.run asciiRuntime
    [(0, "SET a x"), (0, "SET b y"), (0, "EXPIRE a 100"), (0, "EXPIRE b 10")]

/-- The metadata record a name denotes: the record on the heap that the metadata map
points to. -/
def Ledis.keyMeta (l : Ledis) (name : String) : Option Key :=
  (mapGet l.keys name).bind (fun p => l.heap.get? p)

/-! ## Auxiliary definitions for the proofs -/

/-- The pruning loop on the single entry of a one-key verb. -/
def Ledis.prune1 (l : Ledis) (now : Int) (name : String) : Ledis :=
  l.pruneLoop now [mapGet l.keys name]

/-- The name is a scalar key holding `value`, renewed at `t` with duration `ttl`. -/
def holdsScalar (l : Ledis) (name value : String) (t ttl : Int) : Prop :=
  ∃ p, mapGet l.keys name = some p ∧ p < l.heap.length ∧
    deref l.heap p = { name := name, _type := .KeyTypeString, lastRenewed := t, expireTime := ttl } ∧
    mapGet l.atomicData name = some value

/-- The string `x` is a member of the set stored under the name of the key `p`. -/
def memberOf (l : Ledis) (p : Nat) (x : String) : Prop :=
  ∃ s, mapGet l.setData (deref l.heap p).name = some s ∧ x ∈ s

/-- The name is absent from the metadata map or denotes a key of kind Scalar. -/
def absentOrScalar (l : Ledis) (name : String) : Prop :=
  mapGet l.keys name = none ∨
  ∃ p, mapGet l.keys name = some p ∧ (deref l.heap p)._type = .KeyTypeString

/-- The name denotes a Set key that is not expired at `now` and has a set value. -/
def liveSet (l : Ledis) (now : Int) (name : String) : Prop :=
  ∃ k s, l.keyMeta name = some k ∧ k.name = name ∧ k._type = .KeyTypeSet ∧
    k.isExpired now = false ∧ mapGet l.setData name = some s

/-- The store after `SADD a 1 2 3` and `SADD b 2 3 4` at instant 0. -/
def storeTwoSets : Ledis :=
  NewLedis.run asciiRuntime [(0, "SADD a 1 2 3"), (0, "SADD b 2 3 4")]

/-- The keys of a keyspace with the metadata records they point to. -/
def viewKeys (heap : List Key) (keys : List (String × Nat)) : List (String × Key) :=
  keys.map (fun e => (e.1, deref heap e.2))

/-- Two states hold the same keyspace: the same scalar values, the same sets, and the
same names with equal metadata records (kind, last renewal, ttl). -/
def SameView (l l' : Ledis) : Prop :=
  l.atomicData = l'.atomicData ∧ l.setData = l'.setData ∧
  viewKeys l.heap l.keys = viewKeys l'.heap l'.keys

/-- The snapshot of `l`, if any, holds the keyspace of `s`. -/
def snapshotHolds (l s : Ledis) : Prop :=
  ∃ snap, l.snapshots = some snap ∧ snap.atomicData = s.atomicData ∧
    snap.setData = s.setData ∧ viewKeys l.heap snap.keys = viewKeys s.heap s.keys

/-- The live maps are Go maps (no name twice), the sets have no member twice, and
every pointer of the metadata map is allocated. -/
def Ledis.wf (l : Ledis) : Prop :=
  (l.atomicData.map Prod.fst).Nodup ∧ (l.setData.map Prod.fst).Nodup ∧
  (l.keys.map Prod.fst).Nodup ∧ (∀ e ∈ l.setData, e.2.Nodup) ∧
  (∀ e ∈ l.keys, e.2 < l.heap.length)

/-- States reached from the empty store by command lines at any instants. -/
inductive Reachable : Ledis → Prop where
  | init : Reachable NewLedis
  | step (rt : Runtime) (l : Ledis) (now : Int) (cmd : String) :
      Reachable l → Reachable (l.HandleCommand rt now cmd).2

/-- The command line has one of the five read verbs. -/
def isReadCmd (rt : Runtime) (line : String) : Prop :=
  ∃ c0 args, ParseCmd line = c0 :: args ∧
    ToUpper rt c0 ∈ ["GET", "SMEMBERS", "SINTER", "KEYS", "TTL"]

/-- The command line has the verb SAVE or the verb RESTORE. -/
def isSnapshotCmd (rt : Runtime) (line : String) : Prop :=
  ∃ c0 args, ParseCmd line = c0 :: args ∧ (ToUpper rt c0 = "SAVE" ∨ ToUpper rt c0 = "RESTORE")

/-- The state with a newly allocated key of the given kind registered under `name`. -/
def Ledis.alloc (l : Ledis) (now : Int) (name : String) (keyType : KeyType) : Ledis :=
  { l with heap := l.heap ++ [newKey name keyType 0 now],
           keys := mapSet l.keys name l.heap.length }

/-- A store is a well-formed copy source for the heap: Go maps, sets without repeated
members, allocated pointers. -/
def Store.wf (o : Store) (heap : List Key) : Prop :=
  (o.atomicData.map Prod.fst).Nodup ∧ (o.setData.map Prod.fst).Nodup ∧
  (o.keys.map Prod.fst).Nodup ∧ (∀ e ∈ o.setData, e.2.Nodup) ∧
  (∀ e ∈ o.keys, e.2 < heap.length)

/-- What a method working on the key `p` may change: not the snapshot slot, not the
size of the heap, no record other than that of `p`, and it adds no entry to the
metadata map. -/
def Frame (p : Option Nat) (l l' : Ledis) : Prop :=
  l'.snapshots = l.snapshots ∧ l'.heap.length = l.heap.length ∧
  (∀ q, some q ≠ p → deref l'.heap q = deref l.heap q) ∧
  (∀ e ∈ l'.keys, e ∈ l.keys)

/-- Two key entries denote equal records in their heaps (or are both nil). -/
def relEntry (heap heap' : List Key) (e e' : Option Nat) : Prop :=
  e.map (deref heap) = e'.map (deref heap')

/-- The invariant between SAVE and RESTORE: the slot holds `snap`, whose records are
allocated, read as `view`, and are not the records of any live key. -/
def snapInv (snap : Store) (view : List (String × Key)) (l : Ledis) : Prop :=
  l.snapshots = some snap ∧ viewKeys l.heap snap.keys = view ∧ Store.wf snap l.heap ∧
  ∀ e ∈ l.keys, ∀ e' ∈ snap.keys, e.2 ≠ e'.2

/-- The store after `SET k1 a` and `SADD k2 x y` at instant 0. -/
def storeScalarAndSet : Ledis :=
  NewLedis.run asciiRuntime [(0, "SET k1 a"), (0, "SADD k2 x y")]

/-- The store after `SET a x`, `SET b y`, `EXPIRE a 10` at instant 0 and `EXPIRE b 9` at
instant 1 s: the keys `a` and `b` both expire at 10 s. -/
def storeSameInstant : Ledis :=
  NewLedis.run asciiRuntime
    [(0, "SET a x"), (0, "SET b y"), (0, "EXPIRE a 10"), (1000000000, "EXPIRE b 9")]

/-- The store after `SET k v`, `EXPIRE k 100`, `SAVE`, `EXPIRE k 1`, `RESTORE`, all at
instant 0. -/
def storeRestored : Ledis :=
  NewLedis.run asciiRuntime
    [(0, "SET k v"), (0, "EXPIRE k 100"), (0, "SAVE"), (0, "EXPIRE k 1"), (0, "RESTORE")]

/-- The store after `SADD s 1` and `EXPIRE s 1` at instant 0. -/
def storeSetWithExpiry : Ledis :=
  NewLedis.run asciiRuntime [(0, "SADD s 1"), (0, "EXPIRE s 1")]

/-- The store after `SET k v` at instant 0. -/
def storeScalar : Ledis := NewLedis.run asciiRuntime [(0, "SET k v")]

/-- Value of a run of decimal digits, most significant digit first. -/
def digitsValue (ds : List Char) : Nat :=
  ds.foldl (fun acc c => acc * 10 + (c.toNat - 48)) 0

/-- Written from the words of the amended claim C12: the token `s` is a decimal integer
with an optional sign, one or more digits `0` to `9` after an optional `+` or `-`, and
its value `v` lies in the signed 64-bit range. -/
def isInt64Literal (s : String) (v : Int) : Prop :=
  ∃ ds : List Char, ds ≠ [] ∧ (∀ c ∈ ds, '0'.val ≤ c.val ∧ c.val ≤ '9'.val) ∧
    ((s.data = ds ∧ v = (digitsValue ds : Int)) ∨
     (s.data = '+' :: ds ∧ v = (digitsValue ds : Int)) ∨
     (s.data = '-' :: ds ∧ v = - (digitsValue ds : Int))) ∧
    -9223372036854775808 ≤ v ∧ v ≤ 9223372036854775807

/-- The tokens written one after another with one space between neighbours. -/
def joinSpace : List (List Char) → List Char
  | [] => []
  | [t] => t
  | t :: u :: ts => t ++ ' ' :: joinSpace (u :: ts)

/-- Every entry of a metadata map points to a record that carries the name of the
entry. -/
def namedKeys (heap : List Key) (keys : List (String × Nat)) : Prop :=
  ∀ e ∈ keys, (deref heap e.2).name = e.1

/-- The state is well formed, the records of the live keys carry their names, and so do
the allocated records of the keys of the snapshot. -/
def Ledis.named (l : Ledis) : Prop :=
  l.wf ∧ namedKeys l.heap l.keys ∧
  ∀ snap, l.snapshots = some snap → Store.wf snap l.heap ∧ namedKeys l.heap snap.keys

/-- The command line has one of the nine verbs that are not SET, EXPIRE or RESTORE. -/
def isQuietCmd (rt : Runtime) (line : String) : Prop :=
  ∃ c0 args, ParseCmd line = c0 :: args ∧
    ToUpper rt c0 ∈ ["GET", "SADD", "SREM", "SMEMBERS", "SINTER", "KEYS", "DEL", "TTL", "SAVE"]

/-- Between the first state and the second no record was changed and no key was
registered: the heap is the same and every entry of the metadata map is an entry from
before. -/
def Stable (l l' : Ledis) : Prop :=
  l'.heap = l.heap ∧ ∀ name p, mapGet l'.keys name = some p → mapGet l.keys name = some p

/-- Every name that has metadata in both states has the same record in both. -/
def Kept (l l' : Ledis) : Prop :=
  ∀ name k k', l.keyMeta name = some k → l'.keyMeta name = some k' → k' = k

/-- The store after `SET k v` and `EXPIRE k 100` at instant 0. -/
def storeLongExpiry : Ledis :=
  NewLedis.run asciiRuntime [(0, "SET k v"), (0, "EXPIRE k 100")]

end Storage

namespace Storage

/-! ## The validator -/

theorem getD_one_eq (cmd : List String) (h : 2 ≤ cmd.length) :
    [cmd[1]?.getD ""] = cmd[1]?.toList := by
  match cmd, h with
  | _ :: _ :: _, _ => simp

theorem validateSwitch_spec (verb : String) (cmd : List String) :
    ((∃ keys, validateSwitch verb cmd = .ok keys) ↔ specArity verb cmd.length) ∧
    (∀ keys, validateSwitch verb cmd = .ok keys → keys = specKeys verb cmd) := by
  have hk := getD_one_eq cmd
  generalize hn : cmd.length = n at hk
  by_cases h : verb ∈ verbs
  · simp only [verbs, List.mem_cons, List.mem_singleton, List.not_mem_nil, or_false] at h
    rcases h with rfl | rfl | rfl | rfl | rfl | rfl | rfl | rfl | rfl | rfl | rfl | rfl <;>
      simp [validateSwitch, specArity, specKeys, hn] <;>
      split_ifs with h1 <;> simp <;>
      first
        | omega
        | exact ⟨by omega, hk (by omega)⟩
  · simp only [verbs, List.mem_cons, List.mem_singleton, List.not_mem_nil, or_false, not_or] at h
    obtain ⟨h1, h2, h3, h4, h5, h6, h7, h8, h9, h10, h11, h12⟩ := h
    simp [validateSwitch, specArity, *]

theorem specKeys_head (verb c0 c1 : String) (rest : List String) :
    specKeys verb (c0 :: rest) = specKeys verb (c1 :: rest) := by
  simp [specKeys]

theorem toUpperRune_ascii (rt : Runtime) (c : Char) (h : (Char.toUpper c).toNat < 128) :
    toUpperRune rt c = Char.toUpper c := by
  unfold toUpperRune
  unfold Char.toUpper at h ⊢
  have ha : 'a'.toNat = 97 := rfl
  have hz : 'z'.toNat = 122 := rfl
  rw [ha, hz]
  by_cases hc : c.toNat ≥ 97 ∧ c.toNat ≤ 122
  · have h1 : c.toNat < 128 := by omega
    have h2 : 97 ≤ c.toNat ∧ c.toNat ≤ 122 := hc
    simp only [h1, h2, hc, and_self, if_true]
  · have h2 : ¬ (97 ≤ c.toNat ∧ c.toNat ≤ 122) := hc
    simp only [hc, if_false] at h
    simp only [h, h2, hc, if_true, if_false]

theorem ToUpper_of_spellsVerb (rt : Runtime) (c0 verb : String) (hv : verb ∈ verbs)
    (h : spellsVerb c0 verb) : ToUpper rt c0 = verb := by
  have hascii : ∀ c ∈ verb.data, c.toNat < 128 := by
    simp only [verbs, List.mem_cons, List.mem_singleton, List.not_mem_nil, or_false] at hv
    rcases hv with rfl | rfl | rfl | rfl | rfl | rfl | rfl | rfl | rfl | rfl | rfl | rfl <;>
      decide
  unfold spellsVerb at h
  unfold ToUpper
  have : c0.data.map (toUpperRune rt) = c0.data.map Char.toUpper := by
    apply List.map_congr_left
    intro c hc
    apply toUpperRune_ascii
    apply hascii
    rw [← h]
    exact List.mem_map_of_mem _ hc
  rw [this, h]

/-- C10: the validator succeeds exactly on a non-empty token list whose first token,
upper-cased, is one of the twelve verbs with a token count allowed by the arity table;
on success the key list is the one of the table; the result depends on the first token
only through its upper-case form, and a token that spells a verb in any mix of upper and
lower case is treated as the verb. -/
theorem validate_arity_table (rt : Runtime) (cmd : List String) :
    ((∃ keys, (ValidateCmdAndGetKeys rt cmd).1 = .ok keys) ↔
        ∃ c0 rest, cmd = c0 :: rest ∧ specArity (ToUpper rt c0) cmd.length) ∧
    (∀ c0 rest keys, cmd = c0 :: rest → (ValidateCmdAndGetKeys rt cmd).1 = .ok keys →
        keys = specKeys (ToUpper rt c0) cmd) ∧
    (∀ c0 c1 rest, cmd = c0 :: rest → ToUpper rt c1 = ToUpper rt c0 →
        (ValidateCmdAndGetKeys rt (c1 :: rest)).1 = (ValidateCmdAndGetKeys rt cmd).1) ∧
    (∀ verb ∈ verbs, ∀ c0 rest, spellsVerb c0 verb →
        ValidateCmdAndGetKeys rt (c0 :: rest) = ValidateCmdAndGetKeys rt (verb :: rest)) := by
  refine ⟨?_, ?_, ?_, ?_⟩
  · cases cmd with
    | nil => simp [ValidateCmdAndGetKeys]
    | cons c0 rest =>
      have h := (validateSwitch_spec (ToUpper rt c0) (ToUpper rt c0 :: rest)).1
      simp only [ValidateCmdAndGetKeys, List.length_cons] at h ⊢
      rw [h]
      constructor
      · intro hs; exact ⟨c0, rest, rfl, hs⟩
      · rintro ⟨c, r, hc, hs⟩
        cases hc; exact hs
  · intro c0 rest keys hc hv
    subst hc
    have h := (validateSwitch_spec (ToUpper rt c0) (ToUpper rt c0 :: rest)).2 keys hv
    rw [h]; exact specKeys_head _ _ _ _
  · intro c0 c1 rest hc hu
    subst hc
    simp only [ValidateCmdAndGetKeys, hu]
  · intro verb hv c0 rest hsp
    have h1 := ToUpper_of_spellsVerb rt c0 verb hv hsp
    have h2 := ToUpper_of_spellsVerb rt verb verb hv (by
      simp only [verbs, List.mem_cons, List.mem_singleton, List.not_mem_nil, or_false] at hv
      rcases hv with rfl | rfl | rfl | rfl | rfl | rfl | rfl | rfl | rfl | rfl | rfl | rfl <;>
        exact rfl)
    simp only [ValidateCmdAndGetKeys, h1, h2]

end Storage

namespace Storage

/-! ## The expiration tree: the recursion bound is never reached -/

namespace llrb

theorem size_toggle (h : Node) : (toggle h).size = h.size := by
  cases h <;> rfl

theorem size_flip (h : Node) : (flip h).size = h.size := by
  cases h with
  | nil => rfl
  | node i l r b => simp [flip, Node.size, size_toggle]

theorem size_rotateLeft (h : Node) : (rotateLeft h).size = h.size := by
  unfold rotateLeft
  split
  · simp only [Node.size]; omega
  · rfl

theorem size_rotateRight (h : Node) : (rotateRight h).size = h.size := by
  unfold rotateRight
  split
  · simp only [Node.size]; omega
  · rfl

theorem size_moveRedLeft (h : Node) : (moveRedLeft h).size = h.size := by
  unfold moveRedLeft
  have hf := size_flip h
  split
  · rename_i heq
    rw [heq] at hf
    exact hf
  · rename_i i l r b heq
    rw [heq] at hf
    split_ifs
    · rw [size_flip, size_rotateLeft]
      simp only [Node.size, size_rotateRight] at hf ⊢
      exact hf
    · exact hf

theorem size_moveRedRight (h : Node) : (moveRedRight h).size = h.size := by
  unfold moveRedRight
  dsimp only
  split_ifs
  · rw [size_flip, size_rotateRight, size_flip]
  · rw [size_flip]

theorem deleteMin_fuel (fuel1 fuel2 : Nat) (h : Node) (h1 : h.size ≤ fuel1)
    (h2 : h.size ≤ fuel2) : deleteMin fuel1 h = deleteMin fuel2 h := by
  induction fuel1 generalizing fuel2 h with
  | zero =>
    cases h with
    | nil => cases fuel2 <;> rfl
    | node i l r b => simp [Node.size] at h1
  | succ f1 ih =>
    cases h with
    | nil => cases fuel2 <;> rfl
    | node i l r b =>
      cases fuel2 with
      | zero => simp [Node.size] at h2
      | succ f2 =>
        cases l with
        | nil => rfl
        | node li ll lr lb =>
          simp only [deleteMin]
          have hs : ∀ h' : Node, h'.size = (Node.node i (Node.node li ll lr lb) r b).size →
              (match h' with
                | .nil => ((.nil : Node), (none : Option Nat))
                | .node i1 l1 r1 b1 =>
                  (fixUp (.node i1 (deleteMin f1 l1).1 r1 b1), (deleteMin f1 l1).2)) =
              (match h' with
                | .nil => ((.nil : Node), (none : Option Nat))
                | .node i1 l1 r1 b1 =>
                  (fixUp (.node i1 (deleteMin f2 l1).1 r1 b1), (deleteMin f2 l1).2)) := by
            intro h' hsz
            cases h' with
            | nil => rfl
            | node i1 l1 r1 b1 =>
              have : l1.size ≤ f1 ∧ l1.size ≤ f2 := by
                simp only [Node.size] at hsz h1 h2
                constructor <;> omega
              dsimp only
              rw [ih f2 l1 this.1 this.2]
          split_ifs
          · exact hs _ (size_moveRedLeft _)
          · exact hs _ rfl

theorem delete_fuel (less : Nat → Nat → Bool) (item : Nat) (fuel1 fuel2 : Nat) (h : Node)
    (h1 : h.size ≤ fuel1) (h2 : h.size ≤ fuel2) :
    delete less fuel1 h item = delete less fuel2 h item := by
  induction fuel1 generalizing fuel2 h with
  | zero =>
    cases h with
    | nil => cases fuel2 <;> rfl
    | node i l r b => simp [Node.size] at h1
  | succ f1 ih =>
    cases h with
    | nil => cases fuel2 <;> rfl
    | node i l r b =>
      cases fuel2 with
      | zero => simp [Node.size] at h2
      | succ f2 =>
        have hbound : ∀ (i1 : Nat) (l1 r1 : Node) (b1 : Bool),
            (Node.node i1 l1 r1 b1).size = (Node.node i l r b).size →
            (l1.size ≤ f1 ∧ l1.size ≤ f2) ∧ (r1.size ≤ f1 ∧ r1.size ≤ f2) := by
          intro i1 l1 r1 b1 hsz
          simp only [Node.size] at hsz h1 h2
          refine ⟨⟨?_, ?_⟩, ⟨?_, ?_⟩⟩ <;> omega
        have hsL : ∀ h' : Node, h'.size = (Node.node i l r b).size →
            (match h' with
              | Node.nil => ((Node.nil : Node), (none : Option Nat))
              | Node.node i1 l1 r1 b1 =>
                (fixUp (Node.node i1 (delete less f1 l1 item).1 r1 b1),
                  (delete less f1 l1 item).2)) =
            (match h' with
              | Node.nil => ((Node.nil : Node), (none : Option Nat))
              | Node.node i1 l1 r1 b1 =>
                (fixUp (Node.node i1 (delete less f2 l1 item).1 r1 b1),
                  (delete less f2 l1 item).2)) := by
          intro h' hsz
          cases h' with
          | nil => rfl
          | node i1 l1 r1 b1 =>
            have hb := (hbound i1 l1 r1 b1 hsz).1
            dsimp only
            rw [ih f2 l1 hb.1 hb.2]
        have hs2 : ∀ h'' : Node, h''.size = (Node.node i l r b).size →
            (match h'' with
              | Node.nil => ((Node.nil : Node), (none : Option Nat))
              | Node.node i2 l2 r2 b2 =>
                if (!less i2 item) = true then
                  match (deleteMin f1 r2).2 with
                  | none => (Node.node i2 l2 r2 b2, none)
                  | some sub => (fixUp (Node.node sub l2 (deleteMin f1 r2).1 b2), some i2)
                else
                  (fixUp (Node.node i2 l2 (delete less f1 r2 item).1 b2),
                    (delete less f1 r2 item).2)) =
            (match h'' with
              | Node.nil => ((Node.nil : Node), (none : Option Nat))
              | Node.node i2 l2 r2 b2 =>
                if (!less i2 item) = true then
                  match (deleteMin f2 r2).2 with
                  | none => (Node.node i2 l2 r2 b2, none)
                  | some sub => (fixUp (Node.node sub l2 (deleteMin f2 r2).1 b2), some i2)
                else
                  (fixUp (Node.node i2 l2 (delete less f2 r2 item).1 b2),
                    (delete less f2 r2 item).2)) := by
          intro h'' hsz
          cases h'' with
          | nil => rfl
          | node i2 l2 r2 b2 =>
            have hb := (hbound i2 l2 r2 b2 hsz).2
            dsimp only
            rw [ih f2 r2 hb.1 hb.2, deleteMin_fuel f1 f2 r2 hb.1 hb.2]
        have hs1 : ∀ h' : Node, h'.size = (Node.node i l r b).size →
            (match h' with
              | Node.nil => ((Node.nil : Node), (none : Option Nat))
              | Node.node i1 l1 r1 b1 =>
                if (!less i1 item && decide (r1 = Node.nil)) = true then (Node.nil, some i1)
                else
                  match (if (decide (r1 ≠ Node.nil) && !isRed r1 && !isRed r1.Left) = true
                         then moveRedRight (Node.node i1 l1 r1 b1) else Node.node i1 l1 r1 b1) with
                  | Node.nil => ((Node.nil : Node), (none : Option Nat))
                  | Node.node i2 l2 r2 b2 =>
                    if (!less i2 item) = true then
                      match (deleteMin f1 r2).2 with
                      | none => (Node.node i2 l2 r2 b2, none)
                      | some sub => (fixUp (Node.node sub l2 (deleteMin f1 r2).1 b2), some i2)
                    else
                      (fixUp (Node.node i2 l2 (delete less f1 r2 item).1 b2),
                        (delete less f1 r2 item).2)) =
            (match h' with
              | Node.nil => ((Node.nil : Node), (none : Option Nat))
              | Node.node i1 l1 r1 b1 =>
                if (!less i1 item && decide (r1 = Node.nil)) = true then (Node.nil, some i1)
                else
                  match (if (decide (r1 ≠ Node.nil) && !isRed r1 && !isRed r1.Left) = true
                         then moveRedRight (Node.node i1 l1 r1 b1) else Node.node i1 l1 r1 b1) with
                  | Node.nil => ((Node.nil : Node), (none : Option Nat))
                  | Node.node i2 l2 r2 b2 =>
                    if (!less i2 item) = true then
                      match (deleteMin f2 r2).2 with
                      | none => (Node.node i2 l2 r2 b2, none)
                      | some sub => (fixUp (Node.node sub l2 (deleteMin f2 r2).1 b2), some i2)
                    else
                      (fixUp (Node.node i2 l2 (delete less f2 r2 item).1 b2),
                        (delete less f2 r2 item).2)) := by
          intro h' hsz
          cases h' with
          | nil => rfl
          | node i1 l1 r1 b1 =>
            dsimp only
            split_ifs
            · rfl
            · exact hs2 _ ((size_moveRedRight _).trans hsz)
            · exact hs2 _ hsz
        cases l with
        | nil =>
          simp only [delete]
          split_ifs
          all_goals first
            | rfl
            | exact hs1 _ (size_rotateRight _)
        | node li ll lr lb =>
          simp only [delete]
          split_ifs
          all_goals first
            | rfl
            | exact hsL _ (size_moveRedLeft _)
            | exact hsL _ rfl
            | exact hs1 _ (size_rotateRight _)
            | exact hs1 _ rfl

/-- The bound `root.size` of `Delete` is never reached: every larger bound gives the
same tree. -/
theorem Delete_fuel (less : Nat → Nat → Bool) (root : Node) (item fuel : Nat)
    (h : root.size ≤ fuel) :
    blacken (delete less fuel root item).1 = Delete less root item := by
  unfold Delete
  rw [delete_fuel less item fuel root.size root h (le_refl _)]

end llrb

end Storage

namespace Storage

/-! ## Go maps and the heap -/

theorem mapGet_mapSet_same {V : Type} (m : List (String × V)) (k : String) (v : V) :
    mapGet (mapSet m k v) k = some v := by
  induction m with
  | nil => simp [mapSet, mapGet]
  | cons e es ih =>
    by_cases h : e.1 = k
    · simp [mapSet, mapGet, h]
    · simp [mapSet, mapGet, h, ih]

theorem mapGet_mapSet_ne {V : Type} (m : List (String × V)) (k k' : String) (v : V)
    (hne : k' ≠ k) : mapGet (mapSet m k v) k' = mapGet m k' := by
  induction m with
  | nil => simp [mapSet, mapGet, hne.symm]
  | cons e es ih =>
    obtain ⟨a, b⟩ := e
    by_cases h : a = k
    · subst h
      simp [mapSet, mapGet, hne.symm]
    · by_cases h2 : a = k'
      · subst h2
        simp [mapSet, mapGet, h]
      · simp [mapSet, mapGet, h, h2, ih]

theorem mapGet_mapDelete_same {V : Type} (m : List (String × V)) (k : String) :
    mapGet (mapDelete m k) k = none := by
  induction m with
  | nil => simp [mapDelete, mapGet]
  | cons e es ih =>
    by_cases h : e.1 = k
    · simpa [mapDelete, List.filter_cons, h] using ih
    · simpa [mapDelete, List.filter_cons, h, mapGet] using ih

theorem mapGet_mapDelete_ne {V : Type} (m : List (String × V)) (k k' : String)
    (hne : k' ≠ k) : mapGet (mapDelete m k) k' = mapGet m k' := by
  induction m with
  | nil => simp [mapDelete, mapGet]
  | cons e es ih =>
    obtain ⟨a, b⟩ := e
    by_cases h : a = k
    · subst h
      simpa [mapDelete, List.filter_cons, mapGet, hne.symm] using ih
    · by_cases h2 : a = k'
      · subst h2
        simp [mapDelete, List.filter_cons, h, mapGet]
      · simpa [mapDelete, List.filter_cons, h, mapGet, h2] using ih

theorem mapGet_eq_none_iff {V : Type} (m : List (String × V)) (k : String) :
    mapGet m k = none ↔ ∀ e ∈ m, e.1 ≠ k := by
  induction m with
  | nil => simp [mapGet]
  | cons e es ih =>
    by_cases h : e.1 = k
    · simp [mapGet, h]
    · simp [mapGet, h, ih]

theorem mapGet_some_mem {V : Type} (m : List (String × V)) (k : String) (v : V)
    (h : mapGet m k = some v) : (k, v) ∈ m := by
  induction m with
  | nil => simp [mapGet] at h
  | cons e es ih =>
    by_cases hk : e.1 = k
    · simp [mapGet, hk] at h
      have : e = (k, v) := by
        cases e; simp_all
      simp [this]
    · simp [mapGet, hk] at h
      exact List.mem_cons_of_mem _ (ih h)

theorem mem_mapSet {V : Type} (m : List (String × V)) (k : String) (v : V) (e : String × V)
    (h : e ∈ mapSet m k v) : e = (k, v) ∨ e ∈ m := by
  induction m with
  | nil => simpa [mapSet] using h
  | cons a as ih =>
    by_cases ha : a.1 = k
    · simp [mapSet, ha] at h
      rcases h with h | h
      · exact Or.inl h
      · exact Or.inr (List.mem_cons_of_mem _ h)
    · simp [mapSet, ha] at h
      rcases h with h | h
      · exact Or.inr (by simp [h])
      · rcases ih h with h' | h'
        · exact Or.inl h'
        · exact Or.inr (List.mem_cons_of_mem _ h')

theorem mem_mapDelete {V : Type} (m : List (String × V)) (k : String) (e : String × V)
    (h : e ∈ mapDelete m k) : e ∈ m ∧ e.1 ≠ k := by
  simpa [mapDelete] using h

theorem names_mapSet {V : Type} (m : List (String × V)) (k : String) (v : V) :
    (mapSet m k v).map Prod.fst =
      if k ∈ m.map Prod.fst then m.map Prod.fst else m.map Prod.fst ++ [k] := by
  induction m with
  | nil => simp [mapSet]
  | cons e es ih =>
    by_cases h : e.1 = k
    · simp [mapSet, h]
    · have h' : ¬ k = e.1 := fun hk => h hk.symm
      simp only [mapSet, h, if_false, List.map_cons, ih, List.mem_cons, h', false_or]
      split_ifs <;> simp

theorem nodup_mapSet {V : Type} (m : List (String × V)) (k : String) (v : V)
    (h : (m.map Prod.fst).Nodup) : ((mapSet m k v).map Prod.fst).Nodup := by
  rw [names_mapSet]
  split_ifs with hk
  · exact h
  · exact List.Nodup.append h (List.nodup_singleton k) (by simpa using hk)

theorem nodup_mapDelete {V : Type} (m : List (String × V)) (k : String)
    (h : (m.map Prod.fst).Nodup) : ((mapDelete m k).map Prod.fst).Nodup := by
  unfold mapDelete
  exact (List.Nodup.sublist (List.Sublist.map _ (List.filter_sublist m)) h)

theorem mapSet_append_fresh {V : Type} (m : List (String × V)) (k : String) (v : V)
    (h : k ∉ m.map Prod.fst) : mapSet m k v = m ++ [(k, v)] := by
  induction m with
  | nil => simp [mapSet]
  | cons e es ih =>
    have h1 : ¬ e.1 = k := fun hk => h (by simp [hk])
    have h2 : k ∉ es.map Prod.fst := fun hk => h (by simp at hk ⊢; exact Or.inr hk)
    simp [mapSet, h1, ih h2]

theorem foldl_mapSet_copy {V W : Type} (f : V → W) (g : String × V → String × W)
    (hg : ∀ e, g e = (e.1, f e.2)) (m : List (String × V)) (acc : List (String × W))
    (h : (acc.map Prod.fst ++ m.map Prod.fst).Nodup) :
    m.foldl (fun a e => mapSet a e.1 (f e.2)) acc = acc ++ m.map g := by
  induction m generalizing acc with
  | nil => simp
  | cons e es ih =>
    have hfresh : e.1 ∉ acc.map Prod.fst := by
      intro hmem
      have := List.nodup_append.mp h
      exact this.2.2 hmem (by simp)
    rw [List.foldl_cons, mapSet_append_fresh acc e.1 (f e.2) hfresh, ih]
    · simp [hg]
    · simpa [List.append_assoc] using h

theorem setInsert_mem (s : List String) (v x : String) :
    x ∈ setInsert s v ↔ x ∈ s ∨ x = v := by
  unfold setInsert
  split_ifs with h
  · constructor
    · exact Or.inl
    · rintro (h1 | h1)
      · exact h1
      · exact h1 ▸ h
  · simp

theorem setInsert_nodup (s : List String) (v : String) (h : s.Nodup) :
    (setInsert s v).Nodup := by
  unfold setInsert
  split_ifs with hv
  · exact h
  · exact List.Nodup.append h (List.nodup_singleton v) (by simpa using hv)

theorem foldl_setInsert_mem (s acc : List String) (x : String) :
    x ∈ s.foldl setInsert acc ↔ x ∈ acc ∨ x ∈ s := by
  induction s generalizing acc with
  | nil => simp
  | cons a as ih =>
    rw [List.foldl_cons, ih, setInsert_mem]
    simp only [List.mem_cons]
    tauto

theorem foldl_setInsert_nodup (s acc : List String) (h : acc.Nodup) :
    (s.foldl setInsert acc).Nodup := by
  induction s generalizing acc with
  | nil => simpa using h
  | cons a as ih =>
    rw [List.foldl_cons]
    exact ih _ (setInsert_nodup acc a h)

theorem foldl_setInsert_copy (s acc : List String) (h : (acc ++ s).Nodup) :
    s.foldl setInsert acc = acc ++ s := by
  induction s generalizing acc with
  | nil => simp
  | cons a as ih =>
    have hfresh : a ∉ acc := by
      intro hmem
      exact (List.nodup_append.mp h).2.2 hmem (by simp)
    rw [List.foldl_cons]
    have : setInsert acc a = acc ++ [a] := by simp [setInsert, hfresh]
    rw [this, ih]
    · simp
    · simpa [List.append_assoc] using h

theorem deref_set_same (heap : List Key) (p : Nat) (k : Key) (h : p < heap.length) :
    deref (heap.set p k) p = k := by
  simp [deref, List.getD, h]

theorem deref_set_ne (heap : List Key) (p q : Nat) (k : Key) (h : q ≠ p) :
    deref (heap.set p k) q = deref heap q := by
  simp [deref, List.getD, List.getElem?_set_ne (Ne.symm h)]

theorem deref_append_left (heap : List Key) (p : Nat) (k : Key) (h : p < heap.length) :
    deref (heap ++ [k]) p = deref heap p := by
  simp [deref, List.getD, List.getElem?_append_left h]

theorem deref_append_length (heap : List Key) (k : Key) :
    deref (heap ++ [k]) heap.length = k := by
  simp [deref, List.getD]

end Storage

namespace Storage

/-! ## What each method changes -/

theorem renewKey_heap (l : Ledis) (now : Int) (p : Nat) :
    (l.renewKey now (some p)).heap = l.heap.set p { deref l.heap p with lastRenewed := now } := by
  unfold Ledis.renewKey; dsimp only; split_ifs <;> rfl

theorem renewKey_keys (l : Ledis) (now : Int) (key : Option Nat) :
    (l.renewKey now key).keys = l.keys := by
  cases key with
  | none => rfl
  | some p => unfold Ledis.renewKey; dsimp only; split_ifs <;> rfl

theorem renewKey_atomicData (l : Ledis) (now : Int) (key : Option Nat) :
    (l.renewKey now key).atomicData = l.atomicData := by
  cases key with
  | none => rfl
  | some p => unfold Ledis.renewKey; dsimp only; split_ifs <;> rfl

theorem renewKey_setData (l : Ledis) (now : Int) (key : Option Nat) :
    (l.renewKey now key).setData = l.setData := by
  cases key with
  | none => rfl
  | some p => unfold Ledis.renewKey; dsimp only; split_ifs <;> rfl

theorem renewKey_snapshots (l : Ledis) (now : Int) (key : Option Nat) :
    (l.renewKey now key).snapshots = l.snapshots := by
  cases key with
  | none => rfl
  | some p => unfold Ledis.renewKey; dsimp only; split_ifs <;> rfl

theorem deleteKey_none (l : Ledis) : l.deleteKey none = (some "key not found", l) := rfl

theorem deleteKey_fst (l : Ledis) (p : Nat) : (l.deleteKey (some p)).1 = none := rfl

theorem deleteKey_heap (l : Ledis) (key : Option Nat) : (l.deleteKey key).2.heap = l.heap := by
  cases key with
  | none => rfl
  | some p => unfold Ledis.deleteKey; dsimp only; split_ifs <;> rfl

theorem deleteKey_snapshots (l : Ledis) (key : Option Nat) :
    (l.deleteKey key).2.snapshots = l.snapshots := by
  cases key with
  | none => rfl
  | some p => unfold Ledis.deleteKey; dsimp only; split_ifs <;> rfl

theorem deleteKey_keys (l : Ledis) (p : Nat) :
    (l.deleteKey (some p)).2.keys = mapDelete l.keys (deref l.heap p).name := by
  unfold Ledis.deleteKey; dsimp only; split_ifs <;> rfl

theorem deleteKey_atomicData (l : Ledis) (p : Nat) :
    (l.deleteKey (some p)).2.atomicData =
      if (deref l.heap p)._type = .KeyTypeString
      then mapDelete l.atomicData (deref l.heap p).name else l.atomicData := by
  unfold Ledis.deleteKey; dsimp only; split_ifs <;> rfl

theorem deleteKey_setData (l : Ledis) (p : Nat) :
    (l.deleteKey (some p)).2.setData =
      if (deref l.heap p)._type = .KeyTypeString
      then l.setData else mapDelete l.setData (deref l.heap p).name := by
  unfold Ledis.deleteKey; dsimp only; split_ifs <;> rfl

theorem prune1_absent (l : Ledis) (now : Int) (name : String)
    (h : mapGet l.keys name = none) : l.prune1 now name = l := by
  simp [Ledis.prune1, Ledis.pruneLoop, h]

theorem prune1_live (l : Ledis) (now : Int) (name : String) (p : Nat)
    (h : mapGet l.keys name = some p) (hl : (deref l.heap p).isExpired now = false) :
    l.prune1 now name = l := by
  simp [Ledis.prune1, Ledis.pruneLoop, h, hl]

theorem prune1_expired (l : Ledis) (now : Int) (name : String) (p : Nat)
    (h : mapGet l.keys name = some p) (hl : (deref l.heap p).isExpired now = true) :
    l.prune1 now name = (l.deleteKey (some p)).2 := by
  simp [Ledis.prune1, Ledis.pruneLoop, h, hl]

theorem set_scalar (l : Ledis) (now : Int) (p : Nat) (value : String)
    (ht : (deref l.heap p)._type = .KeyTypeString) :
    l.set now (some p) value =
      (.ok (), Ledis.renewKey
        { l with atomicData := mapSet l.atomicData (deref l.heap p).name value } now (some p)) := by
  simp [Ledis.set, ht]

theorem set_not_scalar (l : Ledis) (now : Int) (p : Nat) (value : String)
    (ht : (deref l.heap p)._type ≠ .KeyTypeString) :
    l.set now (some p) value =
      (.error "key is not valid, this key may be a set key and does not support SET command",
        { l with atomicData := mapSet l.atomicData (deref l.heap p).name value }) := by
  simp [Ledis.set, ht]

end Storage

namespace Storage

/-! ## Unfolding `HandleCommand` on a recognised command -/

theorem HandleCommand_of_isCmd (rt : Runtime) (l : Ledis) (now : Int) (line verb : String)
    (args : List String) (h : isCmd rt line verb args) :
    l.HandleCommand rt now line =
      match validateSwitch verb (verb :: args) with
      | .error e => (.error e, l)
      | .ok keys =>
        if keys.length > 0 then
          match l.convertKeys keys with
          | .error e => (.error e, l)
          | .ok keyEntries =>
            (l.pruneLoop now keyEntries).dispatch rt now (verb :: args) keys keyEntries
        else l.dispatch rt now (verb :: args) keys [] := by
  obtain ⟨c0, hp, hu⟩ := h
  simp only [Ledis.HandleCommand, hp, ValidateCmdAndGetKeys, hu]

theorem HandleCommand_RESTORE (rt : Runtime) (l : Ledis) (now : Int) (line : String)
    (h : isCmd rt line "RESTORE" []) :
    l.HandleCommand rt now line =
      match l.restore with
      | (some e, l1) => (.error e, l1)
      | (none, l1) => (.ok none, l1) := by
  rw [HandleCommand_of_isCmd rt l now line _ _ h]
  simp [validateSwitch, Ledis.dispatch]

theorem HandleCommand_SAVE (rt : Runtime) (l : Ledis) (now : Int) (line : String)
    (h : isCmd rt line "SAVE" []) :
    l.HandleCommand rt now line =
      match l.save with
      | (some e, l1) => (.error e, l1)
      | (none, l1) => (.ok none, l1) := by
  rw [HandleCommand_of_isCmd rt l now line _ _ h]
  simp [validateSwitch, Ledis.dispatch]

theorem HandleCommand_KEYS (rt : Runtime) (l : Ledis) (now : Int) (line : String)
    (h : isCmd rt line "KEYS" []) :
    l.HandleCommand rt now line = (.ok (some (l.listKeys now).1), (l.listKeys now).2) := by
  rw [HandleCommand_of_isCmd rt l now line _ _ h]
  simp [validateSwitch, Ledis.dispatch]

theorem HandleCommand_GET (rt : Runtime) (l : Ledis) (now : Int) (line name : String)
    (h : isCmd rt line "GET" [name]) :
    l.HandleCommand rt now line =
      match (l.prune1 now name).get (mapGet l.keys name) with
      | .ok value => (.ok (some [value]), l.prune1 now name)
      | .error e => (.error e, l.prune1 now name)
      | .crash => (.crash, l.prune1 now name) := by
  rw [HandleCommand_of_isCmd rt l now line _ _ h]
  simp [validateSwitch, Ledis.dispatch, Ledis.convertKeys, Ledis.prune1]

theorem HandleCommand_SMEMBERS (rt : Runtime) (l : Ledis) (now : Int) (line name : String)
    (h : isCmd rt line "SMEMBERS" [name]) :
    l.HandleCommand rt now line =
      listOutcome ((l.prune1 now name).smembers (mapGet l.keys name)) (l.prune1 now name) := by
  rw [HandleCommand_of_isCmd rt l now line _ _ h]
  simp [validateSwitch, Ledis.dispatch, Ledis.convertKeys, Ledis.prune1]

theorem HandleCommand_TTL (rt : Runtime) (l : Ledis) (now : Int) (line name : String)
    (h : isCmd rt line "TTL" [name]) :
    l.HandleCommand rt now line =
      match (l.prune1 now name).getTTL rt now (mapGet l.keys name) with
      | .error e => (.error e, l.prune1 now name)
      | .ok ttl => (.ok (some [toString ttl]), l.prune1 now name) := by
  rw [HandleCommand_of_isCmd rt l now line _ _ h]
  simp [validateSwitch, Ledis.dispatch, Ledis.convertKeys, Ledis.prune1]

theorem HandleCommand_DEL (rt : Runtime) (l : Ledis) (now : Int) (line name : String)
    (h : isCmd rt line "DEL" [name]) :
    l.HandleCommand rt now line =
      match (l.prune1 now name).deleteKey (mapGet l.keys name) with
      | (some e, l1) => (.error e, l1)
      | (none, l1) => (.ok none, l1) := by
  rw [HandleCommand_of_isCmd rt l now line _ _ h]
  simp [validateSwitch, Ledis.dispatch, Ledis.convertKeys, Ledis.prune1]

theorem HandleCommand_SET (rt : Runtime) (l : Ledis) (now : Int) (line name value : String)
    (h : isCmd rt line "SET" [name, value]) :
    l.HandleCommand rt now line =
      match mapGet l.keys name with
      | none =>
        unitOutcome (Ledis.set
          { l.prune1 now name with
            heap := (l.prune1 now name).heap ++ [newKey name .KeyTypeString 0 now],
            keys := mapSet (l.prune1 now name).keys name (l.prune1 now name).heap.length }
          now (some (l.prune1 now name).heap.length) value)
      | some p => unitOutcome ((l.prune1 now name).set now (some p) value) := by
  rw [HandleCommand_of_isCmd rt l now line _ _ h]
  simp [validateSwitch, Ledis.dispatch, Ledis.convertKeys, Ledis.prune1]

theorem HandleCommand_SINTER (rt : Runtime) (l : Ledis) (now : Int) (line : String)
    (names : List String) (hne : names ≠ []) (h : isCmd rt line "SINTER" names) :
    l.HandleCommand rt now line =
      listOutcome
        ((l.pruneLoop now (names.map (mapGet l.keys))).sinter (names.map (mapGet l.keys)))
        (l.pruneLoop now (names.map (mapGet l.keys))) := by
  rw [HandleCommand_of_isCmd rt l now line _ _ h]
  cases names with
  | nil => exact absurd rfl hne
  | cons n ns =>
    have h2 : ¬ (ns.length + 1 + 1 < 2) := by omega
    simp [validateSwitch, Ledis.dispatch, Ledis.convertKeys, h2]

end Storage

namespace Storage

/-! ## The states a command can lead to -/

theorem unitOutcome_snd (r : Result Unit × Ledis) : (unitOutcome r).2 = r.2 := by
  obtain ⟨a, b⟩ := r
  cases a <;> rfl

theorem listOutcome_snd (r : Result (List String)) (l : Ledis) : (listOutcome r l).2 = l := by
  cases r <;> rfl

theorem dispatch_preserves (P : Ledis → Prop) (rt : Runtime) (l : Ledis) (now : Int)
    (cmdArg keys : List String) (es : List (Option Nat))
    (h_same : P l)
    (h_set : ∀ p, es.headD none = some p → P (l.set now (some p) (cmdArg.getD 2 "")).2)
    (h_set_new : es.headD none = none →
      P ((l.alloc now (keys.headD "") .KeyTypeString).set now (some l.heap.length)
        (cmdArg.getD 2 "")).2)
    (h_sadd : ∀ p, es.headD none = some p → P (l.sadd (some p) (cmdArg.drop 2)).2)
    (h_sadd_new : es.headD none = none →
      P ((l.alloc now (keys.headD "") .KeyTypeSet).sadd (some l.heap.length)
        (cmdArg.drop 2)).2)
    (h_srem : P (l.srem (es.headD none) (cmdArg.drop 2)).2)
    (h_del : P (l.deleteKey (es.headD none)).2)
    (h_exp : ∀ d, P (l.setExpireKey now (es.headD none) d).2)
    (h_keys : P (l.listKeys now).2)
    (h_save : cmdArg.headD "" = "SAVE" → P l.save.2)
    (h_restore : cmdArg.headD "" = "RESTORE" → P l.restore.2) :
    P (l.dispatch rt now cmdArg keys es).2 := by
  by_cases hv : cmdArg.headD "" ∈ verbs
  · simp only [verbs, List.mem_cons, List.mem_singleton, List.not_mem_nil, or_false] at hv
    rcases hv with hv | hv | hv | hv | hv | hv | hv | hv | hv | hv | hv | hv
    · -- SET
      cases he : es.headD none with
      | none =>
        have := h_set_new he
        simp only [Ledis.dispatch, hv, he, if_true]
        rw [unitOutcome_snd]; exact this
      | some p =>
        have := h_set p he
        simp only [Ledis.dispatch, hv, he, if_true]
        rw [unitOutcome_snd]; exact this
    · -- GET
      simp only [Ledis.dispatch, hv]
      simp only [String.reduceEq, if_false, if_true]
      cases l.get (es.headD none) <;> exact h_same
    · -- SADD
      cases he : es.headD none with
      | none =>
        have := h_sadd_new he
        simp only [Ledis.dispatch, hv, he]
        simp only [String.reduceEq, if_false, if_true]
        rw [unitOutcome_snd]; exact this
      | some p =>
        have := h_sadd p he
        simp only [Ledis.dispatch, hv, he]
        simp only [String.reduceEq, if_false, if_true]
        rw [unitOutcome_snd]; exact this
    · -- SREM
      simp only [Ledis.dispatch, hv]
      simp only [String.reduceEq, if_false, if_true]
      rw [unitOutcome_snd]; exact h_srem
    · -- SMEMBERS
      simp only [Ledis.dispatch, hv]
      simp only [String.reduceEq, if_false, if_true]
      rw [listOutcome_snd]; exact h_same
    · -- SINTER
      simp only [Ledis.dispatch, hv]
      simp only [String.reduceEq, if_false, if_true]
      rw [listOutcome_snd]; exact h_same
    · -- KEYS
      simp only [Ledis.dispatch, hv]
      simp only [String.reduceEq, if_false, if_true]
      exact h_keys
    · -- DEL
      simp only [Ledis.dispatch, hv]
      simp only [String.reduceEq, if_false, if_true]
      generalize l.deleteKey (es.headD none) = r at h_del ⊢
      obtain ⟨a, b⟩ := r
      cases a <;> exact h_del
    · -- EXPIRE
      simp only [Ledis.dispatch, hv]
      simp only [String.reduceEq, if_false, if_true]
      cases Str2TimeDuration rt (cmdArg.getD 2 "") with
      | error e => exact h_same
      | ok d =>
        have := h_exp d
        dsimp only
        generalize l.setExpireKey now (es.headD none) d = r at this ⊢
        obtain ⟨a, b⟩ := r
        cases a <;> exact this
    · -- TTL
      simp only [Ledis.dispatch, hv]
      simp only [String.reduceEq, if_false, if_true]
      cases l.getTTL rt now (es.headD none) <;> exact h_same
    · -- SAVE
      have := h_save hv
      simp only [Ledis.dispatch, hv]
      simp only [String.reduceEq, if_false, if_true]
      generalize l.save = r at this ⊢
      obtain ⟨a, b⟩ := r
      cases a <;> exact this
    · -- RESTORE
      have := h_restore hv
      simp only [Ledis.dispatch, hv]
      simp only [String.reduceEq, if_false, if_true]
      generalize l.restore = r at this ⊢
      obtain ⟨a, b⟩ := r
      cases a <;> exact this
  · simp only [verbs, List.mem_cons, List.mem_singleton, List.not_mem_nil, or_false, not_or] at hv
    obtain ⟨h1, h2, h3, h4, h5, h6, h7, h8, h9, h10, h11, h12⟩ := hv
    simp only [Ledis.dispatch, h1, h2, h3, h4, h5, h6, h7, h8, h9, h10, h11, h12, if_false]
    exact h_same

end Storage

namespace Storage

theorem pruneLoop_preserves (P : Ledis → Prop) (Q : Nat → Prop) (now : Int)
    (h_del : ∀ l p, P l → Q p → P (l.deleteKey (some p)).2)
    (es : List (Option Nat)) (hes : ∀ p, some p ∈ es → Q p) (l : Ledis) (hl : P l) :
    P (l.pruneLoop now es) := by
  unfold Ledis.pruneLoop
  induction es generalizing l with
  | nil => exact hl
  | cons e es ih =>
    rw [List.foldl_cons]
    apply ih (fun p hp => hes p (List.mem_cons_of_mem _ hp))
    cases e with
    | none => exact hl
    | some p =>
      dsimp only
      split_ifs
      · exact h_del l p hl (hes p (by simp))
      · exact hl

theorem listKeys_preserves (P : Ledis → Prop) (Q : Nat → Prop) (now : Int)
    (hPQ : ∀ l, P l → ∀ e ∈ l.keys, Q e.2)
    (h_del : ∀ l p, P l → Q p → P (l.deleteKey (some p)).2)
    (l : Ledis) (hl : P l) : P (l.listKeys now).2 := by
  unfold Ledis.listKeys
  dsimp only
  generalize (l.keys.filter (fun e => (deref l.heap e.2).isExpired now)).map Prod.fst = names
  induction names generalizing l with
  | nil => exact hl
  | cons n ns ih =>
    rw [List.foldl_cons]
    apply ih
    cases hg : mapGet l.keys n with
    | none => exact hl
    | some p => exact h_del l p hl (hPQ l hl _ (mapGet_some_mem _ _ _ hg))

theorem headD_mem (es : List (Option Nat)) (p : Nat) (h : es.headD none = some p) :
    some p ∈ es := by
  cases es with
  | nil => simp at h
  | cons e rest =>
    simp only [List.headD_cons] at h
    simp [h]

theorem HandleCommand_preserves (P : Ledis → Prop) (Q : Nat → Prop) (rt : Runtime)
    (l : Ledis) (now : Int) (cmd : String)
    (hPQ : ∀ l, P l → ∀ e ∈ l.keys, Q e.2)
    (hl : P l)
    (h_del : ∀ l p, P l → Q p → P (l.deleteKey (some p)).2)
    (h_alloc : ∀ l name ty, P l → P (l.alloc now name ty) ∧ Q l.heap.length)
    (h_set : ∀ l p v, P l → Q p → P (l.set now (some p) v).2)
    (h_sadd : ∀ l p vs, P l → Q p → P (l.sadd (some p) vs).2)
    (h_srem : ∀ l p vs, P l → Q p → P (l.srem (some p) vs).2)
    (h_exp : ∀ l p d, P l → Q p → P (l.setExpireKey now (some p) d).2)
    (h_save : ∀ l, P l → isSnapshotCmd rt cmd → P l.save.2)
    (h_restore : ∀ l, P l → isSnapshotCmd rt cmd → P l.restore.2) :
    P (l.HandleCommand rt now cmd).2 := by
  have hdisp : ∀ (l1 : Ledis) (cmdArg keys : List String) (es : List (Option Nat)),
      P l1 → (∀ p, some p ∈ es → Q p) →
      ((cmdArg.headD "" = "SAVE" ∨ cmdArg.headD "" = "RESTORE") → isSnapshotCmd rt cmd) →
      P (l1.dispatch rt now cmdArg keys es).2 := by
    intro l1 cmdArg keys es h1 hes hsnap
    apply dispatch_preserves P rt l1 now cmdArg keys es h1
    · intro p hp
      exact h_set l1 p _ h1 (hes p (headD_mem es p hp))
    · intro _
      have := h_alloc l1 (keys.headD "") .KeyTypeString h1
      exact h_set _ _ _ this.1 this.2
    · intro p hp
      exact h_sadd l1 p _ h1 (hes p (headD_mem es p hp))
    · intro _
      have := h_alloc l1 (keys.headD "") .KeyTypeSet h1
      exact h_sadd _ _ _ this.1 this.2
    · cases he : es.headD none with
      | none => exact h1
      | some p => exact h_srem l1 p _ h1 (hes p (headD_mem es p he))
    · cases he : es.headD none with
      | none => exact h1
      | some p => exact h_del l1 p h1 (hes p (headD_mem es p he))
    · intro d
      cases he : es.headD none with
      | none => exact h1
      | some p => exact h_exp l1 p d h1 (hes p (headD_mem es p he))
    · exact listKeys_preserves P Q now hPQ h_del l1 h1
    · intro hv
      exact h_save l1 h1 (hsnap (Or.inl hv))
    · intro hv
      exact h_restore l1 h1 (hsnap (Or.inr hv))
  unfold Ledis.HandleCommand
  cases hparse : ParseCmd cmd with
  | nil => simpa [ValidateCmdAndGetKeys] using hl
  | cons c0 rest =>
    simp only [ValidateCmdAndGetKeys]
    have hsnap : (((ToUpper rt c0 :: rest).headD "" = "SAVE" ∨
        (ToUpper rt c0 :: rest).headD "" = "RESTORE") → isSnapshotCmd rt cmd) := by
      intro h
      exact ⟨c0, rest, hparse, by simpa using h⟩
    cases validateSwitch (ToUpper rt c0) (ToUpper rt c0 :: rest) with
    | error e => exact hl
    | ok keys =>
      dsimp only
      split_ifs with hlen
      · have hconv : l.convertKeys keys = .ok (keys.map (fun key => mapGet l.keys key)) := by
          unfold Ledis.convertKeys
          rw [if_neg (by omega)]
        rw [hconv]
        dsimp only
        have hes : ∀ p, some p ∈ keys.map (fun key => mapGet l.keys key) → Q p := by
          intro p hp
          obtain ⟨n, _, hn⟩ := List.mem_map.mp hp
          exact hPQ l hl _ (mapGet_some_mem _ _ _ hn)
        exact hdisp _ _ _ _ (pruneLoop_preserves P Q now h_del _ hes l hl) hes hsnap
      · exact hdisp _ _ _ _ hl (by simp) hsnap

end Storage

namespace Storage

/-! ## Copying a store -/

theorem viewKeys_append (heap : List Key) (a b : List (String × Nat)) :
    viewKeys heap (a ++ b) = viewKeys heap a ++ viewKeys heap b := by
  simp [viewKeys]

theorem viewKeys_congr (heap heap' : List Key) (keys : List (String × Nat))
    (h : ∀ e ∈ keys, deref heap' e.2 = deref heap e.2) :
    viewKeys heap' keys = viewKeys heap keys := by
  unfold viewKeys
  apply List.map_congr_left
  intro e he
  rw [h e he]

theorem deref_append_lt (heap ext : List Key) (p : Nat) (h : p < heap.length) :
    deref (heap ++ ext) p = deref heap p := by
  simp [deref, List.getD, List.getElem?_append_left h]

theorem copyKeys_fold (ks : List (String × Nat)) (h : List Key) (acc : List (String × Nat)) :
    ∃ ext,
      (ks.foldl (fun (hk : List Key × List (String × Nat)) e =>
        (hk.1 ++ [deref hk.1 e.2], mapSet hk.2 e.1 hk.1.length)) (h, acc)).1 = h ++ ext ∧
      ext.length = ks.length ∧
      (∀ e ∈ (ks.foldl (fun (hk : List Key × List (String × Nat)) e =>
        (hk.1 ++ [deref hk.1 e.2], mapSet hk.2 e.1 hk.1.length)) (h, acc)).2,
          e ∈ acc ∨ (h.length ≤ e.2 ∧ e.2 < h.length + ks.length)) ∧
      ((acc.map Prod.fst).Nodup →
        ((ks.foldl (fun (hk : List Key × List (String × Nat)) e =>
          (hk.1 ++ [deref hk.1 e.2], mapSet hk.2 e.1 hk.1.length)) (h, acc)).2.map
            Prod.fst).Nodup) ∧
      ((acc.map Prod.fst ++ ks.map Prod.fst).Nodup → (∀ e ∈ acc, e.2 < h.length) →
        (∀ e ∈ ks, e.2 < h.length) →
        viewKeys (ks.foldl (fun (hk : List Key × List (String × Nat)) e =>
            (hk.1 ++ [deref hk.1 e.2], mapSet hk.2 e.1 hk.1.length)) (h, acc)).1
          (ks.foldl (fun (hk : List Key × List (String × Nat)) e =>
            (hk.1 ++ [deref hk.1 e.2], mapSet hk.2 e.1 hk.1.length)) (h, acc)).2
          = viewKeys h acc ++ viewKeys h ks) := by
  induction ks generalizing h acc with
  | nil =>
    refine ⟨[], by simp, rfl, fun e he => Or.inl he, fun hn => hn, fun _ _ _ => by simp [viewKeys]⟩
  | cons k ks ih =>
    rw [List.foldl_cons]
    obtain ⟨ext, h1, h2, h3, h4, h5⟩ := ih (h ++ [deref h k.2]) (mapSet acc k.1 h.length)
    refine ⟨deref h k.2 :: ext, ?_, ?_, ?_, ?_, ?_⟩
    · rw [h1]; simp
    · simp [h2]
    · intro e he
      rcases h3 e he with hm | ⟨ha, hb⟩
      · rcases mem_mapSet _ _ _ _ hm with heq | hacc
        · right
          rw [heq]
          simp only [List.length_cons]
          omega
        · exact Or.inl hacc
      · right
        simp only [List.length_append, List.length_singleton, List.length_cons,
          List.length_nil] at ha hb ⊢
        omega
    · intro hn
      exact h4 (nodup_mapSet acc k.1 h.length hn)
    · intro hn hacc hks
      have hfresh : k.1 ∉ acc.map Prod.fst := by
        intro hmem
        exact (List.nodup_append.mp hn).2.2 hmem (by simp)
      have hset : mapSet acc k.1 h.length = acc ++ [(k.1, h.length)] :=
        mapSet_append_fresh acc k.1 h.length hfresh
      have hn' : ((mapSet acc k.1 h.length).map Prod.fst ++ ks.map Prod.fst).Nodup := by
        rw [hset]
        simpa [List.append_assoc] using hn
      have hacc' : ∀ e ∈ mapSet acc k.1 h.length, e.2 < (h ++ [deref h k.2]).length := by
        intro e he
        rw [hset] at he
        simp only [List.length_append, List.length_singleton]
        rcases List.mem_append.mp he with h' | h'
        · have := hacc e h'; omega
        · simp only [List.mem_singleton] at h'
          rw [h']; simp
      have hks' : ∀ e ∈ ks, e.2 < (h ++ [deref h k.2]).length := by
        intro e he
        have := hks e (List.mem_cons_of_mem _ he)
        simp only [List.length_append, List.length_singleton]
        omega
      rw [h5 hn' hacc' hks', hset, viewKeys_append]
      have e1 : viewKeys (h ++ [deref h k.2]) acc = viewKeys h acc :=
        viewKeys_congr _ _ _ (fun e he => deref_append_lt h _ e.2 (hacc e he))
      have e2 : viewKeys (h ++ [deref h k.2]) ks = viewKeys h ks :=
        viewKeys_congr _ _ _ (fun e he => deref_append_lt h _ e.2
          (hks e (List.mem_cons_of_mem _ he)))
      rw [e1, e2]
      simp [viewKeys, deref_append_length]

theorem foldl_mapSet_nodup {V W : Type} (f : V → W) (m : List (String × V))
    (acc : List (String × W)) (h : (acc.map Prod.fst).Nodup) :
    ((m.foldl (fun a e => mapSet a e.1 (f e.2)) acc).map Prod.fst).Nodup := by
  induction m generalizing acc with
  | nil => simpa using h
  | cons e es ih =>
    rw [List.foldl_cons]
    exact ih _ (nodup_mapSet acc e.1 (f e.2) h)

theorem foldl_mapSet_mem {V W : Type} (f : V → W) (m : List (String × V))
    (acc : List (String × W)) (x : String × W)
    (h : x ∈ m.foldl (fun a e => mapSet a e.1 (f e.2)) acc) :
    x ∈ acc ∨ ∃ e ∈ m, x = (e.1, f e.2) := by
  induction m generalizing acc with
  | nil => exact Or.inl h
  | cons e es ih =>
    rw [List.foldl_cons] at h
    rcases ih _ h with h1 | ⟨e', he', hx⟩
    · rcases mem_mapSet _ _ _ _ h1 with h2 | h2
      · exact Or.inr ⟨e, by simp, h2⟩
      · exact Or.inl h2
    · exact Or.inr ⟨e', List.mem_cons_of_mem _ he', hx⟩

theorem copy_spec (heap : List Key) (o : Store) :
    ∃ heap1 c, Ledis.copy heap (some o) = .ok (heap1, c) ∧
      (∃ ext, heap1 = heap ++ ext) ∧
      Store.wf c heap1 ∧
      (∀ e ∈ c.keys, heap.length ≤ e.2) ∧
      (Store.wf o heap →
        c.atomicData = o.atomicData ∧ c.setData = o.setData ∧
        viewKeys heap1 c.keys = viewKeys heap o.keys) := by
  obtain ⟨ext, h1, h2, h3, h4, h5⟩ := copyKeys_fold o.keys heap []
  refine ⟨_, _, rfl, ⟨ext, h1⟩, ⟨?_, ?_, ?_, ?_, ?_⟩, ?_, ?_⟩
  · exact foldl_mapSet_nodup (fun v => v) o.atomicData [] List.nodup_nil
  · exact foldl_mapSet_nodup (fun s => s.foldl setInsert []) o.setData [] List.nodup_nil
  · exact h4 List.nodup_nil
  · intro e he
    rcases foldl_mapSet_mem (fun s => List.foldl setInsert [] s) o.setData [] e he with h' | ⟨e', _, hx⟩
    · simp at h'
    · rw [hx]
      exact foldl_setInsert_nodup _ _ List.nodup_nil
  · intro e he
    rcases h3 e he with h' | ⟨_, hb⟩
    · simp at h'
    · rw [h1]
      simp only [List.length_append, h2]
      exact hb
  · intro e he
    rcases h3 e he with h' | ⟨ha, _⟩
    · simp at h'
    · exact ha
  · rintro ⟨w1, w2, w3, w4, w5⟩
    refine ⟨?_, ?_, ?_⟩
    · have := foldl_mapSet_copy (fun v : String => v) (fun e => e) (fun e => rfl)
        o.atomicData [] (by simpa using w1)
      simpa using this
    · have := foldl_mapSet_copy (fun s : List String => s.foldl setInsert [])
        (fun e => (e.1, e.2.foldl setInsert [])) (fun e => rfl) o.setData [] (by simpa using w2)
      show List.foldl (fun m e => mapSet m e.1 (List.foldl setInsert [] e.2)) [] o.setData = _
      rw [this]
      simp only [List.nil_append]
      conv_rhs => rw [← List.map_id o.setData]
      apply List.map_congr_left
      intro e he
      have := foldl_setInsert_copy e.2 [] (by simpa using w4 e he)
      simp [this]
    · have := h5 (by simpa using w3) (by simp) w5
      simpa [viewKeys] using this

end Storage

namespace Storage

/-! ## SAVE and RESTORE -/

theorem restore_none (l : Ledis) (h : l.snapshots = none) :
    l.restore = (some "failed to restore: nil copy source", l) := by
  simp [Ledis.restore, Ledis.copy, h]

theorem restore_some (l : Ledis) (s : Store) (h : l.snapshots = some s) :
    ∃ l1, l.restore = (none, l1) ∧ l1.snapshots = none := by
  simp [Ledis.restore, Ledis.copy, h]

theorem save_spec (l : Ledis) : ∃ l1 s, l.save = (none, l1) ∧ l1.snapshots = some s := by
  simp [Ledis.save, Ledis.copy]

theorem restore_after_save_ok (rt : Runtime) (l : Ledis) (t1 t2 : Int)
    (saveLine line : String) (hs : isCmd rt saveLine "SAVE" [])
    (h : isCmd rt line "RESTORE" []) :
    ((l.HandleCommand rt t1 saveLine).2.HandleCommand rt t2 line).1 = .ok none := by
  have hsave : ∃ s, (l.HandleCommand rt t1 saveLine).2.snapshots = some s := by
    rw [HandleCommand_SAVE rt l t1 saveLine hs]
    obtain ⟨l1, s, h1, h2⟩ := save_spec l
    rw [h1]
    exact ⟨s, h2⟩
  obtain ⟨s, hsome⟩ := hsave
  rw [HandleCommand_RESTORE rt _ t2 line h]
  obtain ⟨l1, h1, _⟩ := restore_some _ s hsome
  rw [h1]

/-- C8: RESTORE returns an error exactly when the snapshot slot is empty and then
leaves the whole state (keyspace and expiration index included) unchanged; a RESTORE
on a filled slot succeeds and empties the slot; so after SAVE; RESTORE the second
RESTORE returns an error and leaves the state reached by the first RESTORE. -/
theorem restore_fails_iff_no_snapshot (rt : Runtime) (l : Ledis) (t1 t2 t3 : Int)
    (saveLine line : String) (hs : isCmd rt saveLine "SAVE" [])
    (h : isCmd rt line "RESTORE" []) :
    ((∃ e, (l.HandleCommand rt t1 line).1 = .error e) ↔ l.snapshots = none) ∧
    (l.snapshots = none → (l.HandleCommand rt t1 line).2 = l) ∧
    (l.snapshots ≠ none →
      (l.HandleCommand rt t1 line).1 = .ok none ∧
      (l.HandleCommand rt t1 line).2.snapshots = none) ∧
    ((((l.HandleCommand rt t1 saveLine).2).HandleCommand rt t2 line).1 = .ok none ∧
     (∃ e, (((((l.HandleCommand rt t1 saveLine).2).HandleCommand rt t2 line).2).HandleCommand
        rt t3 line).1 = .error e) ∧
     ((((l.HandleCommand rt t1 saveLine).2).HandleCommand rt t2 line).2).HandleCommand rt t3 line
       = (.error "failed to restore: nil copy source",
          (((l.HandleCommand rt t1 saveLine).2).HandleCommand rt t2 line).2)) := by
  have key : ∀ (m : Ledis) (t : Int),
      (m.snapshots = none →
        m.HandleCommand rt t line = (.error "failed to restore: nil copy source", m)) ∧
      (m.snapshots ≠ none →
        (m.HandleCommand rt t line).1 = .ok none ∧
        (m.HandleCommand rt t line).2.snapshots = none) := by
    intro m t
    rw [HandleCommand_RESTORE rt m t line h]
    constructor
    · intro hn
      rw [restore_none m hn]
    · intro hn
      obtain ⟨s, hsome⟩ := Option.ne_none_iff_exists'.mp hn
      obtain ⟨l1, h1, h2⟩ := restore_some m s hsome
      rw [h1]
      exact ⟨rfl, h2⟩
  refine ⟨?_, ?_, ?_, ?_⟩
  · constructor
    · rintro ⟨e, he⟩
      by_contra hn
      rw [((key l t1).2 hn).1] at he
      cases he
    · intro hn
      rw [(key l t1).1 hn]
      exact ⟨_, rfl⟩
  · intro hn
    rw [(key l t1).1 hn]
  · exact (key l t1).2
  · have hsave : (l.HandleCommand rt t1 saveLine).2.snapshots ≠ none := by
      rw [HandleCommand_SAVE rt l t1 saveLine hs]
      obtain ⟨l1, s, h1, h2⟩ := save_spec l
      rw [h1]
      simp [h2]
    have h2 := (key (l.HandleCommand rt t1 saveLine).2 t2).2 hsave
    have h3 := (key ((l.HandleCommand rt t1 saveLine).2.HandleCommand rt t2 line).2 t3).1 h2.2
    refine ⟨h2.1, ?_, h3⟩
    rw [h3]
    exact ⟨_, rfl⟩

/-- Witness of C8 on the empty store. -/
theorem restore_fails_iff_no_snapshot_witness :
    isCmd asciiRuntime "SAVE" "SAVE" [] ∧ isCmd asciiRuntime "RESTORE" "RESTORE" [] ∧
    (NewLedis.HandleCommand asciiRuntime 0 "RESTORE").2 = NewLedis :=
  ⟨⟨"SAVE", rfl, rfl⟩, ⟨"RESTORE", rfl, rfl⟩,
   (restore_fails_iff_no_snapshot asciiRuntime NewLedis 0 0 0 "SAVE" "RESTORE"
      ⟨"SAVE", rfl, rfl⟩ ⟨"RESTORE", rfl, rfl⟩).2.1 rfl⟩

end Storage

namespace Storage

/-! ## Frames and well-formedness of the methods -/

theorem Frame.refl (p : Option Nat) (l : Ledis) : Frame p l l :=
  ⟨rfl, rfl, fun _ _ => rfl, fun _ h => h⟩

theorem frame_deleteKey (l : Ledis) (key : Option Nat) : Frame none l (l.deleteKey key).2 := by
  cases key with
  | none => exact Frame.refl _ _
  | some p =>
    refine ⟨deleteKey_snapshots l _, by rw [deleteKey_heap], fun q _ => by rw [deleteKey_heap],
      fun e he => ?_⟩
    rw [deleteKey_keys] at he
    exact (mem_mapDelete _ _ _ he).1

theorem frame_renewKey (l : Ledis) (now : Int) (p : Nat) :
    Frame (some p) l (l.renewKey now (some p)) := by
  refine ⟨renewKey_snapshots l now _, ?_, ?_, ?_⟩
  · rw [renewKey_heap]; simp
  · intro q hq
    rw [renewKey_heap]
    exact deref_set_ne _ _ _ _ (fun h => hq (by rw [h]))
  · intro e he
    rw [renewKey_keys] at he
    exact he

theorem frame_set (l : Ledis) (now : Int) (p : Nat) (v : String) :
    Frame (some p) l (l.set now (some p) v).2 := by
  by_cases ht : (deref l.heap p)._type = .KeyTypeString
  · rw [set_scalar l now p v ht]
    exact frame_renewKey _ now p
  · rw [set_not_scalar l now p v ht]
    exact ⟨rfl, rfl, fun _ _ => rfl, fun _ h => h⟩

theorem frame_setExpireKey (l : Ledis) (now : Int) (p : Nat) (d : Int) :
    Frame (some p) l (l.setExpireKey now (some p) d).2 := by
  unfold Ledis.setExpireKey
  dsimp only
  obtain ⟨f1, f2, f3, f4⟩ := frame_renewKey
    { l with heap := l.heap.set p { deref l.heap p with expireTime := d } } now p
  refine ⟨f1, ?_, ?_, f4⟩
  · rw [f2]; simp
  · intro q hq
    rw [f3 q hq]
    exact deref_set_ne _ _ _ _ (fun h => hq (by rw [h]))

theorem sadd_fold_fields (name : String) (values : List String) (l : Ledis) :
    (values.foldl (saddStep name) l).heap = l.heap ∧
    (values.foldl (saddStep name) l).keys = l.keys ∧
    (values.foldl (saddStep name) l).atomicData = l.atomicData ∧
    (values.foldl (saddStep name) l).snapshots = l.snapshots ∧
    (((l.setData.map Prod.fst).Nodup ∧ ∀ e ∈ l.setData, e.2.Nodup) →
      (((values.foldl (saddStep name) l).setData.map Prod.fst).Nodup ∧
       ∀ e ∈ (values.foldl (saddStep name) l).setData, e.2.Nodup)) := by
  induction values generalizing l with
  | nil => exact ⟨rfl, rfl, rfl, rfl, fun h => h⟩
  | cons v vs ih =>
    rw [List.foldl_cons]
    obtain ⟨h1, h2, h3, h4, h5⟩ := ih (saddStep name l v)
    refine ⟨h1, h2, h3, h4, fun hw => h5 ⟨nodup_mapSet _ _ _ hw.1, fun e he => ?_⟩⟩
    rcases mem_mapSet _ _ _ _ he with heq | hmem
    · rw [heq]
      apply setInsert_nodup
      cases hg : mapGet l.setData name with
      | none => simp
      | some s => exact hw.2 _ (mapGet_some_mem _ _ _ hg)
    · exact hw.2 e hmem

theorem frame_sadd (l : Ledis) (p : Nat) (vs : List String) :
    Frame none l (l.sadd (some p) vs).2 := by
  unfold Ledis.sadd
  dsimp only
  split_ifs
  · exact Frame.refl _ _
  · obtain ⟨h1, h2, _, h4, _⟩ := sadd_fold_fields (deref l.heap p).name vs l
    exact ⟨h4, by rw [h1], fun q _ => by rw [h1], fun e he => by rw [h2] at he; exact he⟩

theorem sremLoop_fields (name : String) (values : List String) (l : Ledis) :
    (sremLoop l name values).2.heap = l.heap ∧
    (sremLoop l name values).2.keys = l.keys ∧
    (sremLoop l name values).2.atomicData = l.atomicData ∧
    (sremLoop l name values).2.snapshots = l.snapshots ∧
    (((l.setData.map Prod.fst).Nodup ∧ ∀ e ∈ l.setData, e.2.Nodup) →
      (((sremLoop l name values).2.setData.map Prod.fst).Nodup ∧
       ∀ e ∈ (sremLoop l name values).2.setData, e.2.Nodup)) := by
  induction values generalizing l with
  | nil => exact ⟨rfl, rfl, rfl, rfl, fun h => h⟩
  | cons v vs ih =>
    unfold sremLoop
    cases hg : mapGet l.setData name with
    | none => exact ⟨rfl, rfl, rfl, rfl, fun h => h⟩
    | some s =>
      dsimp only
      obtain ⟨h1, h2, h3, h4, h5⟩ := ih
        { l with setData := mapSet l.setData name (setRemove s v) }
      refine ⟨h1, h2, h3, h4, fun hw => h5 ⟨nodup_mapSet _ _ _ hw.1, fun e he => ?_⟩⟩
      rcases mem_mapSet _ _ _ _ he with heq | hmem
      · rw [heq]
        exact (hw.2 _ (mapGet_some_mem _ _ _ hg)).filter _
      · exact hw.2 e hmem

theorem frame_srem (l : Ledis) (p : Nat) (vs : List String) :
    Frame none l (l.srem (some p) vs).2 := by
  unfold Ledis.srem
  dsimp only
  split_ifs
  · exact Frame.refl _ _
  · obtain ⟨h1, h2, _, h4, _⟩ := sremLoop_fields (deref l.heap p).name vs l
    exact ⟨h4, by rw [h1], fun q _ => by rw [h1], fun e he => by rw [h2] at he; exact he⟩

theorem wf_deleteKey (l : Ledis) (p : Nat) (h : l.wf) : (l.deleteKey (some p)).2.wf := by
  obtain ⟨w1, w2, w3, w4, w5⟩ := h
  refine ⟨?_, ?_, ?_, ?_, ?_⟩
  · rw [deleteKey_atomicData]; split_ifs
    · exact nodup_mapDelete _ _ w1
    · exact w1
  · rw [deleteKey_setData]; split_ifs
    · exact w2
    · exact nodup_mapDelete _ _ w2
  · rw [deleteKey_keys]; exact nodup_mapDelete _ _ w3
  · intro e he
    rw [deleteKey_setData] at he
    split_ifs at he
    · exact w4 e he
    · exact w4 e (mem_mapDelete _ _ _ he).1
  · intro e he
    rw [deleteKey_keys] at he
    rw [deleteKey_heap]
    exact w5 e (mem_mapDelete _ _ _ he).1

theorem wf_alloc (l : Ledis) (now : Int) (name : String) (ty : KeyType) (h : l.wf) :
    (l.alloc now name ty).wf := by
  obtain ⟨w1, w2, w3, w4, w5⟩ := h
  refine ⟨w1, w2, nodup_mapSet _ _ _ w3, w4, fun e he => ?_⟩
  simp only [Ledis.alloc, List.length_append, List.length_singleton] at he ⊢
  rcases mem_mapSet _ _ _ _ he with heq | hmem
  · rw [heq]; simp
  · have := w5 e hmem; omega

theorem wf_renewKey (l : Ledis) (now : Int) (p : Nat) (h : l.wf) :
    (l.renewKey now (some p)).wf := by
  obtain ⟨w1, w2, w3, w4, w5⟩ := h
  refine ⟨by rw [renewKey_atomicData]; exact w1, by rw [renewKey_setData]; exact w2,
    by rw [renewKey_keys]; exact w3, by rw [renewKey_setData]; exact w4, ?_⟩
  intro e he
  rw [renewKey_keys] at he
  rw [renewKey_heap]
  simpa using w5 e he

theorem wf_set (l : Ledis) (now : Int) (p : Nat) (v : String) (h : l.wf) :
    (l.set now (some p) v).2.wf := by
  have h' : Ledis.wf { l with atomicData := mapSet l.atomicData (deref l.heap p).name v } := by
    obtain ⟨w1, w2, w3, w4, w5⟩ := h
    exact ⟨nodup_mapSet _ _ _ w1, w2, w3, w4, w5⟩
  by_cases ht : (deref l.heap p)._type = .KeyTypeString
  · rw [set_scalar l now p v ht]
    exact wf_renewKey _ now p h'
  · rw [set_not_scalar l now p v ht]
    exact h'

theorem wf_setExpireKey (l : Ledis) (now : Int) (p : Nat) (d : Int) (h : l.wf) :
    (l.setExpireKey now (some p) d).2.wf := by
  unfold Ledis.setExpireKey
  dsimp only
  apply wf_renewKey
  obtain ⟨w1, w2, w3, w4, w5⟩ := h
  exact ⟨w1, w2, w3, w4, fun e he => by simpa using w5 e he⟩

theorem wf_sadd (l : Ledis) (p : Nat) (vs : List String) (h : l.wf) :
    (l.sadd (some p) vs).2.wf := by
  unfold Ledis.sadd
  dsimp only
  split_ifs
  · exact h
  · obtain ⟨w1, w2, w3, w4, w5⟩ := h
    obtain ⟨h1, h2, h3, _, h5⟩ := sadd_fold_fields (deref l.heap p).name vs l
    obtain ⟨g1, g2⟩ := h5 ⟨w2, w4⟩
    exact ⟨by rw [h3]; exact w1, g1, by rw [h2]; exact w3, g2,
      fun e he => by rw [h2] at he; rw [h1]; exact w5 e he⟩

theorem wf_srem (l : Ledis) (p : Nat) (vs : List String) (h : l.wf) :
    (l.srem (some p) vs).2.wf := by
  unfold Ledis.srem
  dsimp only
  split_ifs
  · exact h
  · obtain ⟨w1, w2, w3, w4, w5⟩ := h
    obtain ⟨h1, h2, h3, _, h5⟩ := sremLoop_fields (deref l.heap p).name vs l
    obtain ⟨g1, g2⟩ := h5 ⟨w2, w4⟩
    exact ⟨by rw [h3]; exact w1, g1, by rw [h2]; exact w3, g2,
      fun e he => by rw [h2] at he; rw [h1]; exact w5 e he⟩

theorem toStore_wf (l : Ledis) (h : l.wf) : Store.wf l.toStore l.heap := h

theorem save_eq (l : Ledis) :
    ∃ heap1 c, l.save = (none, { l with heap := heap1, snapshots := some c }) ∧
      Ledis.copy l.heap (some l.toStore) = .ok (heap1, c) := by
  obtain ⟨heap1, c, hc, _⟩ := copy_spec l.heap l.toStore
  exact ⟨heap1, c, by simp [Ledis.save, hc], hc⟩

theorem restore_eq (l : Ledis) (o : Store) (h : l.snapshots = some o) :
    ∃ heap1 c, l.restore = (none, Ledis.mk heap1 c.atomicData c.setData c.keys none c.gc) ∧
      Ledis.copy l.heap (some o) = .ok (heap1, c) := by
  obtain ⟨heap1, c, hc, _⟩ := copy_spec l.heap o
  exact ⟨heap1, c, by simp [Ledis.restore, h, hc], hc⟩

theorem wf_save (l : Ledis) (h : l.wf) : l.save.2.wf := by
  obtain ⟨heap1, c, hs, hc⟩ := save_eq l
  obtain ⟨heap1', c', hc', ⟨ext, hext⟩, _⟩ := copy_spec l.heap l.toStore
  rw [hc] at hc'
  cases hc'
  rw [hs]
  obtain ⟨w1, w2, w3, w4, w5⟩ := h
  refine ⟨w1, w2, w3, w4, fun e he => ?_⟩
  have := w5 e he
  simp only [hext, List.length_append]
  omega

theorem wf_restore (l : Ledis) (h : l.wf) : l.restore.2.wf := by
  cases ho : l.snapshots with
  | none =>
    rw [restore_none l ho]
    exact h
  | some o =>
    obtain ⟨heap1, c, hs, hc⟩ := restore_eq l o ho
    obtain ⟨heap1', c', hc', _, hwf, _⟩ := copy_spec l.heap o
    rw [hc] at hc'
    cases hc'
    rw [hs]
    exact hwf

theorem wf_HandleCommand (rt : Runtime) (l : Ledis) (now : Int) (cmd : String) (h : l.wf) :
    (l.HandleCommand rt now cmd).2.wf :=
  HandleCommand_preserves Ledis.wf (fun _ => True) rt l now cmd (fun _ _ _ _ => trivial) h
    (fun l p hl _ => wf_deleteKey l p hl)
    (fun l name ty hl => ⟨wf_alloc l now name ty hl, trivial⟩)
    (fun l p v hl _ => wf_set l now p v hl)
    (fun l p vs hl _ => wf_sadd l p vs hl)
    (fun l p vs hl _ => wf_srem l p vs hl)
    (fun l p d hl _ => wf_setExpireKey l now p d hl)
    (fun l hl _ => wf_save l hl)
    (fun l hl _ => wf_restore l hl)

theorem wf_NewLedis : NewLedis.wf := by
  simp [Ledis.wf, NewLedis]

theorem reachable_wf (l : Ledis) (h : Reachable l) : l.wf := by
  induction h with
  | init => exact wf_NewLedis
  | step rt l now cmd _ ih => exact wf_HandleCommand rt l now cmd ih

end Storage

namespace Storage

/-! ## SET, GET, DEL -/

theorem keyMeta_some (l : Ledis) (name : String) (k : Key) (h : l.keyMeta name = some k) :
    ∃ p, mapGet l.keys name = some p ∧ p < l.heap.length ∧ deref l.heap p = k := by
  unfold Ledis.keyMeta at h
  cases hp : mapGet l.keys name with
  | none => simp [hp] at h
  | some p =>
    simp only [hp, Option.some_bind] at h
    have hlt : p < l.heap.length := by
      by_contra hge
      rw [List.get?_eq_none.mpr (by omega)] at h
      cases h
    refine ⟨p, rfl, hlt, ?_⟩
    rw [List.get?_eq_getElem?] at h
    simp [deref, List.getD, h]

theorem set_establishes (rt : Runtime) (l : Ledis) (t1 : Int) (setLine name value : String)
    (hset : isCmd rt setLine "SET" [name, value])
    (hkey : mapGet l.keys name = none ∨ ∃ k, l.keyMeta name = some k ∧ k.name = name ∧
      k._type = .KeyTypeString ∧ k.isExpired t1 = false) :
    (l.HandleCommand rt t1 setLine).1 = .ok none ∧
    ∃ ttl, holdsScalar (l.HandleCommand rt t1 setLine).2 name value t1 ttl ∧
      (mapGet l.keys name = none → ttl = 0) ∧
      (∀ k, l.keyMeta name = some k → ttl = k.expireTime) := by
  rw [HandleCommand_SET rt l t1 setLine name value hset]
  rcases hkey with habs | ⟨k, hk, hname, htype, hlive⟩
  · rw [habs, prune1_absent l t1 name habs]
    dsimp only
    rw [set_scalar _ _ _ _ (by simp [deref_append_length, newKey])]
    refine ⟨rfl, 0, ⟨l.heap.length, ?_, ?_, ?_, ?_⟩, fun _ => rfl, ?_⟩
    · simp [unitOutcome, renewKey_keys, mapGet_mapSet_same]
    · simp [unitOutcome, renewKey_heap]
    · simp only [unitOutcome, renewKey_heap]
      rw [deref_set_same _ _ _ (by simp)]
      simp [deref_append_length, newKey]
    · simp [unitOutcome, renewKey_atomicData, deref_append_length, newKey, mapGet_mapSet_same]
    · intro k hk
      simp [Ledis.keyMeta, habs] at hk
  · obtain ⟨p, hp, hlt, hd⟩ := keyMeta_some l name k hk
    rw [hp, prune1_live l t1 name p hp (by rw [hd]; exact hlive)]
    dsimp only
    rw [set_scalar _ _ _ _ (by rw [hd]; exact htype)]
    refine ⟨rfl, k.expireTime, ⟨p, ?_, ?_, ?_, ?_⟩, ?_, ?_⟩
    · simp [unitOutcome, renewKey_keys, hp]
    · simp [unitOutcome, renewKey_heap, hlt]
    · simp only [unitOutcome, renewKey_heap]
      rw [deref_set_same _ _ _ hlt, hd, ← hname, ← htype]
    · simp [unitOutcome, renewKey_atomicData, hd, hname, mapGet_mapSet_same]
    · intro habs
      cases habs
    · intro k' hk'
      rw [hk] at hk'
      cases hk'; rfl

theorem get_of_holdsScalar (rt : Runtime) (l : Ledis) (t t0 ttl : Int)
    (getLine name value : String) (hget : isCmd rt getLine "GET" [name])
    (h : holdsScalar l name value t0 ttl) (hlive : ttl = 0 ∨ t ≤ t0 + ttl) :
    l.HandleCommand rt t getLine = (.ok (some [value]), l) := by
  obtain ⟨p, hp, hlt, hd, hv⟩ := h
  have hnot : (deref l.heap p).isExpired t = false := by
    rw [hd]
    simp only [Key.isExpired, Key.getExpireTime]
    rcases hlive with h0 | h1
    · simp [h0]
    · simp; intro _; omega
  rw [HandleCommand_GET rt l t getLine name hget, prune1_live l t name p hp hnot]
  simp [Ledis.get, hp, hd, hv]

theorem del_of_holdsScalar (rt : Runtime) (l : Ledis) (t t0 ttl : Int)
    (delLine name value : String) (hdel : isCmd rt delLine "DEL" [name])
    (h : holdsScalar l name value t0 ttl) (hlive : ttl = 0 ∨ t ≤ t0 + ttl) :
    (l.HandleCommand rt t delLine).1 = .ok none ∧
    mapGet (l.HandleCommand rt t delLine).2.keys name = none := by
  obtain ⟨p, hp, hlt, hd, hv⟩ := h
  have hnot : (deref l.heap p).isExpired t = false := by
    rw [hd]
    simp only [Key.isExpired, Key.getExpireTime]
    rcases hlive with h0 | h1
    · simp [h0]
    · simp; intro _; omega
  rw [HandleCommand_DEL rt l t delLine name hdel, prune1_live l t name p hp hnot, hp]
  have h1 : (l.deleteKey (some p)).1 = none := deleteKey_fst l p
  have h2 := deleteKey_keys l p
  rw [hd] at h2
  generalize l.deleteKey (some p) = r at h1 h2
  obtain ⟨r1, r2⟩ := r
  simp only at h1 h2
  subst h1
  simp [h2, mapGet_mapDelete_same]

theorem get_absent (rt : Runtime) (l : Ledis) (t : Int) (getLine name : String)
    (hget : isCmd rt getLine "GET" [name]) (h : mapGet l.keys name = none) :
    ∃ e, (l.HandleCommand rt t getLine).1 = .error e := by
  rw [HandleCommand_GET rt l t getLine name hget, prune1_absent l t name h, h]
  exact ⟨_, rfl⟩

/-- C4: on a state in which `name` is absent or a scalar key that is not expired (and
does not expire before the GET and the DEL), `SET name value` succeeds with the nil
response (rendered as `["OK"]`), the following `GET name` returns `[value]`, the
following `DEL name` succeeds, and the `GET name` after it returns an error. -/
theorem set_get_del_round_trip (rt : Runtime) (l : Ledis) (t1 t2 t3 t4 : Int)
    (setLine getLine delLine name value : String)
    (hset : isCmd rt setLine "SET" [name, value]) (hget : isCmd rt getLine "GET" [name])
    (hdel : isCmd rt delLine "DEL" [name])
    (hkey : mapGet l.keys name = none ∨ ∃ k, l.keyMeta name = some k ∧ k.name = name ∧
      k._type = .KeyTypeString ∧ k.isExpired t1 = false ∧
      (k.expireTime = 0 ∨ (t2 ≤ t1 + k.expireTime ∧ t3 ≤ t1 + k.expireTime))) :
    (l.HandleCommand rt t1 setLine).1 = .ok none ∧
    responseValues none = ["OK"] ∧
    ((l.HandleCommand rt t1 setLine).2.HandleCommand rt t2 getLine).1 = .ok (some [value]) ∧
    (((l.HandleCommand rt t1 setLine).2.HandleCommand rt t2 getLine).2.HandleCommand
      rt t3 delLine).1 = .ok none ∧
    ∃ e, ((((l.HandleCommand rt t1 setLine).2.HandleCommand rt t2 getLine).2.HandleCommand
      rt t3 delLine).2.HandleCommand rt t4 getLine).1 = .error e := by
  have hkey' : mapGet l.keys name = none ∨ ∃ k, l.keyMeta name = some k ∧ k.name = name ∧
      k._type = .KeyTypeString ∧ k.isExpired t1 = false := by
    rcases hkey with h | ⟨k, h1, h2, h3, h4, _⟩
    · exact Or.inl h
    · exact Or.inr ⟨k, h1, h2, h3, h4⟩
  obtain ⟨hr1, ttl, hq, habs, hpres⟩ := set_establishes rt l t1 setLine name value hset hkey'
  have hlive : (ttl = 0 ∨ t2 ≤ t1 + ttl) ∧ (ttl = 0 ∨ t3 ≤ t1 + ttl) := by
    rcases hkey with h | ⟨k, h1, _, _, _, h5⟩
    · exact ⟨Or.inl (habs h), Or.inl (habs h)⟩
    · rw [hpres k h1]
      rcases h5 with h0 | ⟨ha, hb⟩
      · exact ⟨Or.inl h0, Or.inl h0⟩
      · exact ⟨Or.inr ha, Or.inr hb⟩
  have hg := get_of_holdsScalar rt _ t2 t1 ttl getLine name value hget hq hlive.1
  have hd := del_of_holdsScalar rt _ t3 t1 ttl delLine name value hdel hq hlive.2
  refine ⟨hr1, rfl, ?_, ?_, ?_⟩
  · rw [hg]
  · rw [hg]; exact hd.1
  · rw [hg]; exact get_absent rt _ t4 getLine name hget hd.2

/-- Witness of C4: the round trip `SET foo bar`, `GET foo`, `DEL foo`, `GET foo` on the
empty store. -/
theorem set_get_del_round_trip_witness :
    ((NewLedis.HandleCommand asciiRuntime 0 "SET foo bar").2.HandleCommand
      asciiRuntime 0 "GET foo").1 = .ok (some ["bar"]) :=
  (set_get_del_round_trip asciiRuntime NewLedis 0 0 0 0 "SET foo bar" "GET foo" "DEL foo"
    "foo" "bar" ⟨"SET", rfl, rfl⟩ ⟨"GET", rfl, rfl⟩ ⟨"DEL", rfl, rfl⟩ (Or.inl rfl)).2.2.1

end Storage

namespace Storage

/-! ## SINTER -/

theorem pruneLoop_heap (l : Ledis) (now : Int) (es : List (Option Nat)) :
    (l.pruneLoop now es).heap = l.heap := by
  unfold Ledis.pruneLoop
  induction es generalizing l with
  | nil => rfl
  | cons e es ih =>
    rw [List.foldl_cons, ih]
    cases e with
    | none => rfl
    | some p =>
      dsimp only
      split_ifs
      · exact deleteKey_heap l (some p)
      · rfl

theorem pruneLoop_live (l : Ledis) (now : Int) (es : List (Option Nat))
    (h : ∀ p, some p ∈ es → (deref l.heap p).isExpired now = false) :
    l.pruneLoop now es = l := by
  unfold Ledis.pruneLoop
  induction es with
  | nil => rfl
  | cons e es ih =>
    rw [List.foldl_cons]
    cases e with
    | none => exact ih (fun p hp => h p (List.mem_cons_of_mem _ hp))
    | some p =>
      have hp := h p (by simp)
      simp only [hp]
      exact ih (fun q hq => h q (List.mem_cons_of_mem _ hq))

theorem sinterMinLoop_cons_none (l : Ledis) (p : Nat) (ps : List Nat) (index minSize : Nat)
    (s : List String) (hp : (deref l.heap p)._type = .KeyTypeSet)
    (hs : mapGet l.setData (deref l.heap p).name = some s) :
    sinterMinLoop l (p :: ps) index none minSize =
      sinterMinLoop l ps (index + 1) (some index) s.length := by
  simp [sinterMinLoop, hp, hs]

theorem sinterMinLoop_cons_some (l : Ledis) (p : Nat) (ps : List Nat) (index minSize i0 : Nat)
    (s : List String) (hp : (deref l.heap p)._type = .KeyTypeSet)
    (hs : mapGet l.setData (deref l.heap p).name = some s) :
    sinterMinLoop l (p :: ps) index (some i0) minSize =
      if s.length < minSize then sinterMinLoop l ps (index + 1) (some index) s.length
      else sinterMinLoop l ps (index + 1) (some i0) minSize := by
  simp [sinterMinLoop, hp, hs]

theorem sinterMinLoop_cons_crash (l : Ledis) (p : Nat) (ps : List Nat) (index minSize : Nat)
    (id : Option Nat) (hp : (deref l.heap p)._type = .KeyTypeSet)
    (hs : mapGet l.setData (deref l.heap p).name = none) :
    sinterMinLoop l (p :: ps) index id minSize = .crash := by
  simp [sinterMinLoop, hp, hs]

theorem sinterMinLoop_some (l : Ledis) (ptrs : List Nat) (index : Nat) (id : Option Nat)
    (minSize : Nat) (hid : ∀ i, id = some i → i < index)
    (htype : ∀ p ∈ ptrs, (deref l.heap p)._type = .KeyTypeSet) (r : Option Nat)
    (h : sinterMinLoop l ptrs index id minSize = .ok r) :
    (∀ i, r = some i → i < index + ptrs.length) ∧ ((id ≠ none ∨ ptrs ≠ []) → r ≠ none) := by
  induction ptrs generalizing index id minSize with
  | nil =>
    simp only [sinterMinLoop, Result.ok.injEq] at h
    subst h
    simp only [List.length_nil, Nat.add_zero]
    exact ⟨hid, fun hh => by simpa using hh⟩
  | cons p ps ih =>
    have hp : (deref l.heap p)._type = .KeyTypeSet := htype p (by simp)
    have hps : ∀ q ∈ ps, (deref l.heap q)._type = .KeyTypeSet :=
      fun q hq => htype q (List.mem_cons_of_mem _ hq)
    simp only [List.length_cons]
    cases hs : mapGet l.setData (deref l.heap p).name with
    | none =>
      rw [sinterMinLoop_cons_crash l p ps index minSize id hp hs] at h
      cases h
    | some s =>
      have step : ∀ (id' : Option Nat) (m : Nat), (∀ i, id' = some i → i < index + 1) →
          id' ≠ none → sinterMinLoop l ps (index + 1) id' m = .ok r →
          (∀ i, r = some i → i < index + (ps.length + 1)) ∧ r ≠ none := by
        intro id' m hid' hne hr
        have := ih (index + 1) id' m hid' hps hr
        exact ⟨fun i hi => by have := this.1 i hi; omega, this.2 (Or.inl hne)⟩
      cases id with
      | none =>
        rw [sinterMinLoop_cons_none l p ps index minSize s hp hs] at h
        have := step (some index) s.length (fun i hi => by cases hi; omega) (by simp) h
        exact ⟨this.1, fun _ => this.2⟩
      | some i0 =>
        have hi0 := hid i0 rfl
        rw [sinterMinLoop_cons_some l p ps index minSize i0 s hp hs] at h
        split_ifs at h
        · have := step (some index) s.length (fun i hi => by cases hi; omega) (by simp) h
          exact ⟨this.1, fun _ => this.2⟩
        · have := step (some i0) minSize (fun i hi => by cases hi; omega) (by simp) h
          exact ⟨this.1, fun _ => this.2⟩

theorem sinterMinLoop_ok (l : Ledis) (ptrs : List Nat) (index : Nat) (id : Option Nat)
    (minSize : Nat)
    (hset : ∀ p ∈ ptrs, (deref l.heap p)._type = .KeyTypeSet ∧
      ∃ s, mapGet l.setData (deref l.heap p).name = some s) :
    ∃ r, sinterMinLoop l ptrs index id minSize = .ok r := by
  induction ptrs generalizing index id minSize with
  | nil => exact ⟨id, rfl⟩
  | cons p ps ih =>
    obtain ⟨hp, s, hs⟩ := hset p (by simp)
    have hps := fun q (hq : q ∈ ps) => hset q (List.mem_cons_of_mem _ hq)
    cases id with
    | none =>
      rw [sinterMinLoop_cons_none l p ps index minSize s hp hs]
      exact ih _ _ _ hps
    | some i0 =>
      rw [sinterMinLoop_cons_some l p ps index minSize i0 s hp hs]
      split_ifs
      · exact ih _ _ _ hps
      · exact ih _ _ _ hps

theorem sinterMinLoop_not_error (l : Ledis) (ptrs : List Nat) (index : Nat) (id : Option Nat)
    (minSize : Nat) (e : String)
    (htype : ∀ p ∈ ptrs, (deref l.heap p)._type = .KeyTypeSet) :
    sinterMinLoop l ptrs index id minSize ≠ .error e := by
  induction ptrs generalizing index id minSize with
  | nil => simp [sinterMinLoop]
  | cons p ps ih =>
    have hp : (deref l.heap p)._type = .KeyTypeSet := htype p (by simp)
    have hps : ∀ q ∈ ps, (deref l.heap q)._type = .KeyTypeSet :=
      fun q hq => htype q (List.mem_cons_of_mem _ hq)
    cases hs : mapGet l.setData (deref l.heap p).name with
    | none =>
      rw [sinterMinLoop_cons_crash l p ps index minSize id hp hs]
      simp
    | some s =>
      cases id with
      | none =>
        rw [sinterMinLoop_cons_none l p ps index minSize s hp hs]
        exact ih _ _ _ hps
      | some i0 =>
        rw [sinterMinLoop_cons_some l p ps index minSize i0 s hp hs]
        split_ifs
        · exact ih _ _ _ hps
        · exact ih _ _ _ hps

theorem sinterFilterLoop_cons_skip (l : Ledis) (id : Nat) (p : Nat) (ps : List Nat)
    (cands : List String) :
    sinterFilterLoop l id (p :: ps) id cands = sinterFilterLoop l id ps (id + 1) cands := by
  simp [sinterFilterLoop]

theorem sinterFilterLoop_cons_set (l : Ledis) (id : Nat) (p : Nat) (ps : List Nat) (index : Nat)
    (cands s : List String) (hidx : index ≠ id) (hp : (deref l.heap p)._type = .KeyTypeSet)
    (hs : mapGet l.setData (deref l.heap p).name = some s) :
    sinterFilterLoop l id (p :: ps) index cands =
      sinterFilterLoop l id ps (index + 1) (cands.filter (fun value => decide (value ∈ s))) := by
  simp [sinterFilterLoop, hp, hs, hidx]

theorem sinterFilterLoop_not_error (l : Ledis) (id : Nat) (ptrs : List Nat) (index : Nat)
    (cands : List String) (e : String) : sinterFilterLoop l id ptrs index cands ≠ .error e := by
  induction ptrs generalizing index cands with
  | nil => simp [sinterFilterLoop]
  | cons p ps ih =>
    cases hs : mapGet l.setData (deref l.heap p).name with
    | none =>
      simp only [sinterFilterLoop, hs]
      split_ifs
      · exact ih _ _
      · exact ih _ _
      · simp
    | some s =>
      simp only [sinterFilterLoop, hs]
      split_ifs
      · exact ih _ _
      · exact ih _ _

theorem sinterFilterLoop_ok (l : Ledis) (id : Nat) (ptrs : List Nat) (index : Nat)
    (cands : List String)
    (hset : ∀ p ∈ ptrs, (deref l.heap p)._type = .KeyTypeSet ∧
      ∃ s, mapGet l.setData (deref l.heap p).name = some s) :
    ∃ res, sinterFilterLoop l id ptrs index cands = .ok res ∧
      (cands.Nodup → res.Nodup) ∧
      (∀ x, x ∈ res ↔ x ∈ cands ∧
        ∀ j (hj : j < ptrs.length), index + j ≠ id → memberOf l (ptrs.get ⟨j, hj⟩) x) := by
  induction ptrs generalizing index cands with
  | nil => exact ⟨cands, rfl, fun hn => hn, fun x => by simp⟩
  | cons p ps ih =>
    obtain ⟨hp, s, hs⟩ := hset p (by simp)
    have hps := fun q (hq : q ∈ ps) => hset q (List.mem_cons_of_mem _ hq)
    by_cases hidx : index = id
    · subst hidx
      rw [sinterFilterLoop_cons_skip]
      obtain ⟨res, h1, h2, h3⟩ := ih (index + 1) cands hps
      refine ⟨res, h1, h2, fun x => ?_⟩
      rw [h3 x]
      constructor
      · rintro ⟨hc, hall⟩
        refine ⟨hc, fun j hj hne => ?_⟩
        cases j with
        | zero => exact absurd rfl hne
        | succ j =>
          have := hall j (by simpa using hj) (by omega)
          simpa using this
      · rintro ⟨hc, hall⟩
        refine ⟨hc, fun j hj hne => ?_⟩
        have := hall (j + 1) (by simpa using hj) (by omega)
        simpa using this
    · rw [sinterFilterLoop_cons_set l id p ps index cands s hidx hp hs]
      obtain ⟨res, h1, h2, h3⟩ :=
        ih (index + 1) (cands.filter (fun value => decide (value ∈ s))) hps
      refine ⟨res, h1, fun hn => h2 (hn.filter _), fun x => ?_⟩
      rw [h3 x]
      simp only [List.mem_filter, decide_eq_true_eq]
      constructor
      · rintro ⟨⟨hc, hx⟩, hall⟩
        refine ⟨hc, fun j hj hne => ?_⟩
        cases j with
        | zero => exact ⟨s, hs, hx⟩
        | succ j =>
          have := hall j (by simpa using hj) (by omega)
          simpa using this
      · rintro ⟨hc, hall⟩
        refine ⟨⟨hc, ?_⟩, fun j hj hne => ?_⟩
        · obtain ⟨s', hs', hx⟩ := hall 0 (by simp) (by omega)
          simp only [List.get_eq_getElem, List.getElem_cons_zero] at hs'
          rw [hs] at hs'
          cases hs'
          exact hx
        · have := hall (j + 1) (by simpa using hj) (by omega)
          simpa using this

end Storage

namespace Storage

theorem keyType_ne_set (t : KeyType) : t ≠ .KeyTypeSet ↔ t = .KeyTypeString := by
  cases t <;> simp

theorem filterMap_map_some (ptrs : List Nat) :
    (ptrs.map some).filterMap (fun key => key) = ptrs := by
  induction ptrs with
  | nil => rfl
  | cons p ps ih => simp [List.filterMap_cons, ih]

theorem sinter_ptrs (l : Ledis) (ptrs : List Nat) (hne : ptrs ≠ [])
    (hset : ∀ p ∈ ptrs, (deref l.heap p)._type = .KeyTypeSet ∧
      ∃ s, mapGet l.setData (deref l.heap p).name = some s) :
    ∃ res, l.sinter (ptrs.map some) = .ok res ∧ res.Nodup ∧
      ∀ x, x ∈ res ↔ ∀ p ∈ ptrs, memberOf l p x := by
  have htype : ∀ p ∈ ptrs, (deref l.heap p)._type = .KeyTypeSet := fun p hp => (hset p hp).1
  obtain ⟨r, hr⟩ := sinterMinLoop_ok l ptrs 0 none 0 hset
  have hsome := sinterMinLoop_some l ptrs 0 none 0 (by simp) htype r hr
  obtain ⟨id, hid⟩ := Option.ne_none_iff_exists'.mp (hsome.2 (Or.inr hne))
  subst hid
  have hlt : id < ptrs.length := by simpa using hsome.1 id rfl
  have hget : ptrs.getD id 0 = ptrs.get ⟨id, hlt⟩ := by
    simp [List.getD, List.getElem?_eq_getElem hlt]
  obtain ⟨_, s0, hs0⟩ := hset (ptrs.get ⟨id, hlt⟩) (List.get_mem _ _ _)
  obtain ⟨res, h1, h2, h3⟩ := sinterFilterLoop_ok l id ptrs 0 (s0.foldl setInsert []) hset
  refine ⟨res, ?_, h2 (foldl_setInsert_nodup s0 [] List.nodup_nil), fun x => ?_⟩
  · have hany : (ptrs.map some).any l.notSetKey = false := by
      rw [List.any_eq_false]
      intro key hkey
      obtain ⟨p, hp, rfl⟩ := List.mem_map.mp hkey
      simp [Ledis.notSetKey, htype p hp]
    have hlen : ¬ (ptrs.map some).length = 0 := by
      simpa using hne
    unfold Ledis.sinter
    rw [if_neg hlen, hany]
    simp only [filterMap_map_some, hr, hget, hs0]
    exact h1
  · rw [h3 x, foldl_setInsert_mem]
    simp only [List.not_mem_nil, false_or, Nat.zero_add]
    constructor
    · rintro ⟨hx, hall⟩ p hp
      obtain ⟨⟨j, hj⟩, hjp⟩ := List.mem_iff_get.mp hp
      subst hjp
      by_cases hji : j = id
      · subst hji
        exact ⟨s0, hs0, hx⟩
      · exact hall j hj hji
    · intro hall
      refine ⟨?_, fun j hj _ => hall _ (List.get_mem _ _ _)⟩
      obtain ⟨s', hs', hx⟩ := hall (ptrs.get ⟨id, hlt⟩) (List.get_mem _ _ _)
      rw [hs0] at hs'
      cases hs'
      exact hx

end Storage

namespace Storage

theorem sinter_error_iff (l : Ledis) (es : List (Option Nat)) (hne : es ≠ []) :
    (∃ e, l.sinter es = .error e) ↔ es.any l.notSetKey = true := by
  have hlen : ¬ es.length = 0 := by simpa using hne
  unfold Ledis.sinter
  rw [if_neg hlen]
  by_cases hany : es.any l.notSetKey = true
  · rw [if_pos hany]
    simp [hany]
  · rw [if_neg hany]
    have hf : ¬ (es.any l.notSetKey = true) := hany
    refine iff_of_false ?_ hf
    rintro ⟨e, he⟩
    revert he
    have hall : ∀ key ∈ es, l.notSetKey key = false := by
      simpa [List.any_eq_true] using hany
    have htype : ∀ p ∈ es.filterMap (fun key => key), (deref l.heap p)._type = .KeyTypeSet := by
      intro p hp
      have hmem : some p ∈ es := by simpa [List.mem_filterMap] using hp
      have := hall _ hmem
      simpa [Ledis.notSetKey] using this
    have hptrs : es.filterMap (fun key => key) ≠ [] := by
      cases es with
      | nil => exact absurd rfl hne
      | cons key rest =>
        cases key with
        | none =>
          have := hall none (by simp)
          simp [Ledis.notSetKey] at this
        | some p => simp [List.filterMap_cons]
    dsimp only
    cases hr : sinterMinLoop l (es.filterMap (fun key => key)) 0 none 0 with
    | crash => simp
    | error e' => exact absurd hr (sinterMinLoop_not_error l _ 0 none 0 e' htype)
    | ok r =>
      have hsome := sinterMinLoop_some l _ 0 none 0 (by simp) htype r hr
      cases r with
      | none => exact absurd rfl (hsome.2 (Or.inr hptrs))
      | some id =>
        dsimp only
        cases mapGet l.setData
            (deref l.heap ((es.filterMap (fun key => key)).getD id 0)).name with
        | none => simp
        | some s => exact sinterFilterLoop_not_error l id _ 0 _ e

theorem any_notSetKey_iff (l : Ledis) (heap : List Key) (hh : heap = l.heap)
    (l' : Ledis) (hl : l'.heap = heap) (names : List String) :
    (names.map (mapGet l.keys)).any l'.notSetKey = true ↔ ∃ n ∈ names, absentOrScalar l n := by
  subst hh
  simp only [List.any_eq_true, List.mem_map, exists_exists_and_eq_and]
  constructor
  · rintro ⟨n, hn, hk⟩
    refine ⟨n, hn, ?_⟩
    cases hg : mapGet l.keys n with
    | none => exact Or.inl hg
    | some p =>
      rw [hg] at hk
      simp only [Ledis.notSetKey, hl, decide_eq_true_eq] at hk
      exact Or.inr ⟨p, hg, (keyType_ne_set _).mp hk⟩
  · rintro ⟨n, hn, hk⟩
    refine ⟨n, hn, ?_⟩
    rcases hk with hk | ⟨p, hp, ht⟩
    · rw [hk]; rfl
    · rw [hp]
      simp [Ledis.notSetKey, hl, ht]

theorem listOutcome_error_iff (r : Result (List String)) (l : Ledis) :
    (∃ e, (listOutcome r l).1 = .error e) ↔ ∃ e, r = .error e := by
  cases r <;> simp [listOutcome]

theorem liveSet_ptr (l : Ledis) (now : Int) (n : String) (h : liveSet l now n) :
    ∃ p, mapGet l.keys n = some p ∧ (deref l.heap p).name = n ∧
      (deref l.heap p)._type = .KeyTypeSet ∧ (deref l.heap p).isExpired now = false ∧
      ∃ s, mapGet l.setData n = some s := by
  obtain ⟨k, s, hk, hname, htype, hlive, hs⟩ := h
  obtain ⟨p, hp, _, hd⟩ := keyMeta_some l n k hk
  exact ⟨p, hp, by rw [hd]; exact hname, by rw [hd]; exact htype, by rw [hd]; exact hlive,
    s, hs⟩

theorem sinter_char (rt : Runtime) (l : Ledis) (now : Int) (line : String)
    (names : List String) (hne : names ≠ []) (h : isCmd rt line "SINTER" names)
    (hlive : ∀ n ∈ names, liveSet l now n) :
    ∃ res, l.HandleCommand rt now line = (.ok (some res), l) ∧ res.Nodup ∧
      ∀ x, x ∈ res ↔ ∀ n ∈ names, ∃ s, mapGet l.setData n = some s ∧ x ∈ s := by
  rw [HandleCommand_SINTER rt l now line names hne h]
  have hes : names.map (mapGet l.keys) =
      (names.map (fun n => (mapGet l.keys n).getD 0)).map some := by
    rw [List.map_map]
    apply List.map_congr_left
    intro n hn
    obtain ⟨p, hp, _⟩ := liveSet_ptr l now n (hlive n hn)
    simp [hp]
  have hprune : l.pruneLoop now (names.map (mapGet l.keys)) = l := by
    apply pruneLoop_live
    intro p hp
    obtain ⟨n, hn, hnp⟩ := List.mem_map.mp hp
    obtain ⟨q, hq, _, _, hq4, _⟩ := liveSet_ptr l now n (hlive n hn)
    rw [hq] at hnp
    cases hnp
    exact hq4
  rw [hprune, hes]
  have hset : ∀ p ∈ names.map (fun n => (mapGet l.keys n).getD 0),
      (deref l.heap p)._type = .KeyTypeSet ∧
      ∃ s, mapGet l.setData (deref l.heap p).name = some s := by
    intro p hp
    obtain ⟨n, hn, hnp⟩ := List.mem_map.mp hp
    obtain ⟨q, hq, hq2, hq3, _, s, hs⟩ := liveSet_ptr l now n (hlive n hn)
    rw [hq] at hnp
    simp only [Option.getD_some] at hnp
    subst hnp
    exact ⟨hq3, s, by rw [hq2]; exact hs⟩
  obtain ⟨res, h1, h2, h3⟩ := sinter_ptrs l _ (by simpa using hne) hset
  refine ⟨res, by rw [h1]; rfl, h2, fun x => ?_⟩
  rw [h3 x]
  constructor
  · intro hall n hn
    obtain ⟨q, hq, hq2, _, _, _⟩ := liveSet_ptr l now n (hlive n hn)
    have := hall q (List.mem_map.mpr ⟨n, hn, by simp [hq]⟩)
    unfold memberOf at this
    rw [hq2] at this
    exact this
  · intro hall p hp
    obtain ⟨n, hn, hnp⟩ := List.mem_map.mp hp
    obtain ⟨q, hq, hq2, _, _, _⟩ := liveSet_ptr l now n (hlive n hn)
    rw [hq] at hnp
    simp only [Option.getD_some] at hnp
    subst hnp
    unfold memberOf
    rw [hq2]
    exact hall n hn

/-- C9: SINTER returns an error exactly when some named key is absent or of kind
Scalar. When every name denotes a non-expired Set key it returns (leaving the state
unchanged) a duplicate-free list whose elements are exactly the strings that are members
of every named set; with one key these are the members of its set, with an empty set
among the named ones the result is empty, and any key list with the same names (a
permutation, with or without repetitions) yields a list with the same elements. -/
theorem sinter_is_intersection (rt : Runtime) (l : Ledis) (now : Int) (line : String)
    (names : List String) (hne : names ≠ []) (h : isCmd rt line "SINTER" names) :
    ((∃ e, (l.HandleCommand rt now line).1 = .error e) ↔ ∃ n ∈ names, absentOrScalar l n) ∧
    ((∀ n ∈ names, liveSet l now n) →
      ∃ res, l.HandleCommand rt now line = (.ok (some res), l) ∧ res.Nodup ∧
        (∀ x, x ∈ res ↔ ∀ n ∈ names, ∃ s, mapGet l.setData n = some s ∧ x ∈ s) ∧
        (∀ n s, names = [n] → mapGet l.setData n = some s → ∀ x, x ∈ res ↔ x ∈ s) ∧
        ((∃ n ∈ names, mapGet l.setData n = some []) → res = []) ∧
        (∀ line' names', isCmd rt line' "SINTER" names' → (∀ n, n ∈ names' ↔ n ∈ names) →
          ∃ res', l.HandleCommand rt now line' = (.ok (some res'), l) ∧ res'.Nodup ∧
            ∀ x, x ∈ res' ↔ x ∈ res)) := by
  constructor
  · rw [HandleCommand_SINTER rt l now line names hne h, listOutcome_error_iff,
      sinter_error_iff _ _ (by simpa using hne)]
    exact any_notSetKey_iff l l.heap rfl _ (pruneLoop_heap l now _) names
  · intro hlive
    obtain ⟨res, h1, h2, h3⟩ := sinter_char rt l now line names hne h hlive
    refine ⟨res, h1, h2, h3, ?_, ?_, ?_⟩
    · intro n s hn hs x
      subst hn
      rw [h3 x]
      constructor
      · intro hall
        obtain ⟨s', hs', hx⟩ := hall n (by simp)
        rw [hs] at hs'
        cases hs'
        exact hx
      · intro hx m hm
        have : m = n := by simpa using hm
        subst this
        exact ⟨s, hs, hx⟩
    · rintro ⟨n, hn, hs⟩
      apply List.eq_nil_iff_forall_not_mem.mpr
      intro x hx
      obtain ⟨s', hs', hx'⟩ := (h3 x).mp hx n hn
      rw [hs] at hs'
      cases hs'
      simp at hx'
    · intro line' names' h' hsame
      have hne' : names' ≠ [] := by
        intro hnil
        cases names with
        | nil => exact hne rfl
        | cons n ns =>
          have := (hsame n).mpr (by simp)
          rw [hnil] at this
          simp at this
      have hlive' : ∀ n ∈ names', liveSet l now n := fun n hn => hlive n ((hsame n).mp hn)
      obtain ⟨res', g1, g2, g3⟩ := sinter_char rt l now line' names' hne' h' hlive'
      refine ⟨res', g1, g2, fun x => ?_⟩
      rw [g3 x, h3 x]
      constructor
      · intro hall n hn
        exact hall n ((hsame n).mpr hn)
      · intro hall n hn
        exact hall n ((hsame n).mp hn)

theorem liveSet_storeTwoSets : ∀ n ∈ ["a", "b"], liveSet storeTwoSets 0 n := by
  intro n hn
  simp only [List.mem_cons, List.mem_singleton, List.not_mem_nil, or_false] at hn
  rcases hn with rfl | rfl
  · exact ⟨{ name := "a", _type := .KeyTypeSet, lastRenewed := 0, expireTime := 0 },
      ["1", "2", "3"], rfl, rfl, rfl, rfl, rfl⟩
  · exact ⟨{ name := "b", _type := .KeyTypeSet, lastRenewed := 0, expireTime := 0 },
      ["2", "3", "4"], rfl, rfl, rfl, rfl, rfl⟩

/-- Witness of C9: `SINTER a b` on the store holding the sets `a` and `b`. -/
theorem sinter_is_intersection_witness :
    (∀ n ∈ ["a", "b"], liveSet storeTwoSets 0 n) ∧
    ∃ res, storeTwoSets.HandleCommand asciiRuntime 0 "SINTER a b" = (.ok (some res), storeTwoSets) ∧
      res.Nodup ∧ ∀ x, x ∈ res ↔ ∀ n ∈ ["a", "b"], ∃ s, mapGet storeTwoSets.setData n = some s ∧ x ∈ s :=
  ⟨liveSet_storeTwoSets,
   ((sinter_is_intersection asciiRuntime storeTwoSets 0 "SINTER a b" ["a", "b"] (by simp)
      ⟨"SINTER", rfl, rfl⟩).2 liveSet_storeTwoSets).imp (fun _ h => ⟨h.1, h.2.1, h.2.2.1⟩)⟩

end Storage

namespace Storage

/-! ## Commands on states that hold the same keyspace -/

theorem mapGet_viewKeys (heap : List Key) (keys : List (String × Nat)) (name : String) :
    mapGet (viewKeys heap keys) name = (mapGet keys name).map (deref heap) := by
  induction keys with
  | nil => rfl
  | cons e es ih =>
    by_cases h : e.1 = name
    · simp [viewKeys, mapGet, h]
    · simpa [viewKeys, mapGet, h] using ih

theorem viewKeys_mapDelete (heap : List Key) (keys : List (String × Nat)) (name : String) :
    viewKeys heap (mapDelete keys name) = mapDelete (viewKeys heap keys) name := by
  induction keys with
  | nil => rfl
  | cons e es ih =>
    by_cases h : e.1 = name
    · simpa [viewKeys, mapDelete, List.filter_cons, h] using ih
    · simpa [viewKeys, mapDelete, List.filter_cons, h] using ih

theorem relEntry_lookup (l l' : Ledis) (h : SameView l l') (name : String) :
    relEntry l.heap l'.heap (mapGet l.keys name) (mapGet l'.keys name) := by
  unfold relEntry
  rw [← mapGet_viewKeys, ← mapGet_viewKeys, h.2.2]

theorem relEntry_some (heap heap' : List Key) (p : Nat) (e' : Option Nat)
    (h : relEntry heap heap' (some p) e') :
    ∃ p', e' = some p' ∧ deref heap' p' = deref heap p := by
  cases e' with
  | none => simp [relEntry] at h
  | some p' =>
    simp only [relEntry, Option.map_some', Option.some.injEq] at h
    exact ⟨p', rfl, h.symm⟩

theorem relEntry_none (heap heap' : List Key) (e' : Option Nat)
    (h : relEntry heap heap' none e') : e' = none := by
  cases e' with
  | none => rfl
  | some p' => simp [relEntry] at h

theorem sameView_deleteKey (l l' : Ledis) (p p' : Nat) (h : SameView l l')
    (hd : deref l'.heap p' = deref l.heap p) :
    SameView (l.deleteKey (some p)).2 (l'.deleteKey (some p')).2 := by
  obtain ⟨h1, h2, h3⟩ := h
  refine ⟨?_, ?_, ?_⟩
  · rw [deleteKey_atomicData, deleteKey_atomicData, hd, h1]
  · rw [deleteKey_setData, deleteKey_setData, hd, h2]
  · rw [deleteKey_keys, deleteKey_keys, deleteKey_heap, deleteKey_heap, viewKeys_mapDelete,
      viewKeys_mapDelete, hd, h3]

theorem sameView_pruneLoop (now : Int) (heap heap' : List Key) (es es' : List (Option Nat))
    (hes : List.Forall₂ (relEntry heap heap') es es') (l l' : Ledis)
    (hl : l.heap = heap) (hl' : l'.heap = heap') (h : SameView l l') :
    SameView (l.pruneLoop now es) (l'.pruneLoop now es') := by
  unfold Ledis.pruneLoop
  induction hes generalizing l l' with
  | nil => exact h
  | @cons e e' es es' he _ ih =>
    rw [List.foldl_cons, List.foldl_cons]
    cases e with
    | none =>
      rw [relEntry_none _ _ _ he]
      exact ih l l' hl hl' h
    | some p =>
      obtain ⟨p', hp', hd⟩ := relEntry_some _ _ _ _ he
      subst hp'
      dsimp only
      rw [hl', hl, hd]
      split_ifs
      · apply ih
        · rw [deleteKey_heap]; exact hl
        · rw [deleteKey_heap]; exact hl'
        · exact sameView_deleteKey l l' p p' h (by rw [hl, hl']; exact hd)
      · exact ih l l' hl hl' h

theorem get_congr (l l' : Ledis) (e e' : Option Nat) (hA : l.atomicData = l'.atomicData)
    (hr : relEntry l.heap l'.heap e e') : l.get e = l'.get e' := by
  cases e with
  | none => rw [relEntry_none _ _ _ hr]; rfl
  | some p =>
    obtain ⟨p', hp', hd⟩ := relEntry_some _ _ _ _ hr
    subst hp'
    simp only [Ledis.get, hd, hA]

theorem smembers_congr (l l' : Ledis) (e e' : Option Nat) (hS : l.setData = l'.setData)
    (hr : relEntry l.heap l'.heap e e') : l.smembers e = l'.smembers e' := by
  cases e with
  | none => rw [relEntry_none _ _ _ hr]; rfl
  | some p =>
    obtain ⟨p', hp', hd⟩ := relEntry_some _ _ _ _ hr
    subst hp'
    simp only [Ledis.smembers, hd, hS]

theorem getTTL_congr (rt : Runtime) (l l' : Ledis) (now : Int) (e e' : Option Nat)
    (hr : relEntry l.heap l'.heap e e') : l.getTTL rt now e = l'.getTTL rt now e' := by
  cases e with
  | none => rw [relEntry_none _ _ _ hr]; rfl
  | some p =>
    obtain ⟨p', hp', hd⟩ := relEntry_some _ _ _ _ hr
    subst hp'
    simp only [Ledis.getTTL, hd]

theorem listKeys_congr (l l' : Ledis) (now : Int) (h : SameView l l') :
    (l.listKeys now).1 = (l'.listKeys now).1 := by
  have h3 := h.2.2
  have key : ∀ (heap : List Key) (keys : List (String × Nat)),
      (keys.filter (fun e => !(deref heap e.2).isExpired now)).map Prod.fst =
      ((viewKeys heap keys).filter (fun e => !e.2.isExpired now)).map Prod.fst := by
    intro heap keys
    simp [viewKeys, List.filter_map, Function.comp_def]
  simp only [Ledis.listKeys]
  rw [key, key, h3]

end Storage

namespace Storage

theorem notSetKey_congr (l l' : Ledis) (e e' : Option Nat)
    (hr : relEntry l.heap l'.heap e e') : l.notSetKey e = l'.notSetKey e' := by
  cases e with
  | none => rw [relEntry_none _ _ _ hr]; rfl
  | some p =>
    obtain ⟨p', hp', hd⟩ := relEntry_some _ _ _ _ hr
    subst hp'
    simp only [Ledis.notSetKey, hd]

theorem any_notSetKey_congr (l l' : Ledis) (es es' : List (Option Nat))
    (hes : List.Forall₂ (relEntry l.heap l'.heap) es es') :
    es.any l.notSetKey = es'.any l'.notSetKey := by
  induction hes with
  | nil => rfl
  | cons he _ ih => simp only [List.any_cons, notSetKey_congr l l' _ _ he, ih]

theorem filterMap_rel (heap heap' : List Key) (es es' : List (Option Nat))
    (hes : List.Forall₂ (relEntry heap heap') es es') :
    (es.filterMap (fun key => key)).map (deref heap) =
      (es'.filterMap (fun key => key)).map (deref heap') := by
  induction hes with
  | nil => rfl
  | @cons e e' es es' he _ ih =>
    cases e with
    | none =>
      rw [relEntry_none _ _ _ he]
      simpa [List.filterMap_cons] using ih
    | some p =>
      obtain ⟨p', hp', hd⟩ := relEntry_some _ _ _ _ he
      subst hp'
      simp [List.filterMap_cons, hd, ih]

theorem sinterMinLoop_congr (l l' : Ledis) (hS : l.setData = l'.setData)
    (ptrs ptrs' : List Nat) (hp : ptrs.map (deref l.heap) = ptrs'.map (deref l'.heap))
    (index : Nat) (id : Option Nat) (minSize : Nat) :
    sinterMinLoop l ptrs index id minSize = sinterMinLoop l' ptrs' index id minSize := by
  induction ptrs generalizing ptrs' index id minSize with
  | nil =>
    cases ptrs' with
    | nil => rfl
    | cons _ _ => simp at hp
  | cons p ps ih =>
    cases ptrs' with
    | nil => simp at hp
    | cons p' ps' =>
      simp only [List.map_cons, List.cons.injEq] at hp
      obtain ⟨hd, htl⟩ := hp
      simp only [sinterMinLoop, hd, hS]
      split_ifs
      · exact ih ps' htl _ _ _
      · cases mapGet l'.setData (deref l'.heap p').name with
        | none => rfl
        | some s =>
          cases id with
          | none => exact ih ps' htl _ _ _
          | some i0 =>
            dsimp only
            split_ifs
            · exact ih ps' htl _ _ _
            · exact ih ps' htl _ _ _

theorem sinterFilterLoop_congr (l l' : Ledis) (hS : l.setData = l'.setData) (idMin : Nat)
    (ptrs ptrs' : List Nat) (hp : ptrs.map (deref l.heap) = ptrs'.map (deref l'.heap))
    (index : Nat) (cands : List String) :
    sinterFilterLoop l idMin ptrs index cands = sinterFilterLoop l' idMin ptrs' index cands := by
  induction ptrs generalizing ptrs' index cands with
  | nil =>
    cases ptrs' with
    | nil => rfl
    | cons _ _ => simp at hp
  | cons p ps ih =>
    cases ptrs' with
    | nil => simp at hp
    | cons p' ps' =>
      simp only [List.map_cons, List.cons.injEq] at hp
      obtain ⟨hd, htl⟩ := hp
      cases hs : mapGet l'.setData (deref l'.heap p').name with
      | none =>
        simp only [sinterFilterLoop, hd, hS, hs]
        split_ifs
        · exact ih ps' htl _ _
        · exact ih ps' htl _ _
        · rfl
      | some s =>
        simp only [sinterFilterLoop, hd, hS, hs]
        split_ifs
        · exact ih ps' htl _ _
        · exact ih ps' htl _ _

theorem sinterMinLoop_bound (l : Ledis) (ptrs : List Nat) (index : Nat) (id : Option Nat)
    (minSize : Nat) (r : Nat) (h : sinterMinLoop l ptrs index id minSize = .ok (some r)) :
    id = some r ∨ (index ≤ r ∧ r < index + ptrs.length) := by
  induction ptrs generalizing index id minSize with
  | nil =>
    simp only [sinterMinLoop, Result.ok.injEq] at h
    exact Or.inl h
  | cons p ps ih =>
    have step : ∀ (id' : Option Nat) (m : Nat),
        (id' = id ∨ id' = some index) →
        sinterMinLoop l ps (index + 1) id' m = .ok (some r) →
        id = some r ∨ (index ≤ r ∧ r < index + (p :: ps).length) := by
      intro id' m hid hr
      simp only [List.length_cons]
      rcases ih _ _ _ hr with h1 | ⟨h1, h2⟩
      · rcases hid with h3 | h3
        · exact Or.inl (h3 ▸ h1)
        · rw [h3] at h1
          cases h1
          exact Or.inr ⟨le_refl _, by omega⟩
      · exact Or.inr ⟨by omega, by omega⟩
    unfold sinterMinLoop at h
    split_ifs at h
    · exact step _ _ (Or.inl rfl) h
    · cases hs : mapGet l.setData (deref l.heap p).name with
      | none => simp [hs] at h
      | some s =>
        simp only [hs] at h
        cases id with
        | none => exact step _ _ (Or.inr rfl) h
        | some i0 =>
          dsimp only at h
          split_ifs at h
          · exact step _ _ (Or.inr rfl) h
          · exact step _ _ (Or.inl rfl) h

theorem getD_map_deref (heap heap' : List Key) (ptrs ptrs' : List Nat)
    (hp : ptrs.map (deref heap) = ptrs'.map (deref heap')) (i : Nat) (hi : i < ptrs.length) :
    deref heap (ptrs.getD i 0) = deref heap' (ptrs'.getD i 0) := by
  have hlen : ptrs.length = ptrs'.length := by
    have := congrArg List.length hp
    simpa using this
  have hi' : i < ptrs'.length := hlen ▸ hi
  have h1 : (ptrs.map (deref heap))[i]? = (ptrs'.map (deref heap'))[i]? := by rw [hp]
  simp only [List.getElem?_map, List.getElem?_eq_getElem hi, List.getElem?_eq_getElem hi',
    Option.map_some', Option.some.injEq] at h1
  simp only [List.getD_eq_getElem?_getD, List.getElem?_eq_getElem hi,
    List.getElem?_eq_getElem hi', Option.getD_some]
  exact h1

theorem sinter_congr (l l' : Ledis) (hS : l.setData = l'.setData) (es es' : List (Option Nat))
    (hes : List.Forall₂ (relEntry l.heap l'.heap) es es') : l.sinter es = l'.sinter es' := by
  have hlen := hes.length_eq
  have hany := any_notSetKey_congr l l' es es' hes
  have hp := filterMap_rel _ _ es es' hes
  unfold Ledis.sinter
  rw [hlen, hany]
  split_ifs
  · rfl
  · rfl
  · dsimp only
    rw [sinterMinLoop_congr l l' hS _ _ hp 0 none 0]
    cases hr : sinterMinLoop l' (es'.filterMap (fun key => key)) 0 none 0 with
    | crash => rfl
    | error e => rfl
    | ok r =>
      cases r with
      | none => rfl
      | some id =>
        dsimp only
        have hr' : sinterMinLoop l (es.filterMap (fun key => key)) 0 none 0 = .ok (some id) := by
          rw [sinterMinLoop_congr l l' hS _ _ hp 0 none 0, hr]
        have hb := sinterMinLoop_bound l _ 0 none 0 id hr'
        have hid : id < (es.filterMap (fun key => key)).length := by
          rcases hb with h1 | ⟨_, h2⟩
          · cases h1
          · omega
        rw [getD_map_deref _ _ _ _ hp id hid, hS]
        cases mapGet l'.setData
          (deref l'.heap ((es'.filterMap (fun key => key)).getD id 0)).name with
        | none => rfl
        | some s => exact sinterFilterLoop_congr l l' hS id _ _ hp 0 _

end Storage

namespace Storage

theorem headD_rel (heap heap' : List Key) (es es' : List (Option Nat))
    (hes : List.Forall₂ (relEntry heap heap') es es') :
    relEntry heap heap' (es.headD none) (es'.headD none) := by
  cases hes with
  | nil => rfl
  | cons he _ => exact he

theorem lookups_rel (l l' : Ledis) (h : SameView l l') (keys : List String) :
    List.Forall₂ (relEntry l.heap l'.heap) (keys.map (fun key => mapGet l.keys key))
      (keys.map (fun key => mapGet l'.keys key)) := by
  induction keys with
  | nil => exact List.Forall₂.nil
  | cons k ks ih => exact List.Forall₂.cons (relEntry_lookup l l' h k) ih

theorem dispatch_read_congr (rt : Runtime) (l l' : Ledis) (now : Int) (verb : String)
    (args keys : List String) (es es' : List (Option Nat))
    (hverb : verb ∈ ["GET", "SMEMBERS", "SINTER", "KEYS", "TTL"]) (h : SameView l l')
    (hes : List.Forall₂ (relEntry l.heap l'.heap) es es') :
    (l.dispatch rt now (verb :: args) keys es).1 = (l'.dispatch rt now (verb :: args) keys es').1 := by
  have h0 := headD_rel _ _ _ _ hes
  simp only [List.mem_cons, List.mem_singleton, List.not_mem_nil, or_false] at hverb
  rcases hverb with hv | hv | hv | hv | hv
  · subst hv
    simp only [Ledis.dispatch, List.headD_cons, String.reduceEq, if_false, if_true]
    rw [get_congr l l' _ _ h.1 h0]
    cases l'.get (es'.headD none) <;> rfl
  · subst hv
    simp only [Ledis.dispatch, List.headD_cons, String.reduceEq, if_false, if_true]
    rw [smembers_congr l l' _ _ h.2.1 h0]
    cases l'.smembers (es'.headD none) <;> rfl
  · subst hv
    simp only [Ledis.dispatch, List.headD_cons, String.reduceEq, if_false, if_true]
    rw [sinter_congr l l' h.2.1 _ _ hes]
    cases l'.sinter es' <;> rfl
  · subst hv
    simp only [Ledis.dispatch, List.headD_cons, String.reduceEq, if_false, if_true]
    rw [listKeys_congr l l' now h]
  · subst hv
    simp only [Ledis.dispatch, List.headD_cons, String.reduceEq, if_false, if_true]
    rw [getTTL_congr rt l l' now _ _ h0]
    cases l'.getTTL rt now (es'.headD none) <;> rfl

theorem HandleCommand_read_congr (rt : Runtime) (l l' : Ledis) (now : Int) (line : String)
    (hread : isReadCmd rt line) (h : SameView l l') :
    (l.HandleCommand rt now line).1 = (l'.HandleCommand rt now line).1 := by
  obtain ⟨c0, args, hparse, hverb⟩ := hread
  unfold Ledis.HandleCommand
  simp only [hparse, ValidateCmdAndGetKeys]
  cases validateSwitch (ToUpper rt c0) (ToUpper rt c0 :: args) with
  | error e => rfl
  | ok keys =>
    dsimp only
    split_ifs with hlen
    · have hconv : ∀ m : Ledis,
          m.convertKeys keys = .ok (keys.map (fun key => mapGet m.keys key)) := by
        intro m
        unfold Ledis.convertKeys
        rw [if_neg (by omega)]
      rw [hconv l, hconv l']
      dsimp only
      have hes := lookups_rel l l' h keys
      have hv := sameView_pruneLoop now _ _ _ _ hes l l' rfl rfl h
      apply dispatch_read_congr rt _ _ now _ _ _ _ _ hverb hv
      rw [pruneLoop_heap, pruneLoop_heap]
      exact hes
    · exact dispatch_read_congr rt l l' now _ _ _ _ _ hverb h List.Forall₂.nil

theorem save_restore_view (rt : Runtime) (s : Ledis) (t1 t2 : Int) (saveLine restoreLine : String)
    (hwf : s.wf) (hsave : isCmd rt saveLine "SAVE" [])
    (hrestore : isCmd rt restoreLine "RESTORE" []) :
    SameView ((s.HandleCommand rt t1 saveLine).2.HandleCommand rt t2 restoreLine).2 s := by
  rw [HandleCommand_SAVE rt s t1 saveLine hsave]
  obtain ⟨heap1, c, hs, hc⟩ := save_eq s
  obtain ⟨heap1', c', hc', ⟨ext, hext⟩, hcwf, _, hcopy⟩ := copy_spec s.heap s.toStore
  rw [hc] at hc'
  cases hc'
  obtain ⟨ca, cs, ck⟩ := hcopy hwf
  rw [hs]
  dsimp only
  rw [HandleCommand_RESTORE rt _ t2 restoreLine hrestore]
  obtain ⟨heap2, c2, hs2, hc2⟩ := restore_eq
    { s with heap := heap1, snapshots := some c } c rfl
  obtain ⟨heap2', c2', hc2', _, _, _, hcopy2⟩ := copy_spec heap1 c
  dsimp only at hc2
  rw [hc2] at hc2'
  cases hc2'
  obtain ⟨da, ds, dk⟩ := hcopy2 hcwf
  rw [hs2]
  exact ⟨da.trans ca, ds.trans cs, dk.trans ck⟩

/-- C6: on every reachable state, SAVE immediately followed by RESTORE leads to a state
that holds the same keyspace (scalar values, sets and metadata records), and on which
every command with a read verb (GET, SMEMBERS, SINTER, KEYS, TTL, any arguments) issued
at an instant `now` returns the very result it returns on the state before SAVE. -/
theorem save_restore_round_trip (rt : Runtime) (s : Ledis) (t1 t2 now : Int)
    (saveLine restoreLine line : String) (hs : Reachable s)
    (hsave : isCmd rt saveLine "SAVE" []) (hrestore : isCmd rt restoreLine "RESTORE" [])
    (hread : isReadCmd rt line) :
    ((s.HandleCommand rt t1 saveLine).2.HandleCommand rt t2 restoreLine).1 = .ok none ∧
    SameView ((s.HandleCommand rt t1 saveLine).2.HandleCommand rt t2 restoreLine).2 s ∧
    ((((s.HandleCommand rt t1 saveLine).2.HandleCommand rt t2 restoreLine).2).HandleCommand
      rt now line).1 = (s.HandleCommand rt now line).1 := by
  have hv := save_restore_view rt s t1 t2 saveLine restoreLine (reachable_wf s hs) hsave hrestore
  exact ⟨restore_after_save_ok rt s t1 t2 saveLine restoreLine hsave hrestore, hv,
    HandleCommand_read_congr rt _ _ now line hread hv⟩

theorem reachable_storeTwoSets : Reachable storeTwoSets :=
  Reachable.step asciiRuntime _ 0 "SADD b 2 3 4"
    (Reachable.step asciiRuntime _ 0 "SADD a 1 2 3" Reachable.init)

/-- Witness of C6 on the store holding the sets `a` and `b`, read by `SINTER a b`. -/
theorem save_restore_round_trip_witness :
    Reachable storeTwoSets ∧
    ((((storeTwoSets.HandleCommand asciiRuntime 0 "SAVE").2.HandleCommand
      asciiRuntime 0 "RESTORE").2).HandleCommand asciiRuntime 0 "SINTER a b").1 =
      (storeTwoSets.HandleCommand asciiRuntime 0 "SINTER a b").1 :=
  ⟨reachable_storeTwoSets,
   (save_restore_round_trip asciiRuntime storeTwoSets 0 0 0 "SAVE" "RESTORE" "SINTER a b"
      reachable_storeTwoSets ⟨"SAVE", rfl, rfl⟩ ⟨"RESTORE", rfl, rfl⟩
      ⟨"SINTER", ["a", "b"], rfl, by decide⟩).2.2⟩

end Storage

namespace Storage

/-! ## Behaviour of the code where it departs from the specification -/

set_option maxRecDepth 100000

/-- C1 (failing input): in the store after `SET k v`, `EXPIRE k 1` at instant 0 the key
`k` is expired at instant 2 s. There `DEL k` and `EXPIRE k 5` answer OK, `GET k` panics,
`TTL k` reports an expired key and `SET k w` leaves the value without metadata, whereas
on the store from which `k` was deleted first `DEL k`, `EXPIRE k 5`, `GET k` and `TTL k`
return the errors of an absent key and `SET k w` registers the metadata of `k`. At
instant 1 s exactly (`last_renewed + ttl = now`) the key is not pruned: `GET k` returns
its value. -/
theorem expired_key_is_not_treated_as_absent :
    (storeWithExpiry.HandleCommand asciiRuntime 2000000000 "DEL k").1 = .ok none ∧
    ((storeWithExpiry.deleteKey (some 0)).2.HandleCommand asciiRuntime 2000000000 "DEL k").1
      = .error "key not found" ∧
    (storeWithExpiry.HandleCommand asciiRuntime 2000000000 "EXPIRE k 5").1 = .ok none ∧
    ((storeWithExpiry.deleteKey (some 0)).2.HandleCommand asciiRuntime 2000000000 "EXPIRE k 5").1
      = .error "key not found" ∧
    (storeWithExpiry.HandleCommand asciiRuntime 2000000000 "GET k").1 = .crash ∧
    ((storeWithExpiry.deleteKey (some 0)).2.HandleCommand asciiRuntime 2000000000 "GET k").1
      = .error "key is not valid, this key may be a set key and does not support GET command" ∧
    (storeWithExpiry.HandleCommand asciiRuntime 2000000000 "TTL k").1 = .error "key expired" ∧
    ((storeWithExpiry.deleteKey (some 0)).2.HandleCommand asciiRuntime 2000000000 "TTL k").1
      = .error "key not found" ∧
    (storeWithExpiry.HandleCommand asciiRuntime 2000000000 "SET k w").2.keys = [] ∧
    ((storeWithExpiry.deleteKey (some 0)).2.HandleCommand asciiRuntime 2000000000 "SET k w").2.keys
      = [("k", 1)] ∧
    (storeWithExpiry.HandleCommand asciiRuntime 1000000000 "GET k").1 = .ok (some ["v"]) := by
  decide

/-- C2 (failing input): after `SADD s 1` the valid command `SET s v` returns an error
and leaves the name `s` in both value maps; and after `SET k v`, `EXPIRE k 1` a
`SET k w` at instant 2 s leaves `k` in the scalar map without metadata. The type
invariant holds before and fails after. -/
theorem type_invariant_broken_by_set :
    typeInvariant storeWithSet ∧
    mapGet (storeWithSet.HandleCommand asciiRuntime 0 "SET s v").2.atomicData "s" = some "v" ∧
    mapGet (storeWithSet.HandleCommand asciiRuntime 0 "SET s v").2.setData "s" = some ["1"] ∧
    ¬ typeInvariant (storeWithSet.HandleCommand asciiRuntime 0 "SET s v").2 ∧
    typeInvariant storeWithExpiry ∧
    ¬ typeInvariant (storeWithExpiry.HandleCommand asciiRuntime 2000000000 "SET k w").2 := by
  decide

/-- C3 (failing input): on the store holding the set key `s`, `SET s v` returns the
type-mismatch error but has already written `v` into the scalar map; the set map, the
metadata map and the expiration index are as before. -/
theorem set_type_mismatch_writes_scalar :
    storeWithSet.atomicData = [] ∧
    storeWithSet.HandleCommand asciiRuntime 0 "SET s v" =
      (.error "key is not valid, this key may be a set key and does not support SET command",
       { storeWithSet with atomicData := [("s", "v")] }) := by
  decide

/-- C5 (failing input): with `a` expiring at 100 s and `b` at 10 s the index invariant
holds; `EXPIRE a 0` then removes the entry of `b` instead of the entry of `a`: the index
holds the single entry `a` (ttl 0) and none for `b` (ttl 10 s). -/
theorem expire_zero_removes_wrong_entry :
    indexInvariant storeTwoExpiries ∧
    storeTwoExpiries.gc.tree.inorder = [1, 0] ∧
    (storeTwoExpiries.HandleCommand asciiRuntime 0 "EXPIRE a 0").1 = .ok none ∧
    (storeTwoExpiries.HandleCommand asciiRuntime 0 "EXPIRE a 0").2.keys = [("a", 0), ("b", 1)] ∧
    (storeTwoExpiries.HandleCommand asciiRuntime 0 "EXPIRE a 0").2.heap =
      [{ name := "a", _type := .KeyTypeString, lastRenewed := 0, expireTime := 0 },
       { name := "b", _type := .KeyTypeString, lastRenewed := 0, expireTime := 10000000000 }] ∧
    (storeTwoExpiries.HandleCommand asciiRuntime 0 "EXPIRE a 0").2.gc.tree.inorder = [0] ∧
    ¬ indexInvariant (storeTwoExpiries.HandleCommand asciiRuntime 0 "EXPIRE a 0").2 := by
  decide

end Storage

namespace Storage

/-! ## Snapshot isolation -/

theorem snapInv_frame (snap : Store) (view : List (String × Key)) (fp : Option Nat)
    (l l' : Ledis) (h : snapInv snap view l) (hf : Frame fp l l')
    (hq : ∀ p, fp = some p → ∀ e' ∈ snap.keys, p ≠ e'.2) : snapInv snap view l' := by
  obtain ⟨h1, h2, ⟨w1, w2, w3, w4, w5⟩, h4⟩ := h
  obtain ⟨f1, f2, f3, f4⟩ := hf
  refine ⟨f1.trans h1, ?_, ⟨w1, w2, w3, w4, fun e he => by rw [f2]; exact w5 e he⟩,
    fun e he => h4 e (f4 e he)⟩
  rw [← h2]
  apply viewKeys_congr
  intro e he
  apply f3
  intro hfp
  exact hq e.2 hfp.symm e he rfl

theorem snapInv_alloc (snap : Store) (view : List (String × Key)) (l : Ledis) (now : Int)
    (name : String) (ty : KeyType) (h : snapInv snap view l) :
    snapInv snap view (l.alloc now name ty) ∧ ∀ e' ∈ snap.keys, l.heap.length ≠ e'.2 := by
  obtain ⟨h1, h2, ⟨w1, w2, w3, w4, w5⟩, h4⟩ := h
  have hq : ∀ e' ∈ snap.keys, l.heap.length ≠ e'.2 := by
    intro e' he'
    have := w5 e' he'
    omega
  refine ⟨⟨h1, ?_, ⟨w1, w2, w3, w4, fun e he => ?_⟩, fun e he => ?_⟩, hq⟩
  · rw [← h2]
    apply viewKeys_congr
    intro e he
    exact deref_append_lt _ _ _ (w5 e he)
  · have := w5 e he
    simp only [Ledis.alloc, List.length_append, List.length_singleton]
    omega
  · simp only [Ledis.alloc] at he
    rcases mem_mapSet _ _ _ _ he with heq | hmem
    · rw [heq]; exact hq
    · exact h4 e hmem

theorem snapInv_HandleCommand (snap : Store) (view : List (String × Key)) (rt : Runtime)
    (l : Ledis) (now : Int) (cmd : String) (h : snapInv snap view l)
    (hcmd : ¬ isSnapshotCmd rt cmd) : snapInv snap view (l.HandleCommand rt now cmd).2 :=
  HandleCommand_preserves (snapInv snap view) (fun p => ∀ e' ∈ snap.keys, p ≠ e'.2) rt l now cmd
    (fun _ hl e he => hl.2.2.2 e he) h
    (fun l p hl _ => snapInv_frame snap view none l _ hl (frame_deleteKey l (some p))
      (fun _ hp => by cases hp))
    (fun l name ty hl => snapInv_alloc snap view l now name ty hl)
    (fun l p v hl hq => snapInv_frame snap view (some p) l _ hl (frame_set l now p v)
      (fun q hp => by cases hp; exact hq))
    (fun l p vs hl _ => snapInv_frame snap view none l _ hl (frame_sadd l p vs)
      (fun _ hp => by cases hp))
    (fun l p vs hl _ => snapInv_frame snap view none l _ hl (frame_srem l p vs)
      (fun _ hp => by cases hp))
    (fun l p d hl hq => snapInv_frame snap view (some p) l _ hl (frame_setExpireKey l now p d)
      (fun q hp => by cases hp; exact hq))
    (fun _ _ hc => absurd hc hcmd)
    (fun _ _ hc => absurd hc hcmd)

theorem snapInv_run (snap : Store) (view : List (String × Key)) (rt : Runtime)
    (cs : List (Int × String)) (hcs : ∀ c ∈ cs, ¬ isSnapshotCmd rt c.2) (l : Ledis)
    (h : snapInv snap view l) : snapInv snap view (l.run rt cs) := by
  unfold Ledis.run
  induction cs generalizing l with
  | nil => exact h
  | cons c cs ih =>
    rw [List.foldl_cons]
    exact ih (fun c' hc' => hcs c' (List.mem_cons_of_mem _ hc')) _
      (snapInv_HandleCommand snap view rt l c.1 c.2 h (hcs c (by simp)))

theorem snapInv_after_save (rt : Runtime) (s : Ledis) (t1 : Int) (saveLine : String)
    (hwf : s.wf) (hsave : isCmd rt saveLine "SAVE" []) :
    ∃ snap, snapInv snap (viewKeys s.heap s.keys) (s.HandleCommand rt t1 saveLine).2 ∧
      snap.atomicData = s.atomicData ∧ snap.setData = s.setData := by
  rw [HandleCommand_SAVE rt s t1 saveLine hsave]
  obtain ⟨heap1, c, hs, hc⟩ := save_eq s
  obtain ⟨heap1', c', hc', ⟨ext, hext⟩, hcwf, hge, hcopy⟩ := copy_spec s.heap s.toStore
  rw [hc] at hc'
  cases hc'
  obtain ⟨ca, cs, ck⟩ := hcopy hwf
  rw [hs]
  refine ⟨c, ⟨rfl, ck, hcwf, ?_⟩, ca, cs⟩
  intro e he e' he'
  have h1 := hwf.2.2.2.2 e he
  have h2 := hge e' he'
  omega

/-- Isolation of the keyspace of the snapshot (the expiration index is not covered): from a
well-formed state `s`, after SAVE, any commands other than SAVE and RESTORE (at any
instants, with no tick of a sweeper), the snapshot still holds the keyspace of `s`, and
RESTORE then succeeds and yields a keyspace whose scalar values, sets and metadata records
(kind, last renewal, ttl) are those of `s`. -/
theorem snapshot_isolation (rt : Runtime) (s : Ledis) (t1 t2 : Int)
    (saveLine restoreLine : String) (cs : List (Int × String)) (hwf : s.wf)
    (hsave : isCmd rt saveLine "SAVE" []) (hrestore : isCmd rt restoreLine "RESTORE" [])
    (hcs : ∀ c ∈ cs, ¬ isSnapshotCmd rt c.2) :
    snapshotHolds ((s.HandleCommand rt t1 saveLine).2.run rt cs) s ∧
    (((s.HandleCommand rt t1 saveLine).2.run rt cs).HandleCommand rt t2 restoreLine).1
      = .ok none ∧
    SameView (((s.HandleCommand rt t1 saveLine).2.run rt cs).HandleCommand rt t2 restoreLine).2
      s := by
  obtain ⟨snap, hinv0, ha, hsd⟩ := snapInv_after_save rt s t1 saveLine hwf hsave
  have hinv := snapInv_run snap _ rt cs hcs _ hinv0
  obtain ⟨h1, h2, h3, _⟩ := hinv
  refine ⟨⟨snap, h1, ha, hsd, h2⟩, ?_, ?_⟩
  · rw [HandleCommand_RESTORE rt _ t2 restoreLine hrestore]
    obtain ⟨l1, hr, _⟩ := restore_some _ snap h1
    rw [hr]
  · rw [HandleCommand_RESTORE rt _ t2 restoreLine hrestore]
    obtain ⟨heap2, c2, hs2, hc2⟩ := restore_eq _ snap h1
    obtain ⟨heap2', c2', hc2', _, _, _, hcopy2⟩ :=
      copy_spec ((s.HandleCommand rt t1 saveLine).2.run rt cs).heap snap
    rw [hc2] at hc2'
    cases hc2'
    obtain ⟨da, ds, dk⟩ := hcopy2 h3
    rw [hs2]
    exact ⟨da.trans ha, ds.trans hsd, dk.trans h2⟩

theorem wf_storeScalarAndSet : storeScalarAndSet.wf :=
  reachable_wf _ (Reachable.step asciiRuntime _ 0 "SADD k2 x y"
    (Reachable.step asciiRuntime _ 0 "SET k1 a" Reachable.init))

theorem not_snapshotCmd_of_parse (rt : Runtime) (line c0 : String) (args : List String)
    (hp : ParseCmd line = c0 :: args) (h1 : ToUpper rt c0 ≠ "SAVE")
    (h2 : ToUpper rt c0 ≠ "RESTORE") : ¬ isSnapshotCmd rt line := by
  rintro ⟨c, a, hc, hv⟩
  rw [hp] at hc
  cases hc
  rcases hv with hv | hv
  · exact h1 hv
  · exact h2 hv

/-- Instance of the isolation of the keyspace: `SAVE`, `DEL k1`, `SADD k2 z`, `RESTORE` on
the store holding the scalar `k1` and the set `k2`. -/
theorem snapshot_isolation_witness :
    storeScalarAndSet.wf ∧
    SameView ((((storeScalarAndSet.HandleCommand asciiRuntime 0 "SAVE").2.run asciiRuntime
      [(0, "DEL k1"), (0, "SADD k2 z")]).HandleCommand asciiRuntime 0 "RESTORE").2)
      storeScalarAndSet :=
  ⟨wf_storeScalarAndSet,
   (snapshot_isolation asciiRuntime storeScalarAndSet 0 0 "SAVE" "RESTORE"
      [(0, "DEL k1"), (0, "SADD k2 z")] wf_storeScalarAndSet ⟨"SAVE", rfl, rfl⟩
      ⟨"RESTORE", rfl, rfl⟩
      (by
        intro c hc
        simp only [List.mem_cons, List.mem_singleton, List.not_mem_nil, or_false] at hc
        rcases hc with rfl | rfl
        · exact not_snapshotCmd_of_parse _ _ "DEL" ["k1"] rfl (by decide) (by decide)
        · exact not_snapshotCmd_of_parse _ _ "SADD" ["k2", "z"] rfl (by decide) (by decide))).2.2⟩

end Storage
namespace Storage

/-! ## C11: tokens of a command line -/

theorem splitSpace_ne_nil (l : List Char) : splitSpace l ≠ [] := by
  cases l with
  | nil => simp [splitSpace]
  | cons c cs =>
    unfold splitSpace
    split_ifs
    · simp
    · cases splitSpace cs <;> simp

theorem splitSpace_cons_space (cs : List Char) : splitSpace (' ' :: cs) = [] :: splitSpace cs := by
  rw [splitSpace, if_pos rfl]

theorem splitSpace_cons_other (c : Char) (cs t : List Char) (ts : List (List Char))
    (hc : c ≠ ' ') (h : splitSpace cs = t :: ts) :
    splitSpace (c :: cs) = (c :: t) :: ts := by
  rw [splitSpace, if_neg hc, h]

theorem splitSpace_spaceFree (l : List Char) : ∀ t ∈ splitSpace l, ' ' ∉ t := by
  induction l with
  | nil => simp [splitSpace]
  | cons c cs ih =>
    by_cases hc : c = ' '
    · subst hc
      rw [splitSpace_cons_space]
      intro t ht
      rcases List.mem_cons.mp ht with h | h
      · rw [h]; simp
      · exact ih t h
    · obtain ⟨t, ts, hts⟩ := List.exists_cons_of_ne_nil (splitSpace_ne_nil cs)
      rw [splitSpace_cons_other c cs t ts hc hts]
      rw [hts] at ih
      intro x hx
      rcases List.mem_cons.mp hx with h | h
      · rw [h]
        intro hmem
        rcases List.mem_cons.mp hmem with h' | h'
        · exact hc h'.symm
        · exact ih t (List.mem_cons_self _ _) h'
      · exact ih x (List.mem_cons_of_mem _ h)

theorem joinSpace_cons_char (c : Char) (t : List Char) (ts : List (List Char)) :
    joinSpace ((c :: t) :: ts) = c :: joinSpace (t :: ts) := by
  cases ts <;> rfl

theorem joinSpace_splitSpace (l : List Char) : joinSpace (splitSpace l) = l := by
  induction l with
  | nil => rfl
  | cons c cs ih =>
    obtain ⟨t, ts, hts⟩ := List.exists_cons_of_ne_nil (splitSpace_ne_nil cs)
    by_cases hc : c = ' '
    · subst hc
      rw [splitSpace_cons_space, hts]
      rw [hts] at ih
      show [] ++ ' ' :: joinSpace (t :: ts) = _
      rw [ih]
      rfl
    · rw [splitSpace_cons_other c cs t ts hc hts, joinSpace_cons_char]
      rw [hts] at ih
      rw [ih]

theorem splitSpace_length (l : List Char) : (splitSpace l).length = l.count ' ' + 1 := by
  induction l with
  | nil => rfl
  | cons c cs ih =>
    by_cases hc : c = ' '
    · subst hc
      rw [splitSpace_cons_space, List.length_cons, ih, List.count_cons_self]
    · obtain ⟨t, ts, hts⟩ := List.exists_cons_of_ne_nil (splitSpace_ne_nil cs)
      rw [splitSpace_cons_other c cs t ts hc hts, List.count_cons_of_ne (Ne.symm hc), ← ih, hts]
      rfl

theorem splitSpace_token (t rest : List Char) (ht : ' ' ∉ t) :
    splitSpace t = [t] ∧ splitSpace (t ++ ' ' :: rest) = t :: splitSpace rest := by
  induction t with
  | nil => exact ⟨rfl, splitSpace_cons_space rest⟩
  | cons c t ih =>
    have hc : c ≠ ' ' := fun h => ht (by rw [h]; exact List.mem_cons_self _ _)
    obtain ⟨h1, h2⟩ := ih (fun h => ht (List.mem_cons_of_mem _ h))
    exact ⟨splitSpace_cons_other c t t [] hc h1,
      splitSpace_cons_other c (t ++ ' ' :: rest) t (splitSpace rest) hc h2⟩

theorem splitSpace_joinSpace (ts : List (List Char)) (hne : ts ≠ [])
    (hfree : ∀ t ∈ ts, ' ' ∉ t) : splitSpace (joinSpace ts) = ts := by
  induction ts with
  | nil => exact absurd rfl hne
  | cons t ts ih =>
    cases ts with
    | nil => exact (splitSpace_token t [] (hfree t (List.mem_cons_self _ _))).1
    | cons u us =>
      show splitSpace (t ++ ' ' :: joinSpace (u :: us)) = _
      rw [(splitSpace_token t _ (hfree t (List.mem_cons_self _ _))).2,
        ih (by simp) (fun x hx => hfree x (List.mem_cons_of_mem _ hx))]

/-- C11 (counterexample): the line `SADD s  a`, with two spaces before `a`, is cut into
four tokens, the third of them empty, and not into the three tokens of `SADD s a`. -/
theorem double_space_yields_empty_token :
    ParseCmd "SADD s  a" = ["SADD", "s", "", "a"] ∧
    ParseCmd "SADD s a" = ["SADD", "s", "a"] ∧
    "" ∈ ParseCmd "SADD s  a" ∧
    ParseCmd "SADD s  a" ≠ ParseCmd "SADD s a" := by
  decide

/-- C11 (amended): `ParseCmd` trims the line and cuts it at every single space. The
tokens are free of spaces and, written with one space between neighbours, give back the
trimmed line; they are the only such list, so a trimmed line whose tokens are separated
by single spaces yields exactly those tokens; and there is one token more than there
are spaces in the trimmed line, so each further space yields an empty token. -/
theorem ParseCmd_cuts_at_every_space (s : String) :
    (∀ t ∈ ParseCmd s, ' ' ∉ t.data) ∧
    joinSpace ((ParseCmd s).map String.data) = trimSpace s.data ∧
    (ParseCmd s).length = (trimSpace s.data).count ' ' + 1 ∧
    (∀ ts : List String, ts ≠ [] → (∀ t ∈ ts, ' ' ∉ t.data) →
      joinSpace (ts.map String.data) = trimSpace s.data → ParseCmd s = ts) := by
  have hmap : (ParseCmd s).map String.data = splitSpace (trimSpace s.data) := by
    unfold ParseCmd
    rw [List.map_map]
    conv_rhs => rw [← List.map_id (splitSpace (trimSpace s.data))]
    apply List.map_congr_left
    intro t _
    rfl
  refine ⟨?_, ?_, ?_, ?_⟩
  · intro t ht
    apply splitSpace_spaceFree (trimSpace s.data) t.data
    rw [← hmap]
    exact List.mem_map_of_mem _ ht
  · rw [hmap, joinSpace_splitSpace]
  · unfold ParseCmd
    rw [List.length_map, splitSpace_length]
  · intro ts hne hfree hjoin
    have h1 : splitSpace (trimSpace s.data) = ts.map String.data := by
      rw [← hjoin]
      apply splitSpace_joinSpace
      · simpa using hne
      · intro t ht
        obtain ⟨x, hx, hxt⟩ := List.mem_map.mp ht
        rw [← hxt]
        exact hfree x hx
    unfold ParseCmd
    rw [h1, List.map_map]
    conv_rhs => rw [← List.map_id ts]
    apply List.map_congr_left
    intro t _
    rfl

end Storage
namespace Storage

/-! ## The seconds argument of EXPIRE -/

theorem HandleCommand_EXPIRE_error (rt : Runtime) (l : Ledis) (now : Int)
    (line name s e : String) (h : isCmd rt line "EXPIRE" [name, s])
    (hs : Str2TimeDuration rt s = .error e) :
    l.HandleCommand rt now line = (.error ("invalid duration: " ++ e), l.prune1 now name) := by
  rw [HandleCommand_of_isCmd rt l now line _ _ h]
  simp [validateSwitch, Ledis.dispatch, Ledis.convertKeys, Ledis.prune1, hs]

theorem HandleCommand_EXPIRE_absent (rt : Runtime) (l : Ledis) (now : Int)
    (line name s : String) (d : Int) (h : isCmd rt line "EXPIRE" [name, s])
    (hs : Str2TimeDuration rt s = .ok d) (hk : mapGet l.keys name = none) :
    l.HandleCommand rt now line = (.error "key not found", l) := by
  rw [HandleCommand_of_isCmd rt l now line _ _ h]
  simp [validateSwitch, Ledis.dispatch, Ledis.convertKeys, Ledis.pruneLoop, hs, hk,
    Ledis.setExpireKey]

theorem HandleCommand_EXPIRE_ok (rt : Runtime) (l : Ledis) (now : Int)
    (line name s : String) (d : Int) (p : Nat) (h : isCmd rt line "EXPIRE" [name, s])
    (hs : Str2TimeDuration rt s = .ok d) (hk : mapGet l.keys name = some p) :
    l.HandleCommand rt now line =
      (.ok none, ((l.prune1 now name).setExpireKey now (some p) d).2) := by
  rw [HandleCommand_of_isCmd rt l now line _ _ h]
  simp [validateSwitch, Ledis.dispatch, Ledis.convertKeys, Ledis.prune1, hs, hk,
    Ledis.setExpireKey]

theorem parseDigits_eq_some (cs : List Char) (acc n : Nat) :
    parseDigits cs acc = some n ↔
      (∀ c ∈ cs, '0'.val ≤ c.val ∧ c.val ≤ '9'.val) ∧
      n = cs.foldl (fun acc c => acc * 10 + (c.toNat - 48)) acc := by
  induction cs generalizing acc with
  | nil =>
    unfold parseDigits
    constructor
    · intro h
      exact ⟨fun c hc => absurd hc (List.not_mem_nil c), (Option.some.inj h).symm⟩
    · intro h
      rw [h.2]
      rfl
  | cons c cs ih =>
    unfold parseDigits
    split_ifs with hc
    · rw [ih, List.foldl_cons]
      constructor
      · intro h
        refine ⟨fun x hx => ?_, h.2⟩
        rcases List.mem_cons.mp hx with hx | hx
        · rw [hx]; exact hc
        · exact h.1 x hx
      · intro h
        exact ⟨fun x hx => h.1 x (List.mem_cons_of_mem _ hx), h.2⟩
    · constructor
      · intro h; cases h
      · intro h; exact absurd (h.1 c (List.mem_cons_self _ _)) hc

theorem Atoi_minus (rt : Runtime) (s : String) (v : Int) (cs : List Char)
    (h : s.data = '-' :: cs) :
    Atoi rt s = .ok v ↔
      cs ≠ [] ∧ ∃ n, parseDigits cs 0 = some n ∧ v = - (n : Int) ∧
        -9223372036854775808 ≤ v ∧ v ≤ 9223372036854775807 := by
  unfold Atoi
  simp only [h]
  by_cases hcs : cs = []
  · simp [hcs]
  · simp only [hcs, if_false, if_true]
    cases hp : parseDigits cs 0 with
    | none => split_ifs <;> simp
    | some n =>
      simp only [Option.some.injEq, exists_eq_left']
      by_cases hr : (-(n : Int) < -9223372036854775808 ∨ 9223372036854775807 < -(n : Int))
      · rw [if_pos hr]
        constructor
        · intro h'; cases h'
        · rintro ⟨_, hv, h1, h2⟩
          subst hv
          omega
      · rw [if_neg hr]
        constructor
        · intro h'
          cases h'
          refine ⟨hcs, rfl, ?_, ?_⟩ <;> omega
        · rintro ⟨_, hv, _, _⟩
          rw [hv]

theorem Atoi_plus (rt : Runtime) (s : String) (v : Int) (cs : List Char)
    (h : s.data = '+' :: cs) :
    Atoi rt s = .ok v ↔
      cs ≠ [] ∧ ∃ n, parseDigits cs 0 = some n ∧ v = (n : Int) ∧
        -9223372036854775808 ≤ v ∧ v ≤ 9223372036854775807 := by
  unfold Atoi
  simp only [h]
  by_cases hcs : cs = []
  · simp [hcs]
  · simp only [hcs, if_false, Bool.false_eq_true]
    cases hp : parseDigits cs 0 with
    | none => split_ifs <;> simp
    | some n =>
      simp only [Option.some.injEq, exists_eq_left']
      by_cases hr : ((n : Int) < -9223372036854775808 ∨ 9223372036854775807 < (n : Int))
      · rw [if_pos hr]
        constructor
        · intro h'; cases h'
        · rintro ⟨_, hv, h1, h2⟩
          subst hv
          omega
      · rw [if_neg hr]
        constructor
        · intro h'
          cases h'
          refine ⟨hcs, rfl, ?_, ?_⟩ <;> omega
        · rintro ⟨_, hv, _, _⟩
          rw [hv]

theorem Atoi_plain (rt : Runtime) (s : String) (v : Int)
    (h1 : ∀ cs, s.data ≠ '-' :: cs) (h2 : ∀ cs, s.data ≠ '+' :: cs) :
    Atoi rt s = .ok v ↔
      s.data ≠ [] ∧ ∃ n, parseDigits s.data 0 = some n ∧ v = (n : Int) ∧
        -9223372036854775808 ≤ v ∧ v ≤ 9223372036854775807 := by
  unfold Atoi
  split
  · exact absurd (by assumption) (h1 _)
  · exact absurd (by assumption) (h2 _)
  · by_cases hcs : s.data = []
    · simp [hcs]
    · simp only [hcs, if_false, Bool.false_eq_true]
      cases hp : parseDigits s.data 0 with
      | none => split_ifs <;> simp
      | some n =>
        simp only [Option.some.injEq, exists_eq_left']
        by_cases hr : ((n : Int) < -9223372036854775808 ∨ 9223372036854775807 < (n : Int))
        · rw [if_pos hr]
          constructor
          · intro h'; cases h'
          · rintro ⟨_, hv, h1, h2⟩
            subst hv
            omega
        · rw [if_neg hr]
          constructor
          · intro h'
            cases h'
            refine ⟨hcs, rfl, ?_, ?_⟩ <;> omega
          · rintro ⟨_, hv, _, _⟩
            rw [hv]

theorem parseDigits_digitsValue (cs : List Char) (n : Nat) :
    parseDigits cs 0 = some n ↔
      (∀ c ∈ cs, '0'.val ≤ c.val ∧ c.val ≤ '9'.val) ∧ n = digitsValue cs :=
  parseDigits_eq_some cs 0 n

theorem Atoi_ok_iff (rt : Runtime) (s : String) (v : Int) :
    Atoi rt s = .ok v ↔ isInt64Literal s v := by
  by_cases hm : ∃ cs, s.data = '-' :: cs
  · obtain ⟨cs, hcs⟩ := hm
    rw [Atoi_minus rt s v cs hcs]
    constructor
    · rintro ⟨hne, n, hp, hv, h1, h2⟩
      obtain ⟨hd, hn⟩ := (parseDigits_digitsValue cs n).mp hp
      exact ⟨cs, hne, hd, Or.inr (Or.inr ⟨hcs, by rw [hv, hn]⟩), h1, h2⟩
    · rintro ⟨ds, hne, hd, hcase, h1, h2⟩
      rcases hcase with ⟨he, _⟩ | ⟨he, _⟩ | ⟨he, hv⟩
      · rw [hcs] at he
        have := hd '-' (by rw [← he]; simp)
        exact absurd this (by decide)
      · rw [hcs] at he
        exact absurd (List.cons.inj he).1 (by decide)
      · rw [hcs] at he
        have hcd : cs = ds := (List.cons.inj he).2
        subst hcd
        exact ⟨hne, digitsValue cs, (parseDigits_digitsValue cs _).mpr ⟨hd, rfl⟩, hv, h1, h2⟩
  · by_cases hp : ∃ cs, s.data = '+' :: cs
    · obtain ⟨cs, hcs⟩ := hp
      rw [Atoi_plus rt s v cs hcs]
      constructor
      · rintro ⟨hne, n, hp, hv, h1, h2⟩
        obtain ⟨hd, hn⟩ := (parseDigits_digitsValue cs n).mp hp
        exact ⟨cs, hne, hd, Or.inr (Or.inl ⟨hcs, by rw [hv, hn]⟩), h1, h2⟩
      · rintro ⟨ds, hne, hd, hcase, h1, h2⟩
        rcases hcase with ⟨he, _⟩ | ⟨he, hv⟩ | ⟨he, _⟩
        · rw [hcs] at he
          have := hd '+' (by rw [← he]; simp)
          exact absurd this (by decide)
        · rw [hcs] at he
          have hcd : cs = ds := (List.cons.inj he).2
          subst hcd
          exact ⟨hne, digitsValue cs, (parseDigits_digitsValue cs _).mpr ⟨hd, rfl⟩, hv, h1, h2⟩
        · rw [hcs] at he
          exact absurd (List.cons.inj he).1 (by decide)
    · have h1 : ∀ cs, s.data ≠ '-' :: cs := fun cs h => hm ⟨cs, h⟩
      have h2 : ∀ cs, s.data ≠ '+' :: cs := fun cs h => hp ⟨cs, h⟩
      rw [Atoi_plain rt s v h1 h2]
      constructor
      · rintro ⟨hne, n, hpd, hv, hr1, hr2⟩
        obtain ⟨hd, hn⟩ := (parseDigits_digitsValue s.data n).mp hpd
        exact ⟨s.data, hne, hd, Or.inl ⟨rfl, by rw [hv, hn]⟩, hr1, hr2⟩
      · rintro ⟨ds, hne, hd, hcase, hr1, hr2⟩
        rcases hcase with ⟨he, hv⟩ | ⟨he, _⟩ | ⟨he, _⟩
        · rw [← he] at hne hd hv
          exact ⟨hne, digitsValue s.data,
            (parseDigits_digitsValue s.data _).mpr ⟨hd, rfl⟩, hv, hr1, hr2⟩
        · exact absurd he (h2 ds)
        · exact absurd he (h1 ds)

theorem Str2TimeDuration_ok_iff (rt : Runtime) (s : String) :
    (∃ d, Str2TimeDuration rt s = .ok d) ↔ ∃ v, isInt64Literal s v := by
  unfold Str2TimeDuration
  cases ha : Atoi rt s with
  | error e =>
    constructor
    · rintro ⟨d, hd⟩
      cases hd
    · rintro ⟨v, hv⟩
      rw [(Atoi_ok_iff rt s v).mpr hv] at ha
      cases ha
  | ok num =>
    exact ⟨fun _ => ⟨num, (Atoi_ok_iff rt s num).mp ha⟩, fun _ => ⟨_, rfl⟩⟩

theorem Str2TimeDuration_ok (rt : Runtime) (s : String) (v : Int) (h : isInt64Literal s v) :
    Str2TimeDuration rt s = .ok (wrap64 (v * 1000000000)) := by
  unfold Str2TimeDuration
  rw [(Atoi_ok_iff rt s v).mpr h]

end Storage
namespace Storage

/-! ## C12 and C19: what EXPIRE accepts and what it stores -/

set_option maxRecDepth 100000

/-- C12 (counterexample): on the store holding the scalar key `k`, which is not expired,
`EXPIRE k -5` succeeds although `-5` is not a non-negative integer, and stores the ttl
of minus five seconds. -/
theorem expire_accepts_negative_seconds :
    mapGet storeScalar.keys "k" = some 0 ∧
    (deref storeScalar.heap 0).isExpired 0 = false ∧
    (storeScalar.HandleCommand asciiRuntime 0 "EXPIRE k -5").1 = .ok none ∧
    (deref (storeScalar.HandleCommand asciiRuntime 0 "EXPIRE k -5").2.heap 0).expireTime
      = -5000000000 := by
  decide

/-- C12 (amended): on a state in which `name` is a key that is not expired,
`EXPIRE name s` succeeds exactly when `s` is a decimal integer with an optional sign
that fits the signed 64-bit range, negative values included, and then acts as
`setExpireKey` with that many seconds (in wrapping 64-bit nanoseconds); for every other
`s` it returns an error whose message begins with "invalid duration" and leaves the whole
state, so the ttl, the last renewal and the expiration index, as it was. -/
theorem expire_accepts_signed_integers (rt : Runtime) (l : Ledis) (now : Int)
    (line name s : String) (p : Nat) (h : isCmd rt line "EXPIRE" [name, s])
    (hk : mapGet l.keys name = some p) (hlive : (deref l.heap p).isExpired now = false) :
    ((l.HandleCommand rt now line).1 = .ok none ↔ ∃ v, isInt64Literal s v) ∧
    ((¬ ∃ v, isInt64Literal s v) →
      ∃ e, l.HandleCommand rt now line = (.error ("invalid duration: " ++ e), l)) ∧
    (∀ v, isInt64Literal s v →
      l.HandleCommand rt now line =
        (.ok none, (l.setExpireKey now (some p) (wrap64 (v * 1000000000))).2)) := by
  have hprune : l.prune1 now name = l := prune1_live l now name p hk hlive
  have hok : ∀ v, isInt64Literal s v →
      l.HandleCommand rt now line =
        (.ok none, (l.setExpireKey now (some p) (wrap64 (v * 1000000000))).2) := by
    intro v hv
    rw [HandleCommand_EXPIRE_ok rt l now line name s _ p h (Str2TimeDuration_ok rt s v hv) hk,
      hprune]
  have herr : (¬ ∃ v, isInt64Literal s v) →
      ∃ e, l.HandleCommand rt now line = (.error ("invalid duration: " ++ e), l) := by
    intro hno
    cases hs : Str2TimeDuration rt s with
    | error e =>
      exact ⟨e, by rw [HandleCommand_EXPIRE_error rt l now line name s e h hs, hprune]⟩
    | ok d => exact absurd ((Str2TimeDuration_ok_iff rt s).mp ⟨d, hs⟩) hno
  refine ⟨⟨fun hres => ?_, fun ⟨v, hv⟩ => by rw [hok v hv]⟩, herr, hok⟩
  by_contra hno
  obtain ⟨e, he⟩ := herr hno
  rw [he] at hres
  cases hres

/-- Witness of C12: `EXPIRE k -5` on the store holding the scalar key `k`. -/
theorem expire_accepts_signed_integers_witness :
    isInt64Literal "-5" (-5) ∧
    (storeScalar.HandleCommand asciiRuntime 0 "EXPIRE k -5").1 = .ok none :=
  ⟨⟨['5'], by decide, by decide, Or.inr (Or.inr ⟨rfl, rfl⟩), by decide, by decide⟩,
   ((expire_accepts_signed_integers asciiRuntime storeScalar 0 "EXPIRE k -5" "k" "-5" 0
      ⟨"EXPIRE", rfl, rfl⟩ (by decide) (by decide)).1).mpr
     ⟨-5, ['5'], by decide, by decide, Or.inr (Or.inr ⟨rfl, rfl⟩), by decide, by decide⟩⟩

/-- C19 (failing input): `EXPIRE k 9223372037` is accepted (the number fits 64 bits) but
the product with 10^9 nanoseconds wraps around: the stored ttl is negative instead of
9223372037 s and the key is expired at the very instant of the EXPIRE. With
`EXPIRE k 36028797018963968` the product wraps to 0: the expiry is cleared and the index
has no entry, although the number is not 0. The largest number stored exactly is
9223372036. -/
theorem expire_seconds_wrap_around :
    Str2TimeDuration asciiRuntime "9223372037" = .ok (-9223372036709551616) ∧
    (storeScalar.HandleCommand asciiRuntime 0 "EXPIRE k 9223372037").1 = .ok none ∧
    (deref (storeScalar.HandleCommand asciiRuntime 0 "EXPIRE k 9223372037").2.heap 0).expireTime
      = -9223372036709551616 ∧
    (deref (storeScalar.HandleCommand asciiRuntime 0 "EXPIRE k 9223372037").2.heap 0).isExpired 0
      = true ∧
    (storeScalar.HandleCommand asciiRuntime 0 "EXPIRE k 36028797018963968").1 = .ok none ∧
    (deref (storeScalar.HandleCommand asciiRuntime 0
      "EXPIRE k 36028797018963968").2.heap 0).expireTime = 0 ∧
    (storeScalar.HandleCommand asciiRuntime 0 "EXPIRE k 36028797018963968").2.gc.tree = .nil ∧
    (deref (storeScalar.HandleCommand asciiRuntime 0 "EXPIRE k 9223372036").2.heap 0).expireTime
      = 9223372036 * 1000000000 := by
  refine ⟨rfl, ?_⟩
  decide

/-- C13 (failing input): `EXPIRE k 9223372037` succeeds, and `TTL k` issued at the same
instant does not return 9223372037 but the error "key expired" (the stored ttl has
wrapped around and is negative). After `EXPIRE k 5` the same `TTL k` returns 5. -/
theorem ttl_after_wrapped_expire :
    (storeScalar.HandleCommand asciiRuntime 0 "EXPIRE k 9223372037").1 = .ok none ∧
    ((storeScalar.HandleCommand asciiRuntime 0 "EXPIRE k 9223372037").2.HandleCommand
      asciiRuntime 0 "TTL k").1 = .error "key expired" ∧
    ((storeScalar.HandleCommand asciiRuntime 0 "EXPIRE k 5").2.HandleCommand
      asciiRuntime 0 "TTL k").1 = .ok (some ["5"]) := by
  decide

end Storage
namespace Storage

/-! ## Entries of the expiration index with equal instants -/

set_option maxRecDepth 100000

/-- C14 (failing input): `a` and `b` both expire at 10 s and the index holds an entry
for each. `DEL b` succeeds and removes `b` from the metadata map and the scalar map,
but takes the entry of `a` out of the index and leaves the entry of `b`: afterwards
`a` (ttl 10 s) has no entry and the index holds the deleted key. `DEL` of an absent
name returns "key not found" and changes nothing. -/
theorem del_removes_entry_of_other_key :
    storeSameInstant.keys = [("a", 0), ("b", 1)] ∧
    (deref storeSameInstant.heap 0).getExpireTime = 10000000000 ∧
    (deref storeSameInstant.heap 1).getExpireTime = 10000000000 ∧
    storeSameInstant.gc.tree.inorder = [0, 1] ∧
    indexInvariant storeSameInstant ∧
    (storeSameInstant.HandleCommand asciiRuntime 2000000000 "DEL b").1 = .ok none ∧
    (storeSameInstant.HandleCommand asciiRuntime 2000000000 "DEL b").2.keys = [("a", 0)] ∧
    (storeSameInstant.HandleCommand asciiRuntime 2000000000 "DEL b").2.atomicData
      = [("a", "x")] ∧
    (storeSameInstant.HandleCommand asciiRuntime 2000000000 "DEL b").2.gc.tree.inorder = [1] ∧
    ¬ indexInvariant (storeSameInstant.HandleCommand asciiRuntime 2000000000 "DEL b").2 ∧
    storeSameInstant.HandleCommand asciiRuntime 2000000000 "DEL c"
      = (.error "key not found", storeSameInstant) := by
  decide

/-- C18 (failing input): the keys `a` and `b` have different names and the same
expiration instant; `Less` holds in neither direction between their entries, and
`remove` called for `b` deletes the entry of `a` and keeps the entry of `b`. -/
theorem equal_instants_are_not_ordered :
    (deref storeSameInstant.heap 0).name = "a" ∧
    (deref storeSameInstant.heap 1).name = "b" ∧
    (deref storeSameInstant.heap 0).getExpireTime
      = (deref storeSameInstant.heap 1).getExpireTime ∧
    item.Less storeSameInstant.heap 0 1 = false ∧
    item.Less storeSameInstant.heap 1 0 = false ∧
    storeSameInstant.gc.tree.inorder = [0, 1] ∧
    (storeSameInstant.gc.remove storeSameInstant.heap (some 1)).tree.inorder = [1] := by
  decide

end Storage
namespace Storage

/-! ## Commands on a key that has just been pruned -/

set_option maxRecDepth 100000

theorem reachable_storeWithExpiry : Reachable storeWithExpiry :=
  Reachable.step asciiRuntime _ 0 "EXPIRE k 1"
    (Reachable.step asciiRuntime _ 0 "SET k v" Reachable.init)

theorem reachable_storeSetWithExpiry : Reachable storeSetWithExpiry :=
  Reachable.step asciiRuntime _ 0 "EXPIRE s 1"
    (Reachable.step asciiRuntime _ 0 "SADD s 1" Reachable.init)

/-- C20 (failing input): the stores after `SET k v`, `EXPIRE k 1` and after `SADD s 1`,
`EXPIRE s 1` are reachable; at instant 2 s the key is pruned before the verb runs, its
entry stays in the slice of key entries and passes the kind check, and `GET k`,
`SMEMBERS s`, `SREM s 1` and `SINTER s` dereference the value that was just deleted:
`HandleCommand` panics instead of returning a response or an error. -/
theorem handle_command_panics_on_pruned_key :
    Reachable storeWithExpiry ∧ Reachable storeSetWithExpiry ∧
    (storeWithExpiry.HandleCommand asciiRuntime 2000000000 "GET k").1 = .crash ∧
    (storeSetWithExpiry.HandleCommand asciiRuntime 2000000000 "SMEMBERS s").1 = .crash ∧
    (storeSetWithExpiry.HandleCommand asciiRuntime 2000000000 "SREM s 1").1 = .crash ∧
    (storeSetWithExpiry.HandleCommand asciiRuntime 2000000000 "SINTER s").1 = .crash ∧
    mapGet (storeWithExpiry.prune1 2000000000 "k").atomicData "k" = none ∧
    (storeWithExpiry.prune1 2000000000 "k").get (mapGet storeWithExpiry.keys "k") = .crash :=
  ⟨reachable_storeWithExpiry, reachable_storeSetWithExpiry, by decide⟩

end Storage
namespace Storage

/-! ## C16: what a read can observe -/

theorem keyMeta_of_ptr (l : Ledis) (name : String) (p : Nat)
    (h : mapGet l.keys name = some p) (hlt : p < l.heap.length) :
    l.keyMeta name = some (deref l.heap p) := by
  unfold Ledis.keyMeta
  rw [h]
  simp [deref, List.getD, List.get?_eq_getElem?, List.getElem?_eq_getElem hlt]

theorem not_expired_iff (k : Key) (T : Int) :
    k.isExpired T = false ↔ (k.expireTime = 0 ∨ T ≤ k.lastRenewed + k.expireTime) := by
  simp only [Key.isExpired, Key.getExpireTime, Bool.and_eq_false_imp, decide_eq_true_eq,
    decide_eq_false_iff_not, not_lt, ne_eq]
  constructor
  · intro h
    by_cases h0 : k.expireTime = 0
    · exact Or.inl h0
    · exact Or.inr (h h0)
  · rintro (h | h) h0
    · exact absurd h h0
    · exact h

theorem get_pruned (l : Ledis) (p : Nat) :
    ∀ v, (l.deleteKey (some p)).2.get (some p) ≠ .ok v := by
  intro v
  unfold Ledis.get
  simp only [deleteKey_heap]
  by_cases ht : (deref l.heap p)._type = .KeyTypeString
  · simp only [ht, ne_eq, not_true_eq_false, if_false]
    rw [deleteKey_atomicData, if_pos ht, mapGet_mapDelete_same]
    intro h; cases h
  · simp only [ne_eq, ht, not_false_eq_true, if_true]
    intro h; cases h

theorem smembers_pruned (l : Ledis) (p : Nat) :
    ∀ v, (l.deleteKey (some p)).2.smembers (some p) ≠ .ok v := by
  intro v
  unfold Ledis.smembers
  simp only [deleteKey_heap]
  by_cases ht : (deref l.heap p)._type = .KeyTypeSet
  · simp only [ht, ne_eq, not_true_eq_false, if_false]
    have hns : (deref l.heap p)._type ≠ .KeyTypeString := by rw [ht]; decide
    rw [deleteKey_setData, if_neg hns, mapGet_mapDelete_same]
    intro h; cases h
  · simp only [ne_eq, ht, not_false_eq_true, if_true]
    intro h; cases h

theorem read_value_not_expired (rt : Runtime) (l : Ledis) (T : Int) (line name : String)
    (r : Option (List String))
    (hcmd : isCmd rt line "GET" [name] ∨ isCmd rt line "SMEMBERS" [name])
    (hval : (l.HandleCommand rt T line).1 = .ok r) :
    ∃ p, mapGet l.keys name = some p ∧ (deref l.heap p).isExpired T = false := by
  cases hk : mapGet l.keys name with
  | none =>
    exfalso
    rcases hcmd with hc | hc
    · rw [HandleCommand_GET rt l T line name hc, prune1_absent l T name hk, hk] at hval
      simp [Ledis.get] at hval
    · rw [HandleCommand_SMEMBERS rt l T line name hc, prune1_absent l T name hk, hk] at hval
      simp [Ledis.smembers, listOutcome] at hval
  | some p =>
    refine ⟨p, rfl, ?_⟩
    by_contra hexp
    have hexp' : (deref l.heap p).isExpired T = true := by
      cases h : (deref l.heap p).isExpired T
      · exact absurd h hexp
      · rfl
    rcases hcmd with hc | hc
    · rw [HandleCommand_GET rt l T line name hc, prune1_expired l T name p hk hexp', hk] at hval
      cases hg : (l.deleteKey (some p)).2.get (some p) with
      | ok v => exact get_pruned l p v hg
      | error e => rw [hg] at hval; cases hval
      | crash => rw [hg] at hval; cases hval
    · rw [HandleCommand_SMEMBERS rt l T line name hc, prune1_expired l T name p hk hexp', hk]
        at hval
      cases hg : (l.deleteKey (some p)).2.smembers (some p) with
      | ok v => exact smembers_pruned l p v hg
      | error e => rw [hg] at hval; cases hval
      | crash => rw [hg] at hval; cases hval

/-- C16: on every reachable state, if `GET name` or `SMEMBERS name` issued at the
instant `T` returns a value and not an error, then `name` has a metadata record, and
its ttl is 0 or its expiration `last_renewed + ttl` is not before `T`. -/
theorem reads_never_observe_expired_key (rt : Runtime) (s : Ledis) (T : Int)
    (line name : String) (r : Option (List String)) (hs : Reachable s)
    (hcmd : isCmd rt line "GET" [name] ∨ isCmd rt line "SMEMBERS" [name])
    (hval : (s.HandleCommand rt T line).1 = .ok r) :
    ∃ k, s.keyMeta name = some k ∧ (k.expireTime = 0 ∨ T ≤ k.lastRenewed + k.expireTime) := by
  obtain ⟨p, hp, hlive⟩ := read_value_not_expired rt s T line name r hcmd hval
  have hlt : p < s.heap.length := (reachable_wf s hs).2.2.2.2 _ (mapGet_some_mem _ _ _ hp)
  exact ⟨deref s.heap p, keyMeta_of_ptr s name p hp hlt, (not_expired_iff _ T).mp hlive⟩

/-- Witness of C16: `GET k` at 1 s on the store in which `k` expires at 1 s. -/
theorem reads_never_observe_expired_key_witness :
    (storeWithExpiry.HandleCommand asciiRuntime 1000000000 "GET k").1 = .ok (some ["v"]) ∧
    ∃ k, storeWithExpiry.keyMeta "k" = some k ∧
      (k.expireTime = 0 ∨ (1000000000 : Int) ≤ k.lastRenewed + k.expireTime) :=
  ⟨by decide,
   reads_never_observe_expired_key asciiRuntime storeWithExpiry 1000000000 "GET k" "k"
     (some ["v"]) reachable_storeWithExpiry (Or.inl ⟨"GET", rfl, rfl⟩) (by decide)⟩

end Storage
namespace Storage

/-! ## The sweeper after RESTORE -/

set_option maxRecDepth 100000

/-- C17 (failing input): after `SET k v`, `EXPIRE k 100`, `SAVE`, `EXPIRE k 1`,
`RESTORE` at instant 0 the live key `k` is the record 2 with ttl 100 s, but the index
holds the record 0, the key as it was before SAVE, whose ttl is now 1 s. One tick of
the sweeper at 2 s collects that record and deletes `k` from the live store, although
`k` is not due before 100 s. -/
theorem sweeper_scans_records_from_before_save :
    storeRestored.keys = [("k", 2)] ∧
    deref storeRestored.heap 2 =
      { name := "k", _type := .KeyTypeString, lastRenewed := 0, expireTime := 100000000000 } ∧
    (deref storeRestored.heap 2).isExpired 2000000000 = false ∧
    storeRestored.gc.tree.inorder = [0] ∧
    deref storeRestored.heap 0 =
      { name := "k", _type := .KeyTypeString, lastRenewed := 0, expireTime := 1000000000 } ∧
    storeRestored.gc.collect storeRestored.heap 2000000000 = [0] ∧
    (garbageCollector.clean storeRestored 2000000000).keys = [] ∧
    (garbageCollector.clean storeRestored 2000000000).atomicData = [] := by
  decide

end Storage
namespace Storage

/-! ## Records keep their names -/

theorem deref_set_name (heap : List Key) (p q : Nat) (k : Key)
    (hk : k.name = (deref heap p).name) :
    (deref (heap.set p k) q).name = (deref heap q).name := by
  by_cases hq : q = p
  · subst hq
    by_cases hlt : q < heap.length
    · rw [deref_set_same heap q k hlt, hk]
    · rw [List.set_eq_of_length_le (by omega)]
  · rw [deref_set_ne heap p q k hq]

theorem renewKey_name (l : Ledis) (now : Int) (key : Option Nat) (q : Nat) :
    (deref (l.renewKey now key).heap q).name = (deref l.heap q).name := by
  cases key with
  | none => rfl
  | some p =>
    rw [renewKey_heap]
    exact deref_set_name _ _ _ _ rfl

theorem set_name (l : Ledis) (now : Int) (p : Nat) (v : String) (q : Nat) :
    (deref (l.set now (some p) v).2.heap q).name = (deref l.heap q).name := by
  by_cases ht : (deref l.heap p)._type = .KeyTypeString
  · rw [set_scalar l now p v ht, renewKey_name]
  · rw [set_not_scalar l now p v ht]

theorem setExpireKey_name (l : Ledis) (now : Int) (p : Nat) (d : Int) (q : Nat) :
    (deref (l.setExpireKey now (some p) d).2.heap q).name = (deref l.heap q).name := by
  unfold Ledis.setExpireKey
  dsimp only
  rw [renewKey_name]
  exact deref_set_name _ _ _ _ rfl

theorem named_of_frame (p : Option Nat) (l l' : Ledis) (hf : Frame p l l')
    (hn : ∀ q, (deref l'.heap q).name = (deref l.heap q).name) (hwf : l'.wf)
    (h : l.named) : l'.named := by
  obtain ⟨f1, f2, _, f4⟩ := hf
  obtain ⟨_, hk, hsnap⟩ := h
  refine ⟨hwf, fun e he => by rw [hn]; exact hk e (f4 e he), fun snap hs => ?_⟩
  rw [f1] at hs
  obtain ⟨⟨w1, w2, w3, w4, w5⟩, hsk⟩ := hsnap snap hs
  exact ⟨⟨w1, w2, w3, w4, fun e he => by rw [f2]; exact w5 e he⟩,
    fun e he => by rw [hn]; exact hsk e he⟩

theorem named_deleteKey (l : Ledis) (p : Nat) (h : l.named) : (l.deleteKey (some p)).2.named :=
  named_of_frame none l _ (frame_deleteKey l (some p)) (fun q => by rw [deleteKey_heap])
    (wf_deleteKey l p h.1) h

theorem named_set (l : Ledis) (now : Int) (p : Nat) (v : String) (h : l.named) :
    (l.set now (some p) v).2.named :=
  named_of_frame (some p) l _ (frame_set l now p v) (set_name l now p v) (wf_set l now p v h.1) h

theorem named_setExpireKey (l : Ledis) (now : Int) (p : Nat) (d : Int) (h : l.named) :
    (l.setExpireKey now (some p) d).2.named :=
  named_of_frame (some p) l _ (frame_setExpireKey l now p d) (setExpireKey_name l now p d)
    (wf_setExpireKey l now p d h.1) h

theorem named_sadd (l : Ledis) (p : Nat) (vs : List String) (h : l.named) :
    (l.sadd (some p) vs).2.named := by
  have hf := frame_sadd l p vs
  refine named_of_frame none l _ hf (fun q => ?_) (wf_sadd l p vs h.1) h
  unfold Ledis.sadd
  dsimp only
  split_ifs
  · rfl
  · rw [(sadd_fold_fields (deref l.heap p).name vs l).1]

theorem named_srem (l : Ledis) (p : Nat) (vs : List String) (h : l.named) :
    (l.srem (some p) vs).2.named := by
  have hf := frame_srem l p vs
  refine named_of_frame none l _ hf (fun q => ?_) (wf_srem l p vs h.1) h
  unfold Ledis.srem
  dsimp only
  split_ifs
  · rfl
  · rw [(sremLoop_fields (deref l.heap p).name vs l).1]

theorem named_alloc (l : Ledis) (now : Int) (name : String) (ty : KeyType) (h : l.named) :
    (l.alloc now name ty).named := by
  obtain ⟨hwf, hk, hsnap⟩ := h
  refine ⟨wf_alloc l now name ty hwf, fun e he => ?_, fun snap hs => ?_⟩
  · simp only [Ledis.alloc] at he ⊢
    rcases mem_mapSet _ _ _ _ he with heq | hmem
    · rw [heq, deref_append_length]
      rfl
    · rw [deref_append_left _ _ _ (hwf.2.2.2.2 e hmem)]
      exact hk e hmem
  · simp only [Ledis.alloc] at hs ⊢
    obtain ⟨⟨w1, w2, w3, w4, w5⟩, hsk⟩ := hsnap snap hs
    refine ⟨⟨w1, w2, w3, w4, fun e he => ?_⟩, fun e he => ?_⟩
    · have := w5 e he
      simp only [List.length_append, List.length_singleton]
      omega
    · rw [deref_append_left _ _ _ (w5 e he)]
      exact hsk e he

theorem namedKeys_of_view (heap heap' : List Key) (keys keys' : List (String × Nat))
    (hv : viewKeys heap' keys' = viewKeys heap keys) (h : namedKeys heap keys) :
    namedKeys heap' keys' := by
  intro e he
  have hm : (e.1, deref heap' e.2) ∈ viewKeys heap keys := by
    rw [← hv]
    exact List.mem_map_of_mem _ he
  obtain ⟨e0, he0, heq⟩ := List.mem_map.mp hm
  have h1 : e0.1 = e.1 := (Prod.mk.inj heq).1
  have h2 : deref heap e0.2 = deref heap' e.2 := (Prod.mk.inj heq).2
  rw [← h2, ← h1]
  exact h e0 he0

theorem named_save (l : Ledis) (h : l.named) : l.save.2.named := by
  obtain ⟨heap1, c, hs, hc⟩ := save_eq l
  obtain ⟨heap1', c', hc', ⟨ext, hext⟩, hcwf, _, hcopy⟩ := copy_spec l.heap l.toStore
  rw [hc] at hc'
  cases hc'
  obtain ⟨hwf, hk, _⟩ := h
  obtain ⟨_, _, hview⟩ := hcopy (toStore_wf l hwf)
  have hw := wf_save l hwf
  rw [hs] at hw ⊢
  refine ⟨hw, fun e he => ?_, fun snap hsn => ?_⟩
  · show (deref heap1 e.2).name = e.1
    rw [hext, deref_append_lt _ _ _ (hwf.2.2.2.2 e he)]
    exact hk e he
  · have : snap = c := (Option.some.inj hsn).symm
    subst this
    exact ⟨hcwf, namedKeys_of_view l.heap heap1 l.keys snap.keys hview hk⟩

theorem named_restore (l : Ledis) (h : l.named) : l.restore.2.named := by
  cases ho : l.snapshots with
  | none =>
    rw [restore_none l ho]
    exact h
  | some o =>
    obtain ⟨heap1, c, hs, hc⟩ := restore_eq l o ho
    obtain ⟨heap1', c', hc', _, hcwf, _, hcopy⟩ := copy_spec l.heap o
    rw [hc] at hc'
    cases hc'
    obtain ⟨_, _, hsnap⟩ := h
    obtain ⟨howf, hok⟩ := hsnap o ho
    obtain ⟨_, _, hview⟩ := hcopy howf
    rw [hs]
    refine ⟨hcwf, namedKeys_of_view l.heap heap1 o.keys c.keys hview hok, fun snap hsn => ?_⟩
    cases hsn

theorem named_HandleCommand (rt : Runtime) (l : Ledis) (now : Int) (cmd : String)
    (h : l.named) : (l.HandleCommand rt now cmd).2.named :=
  HandleCommand_preserves Ledis.named (fun _ => True) rt l now cmd (fun _ _ _ _ => trivial) h
    (fun l p hl _ => named_deleteKey l p hl)
    (fun l name ty hl => ⟨named_alloc l now name ty hl, trivial⟩)
    (fun l p v hl _ => named_set l now p v hl)
    (fun l p vs hl _ => named_sadd l p vs hl)
    (fun l p vs hl _ => named_srem l p vs hl)
    (fun l p d hl _ => named_setExpireKey l now p d hl)
    (fun l hl _ => named_save l hl)
    (fun l hl _ => named_restore l hl)

theorem reachable_named (l : Ledis) (h : Reachable l) : l.named := by
  induction h with
  | init =>
    refine ⟨wf_NewLedis, fun e he => ?_, fun snap hs => ?_⟩
    · simp [NewLedis] at he
    · simp [NewLedis] at hs
  | step rt l now cmd _ ih => exact named_HandleCommand rt l now cmd ih

theorem named_inj (l : Ledis) (h : l.named) (n n' : String) (p : Nat)
    (h1 : mapGet l.keys n = some p) (h2 : mapGet l.keys n' = some p) : n = n' := by
  have a := h.2.1 _ (mapGet_some_mem _ _ _ h1)
  have b := h.2.1 _ (mapGet_some_mem _ _ _ h2)
  simp only at a b
  rw [← a, ← b]

end Storage
namespace Storage

/-! ## Commands that change no record -/

theorem mapGet_of_mapDelete {V : Type} (m : List (String × V)) (k n : String) (v : V)
    (h : mapGet (mapDelete m k) n = some v) : mapGet m n = some v := by
  by_cases hn : n = k
  · subst hn
    rw [mapGet_mapDelete_same] at h
    cases h
  · rwa [mapGet_mapDelete_ne m k n hn] at h

theorem stable_refl (l : Ledis) : Stable l l := ⟨rfl, fun _ _ h => h⟩

theorem stable_trans {a b c : Ledis} (h1 : Stable a b) (h2 : Stable b c) : Stable a c :=
  ⟨h2.1.trans h1.1, fun n p h => h1.2 n p (h2.2 n p h)⟩

theorem stable_deleteKey (l : Ledis) (key : Option Nat) : Stable l (l.deleteKey key).2 := by
  cases key with
  | none => exact stable_refl l
  | some p =>
    refine ⟨deleteKey_heap l _, fun n q h => ?_⟩
    rw [deleteKey_keys] at h
    exact mapGet_of_mapDelete _ _ _ _ h

theorem stable_pruneLoop (l : Ledis) (now : Int) (es : List (Option Nat)) :
    Stable l (l.pruneLoop now es) := by
  unfold Ledis.pruneLoop
  induction es generalizing l with
  | nil => exact stable_refl l
  | cons e es ih =>
    rw [List.foldl_cons]
    refine stable_trans ?_ (ih _)
    cases e with
    | none => exact stable_refl l
    | some p =>
      dsimp only
      split_ifs
      · exact stable_deleteKey l (some p)
      · exact stable_refl l

theorem stable_prune1 (l : Ledis) (now : Int) (name : String) : Stable l (l.prune1 now name) :=
  stable_pruneLoop l now _

theorem stable_listKeys (l : Ledis) (now : Int) : Stable l (l.listKeys now).2 := by
  unfold Ledis.listKeys
  dsimp only
  generalize (l.keys.filter (fun e => (deref l.heap e.2).isExpired now)).map Prod.fst = names
  induction names generalizing l with
  | nil => exact stable_refl l
  | cons n ns ih =>
    rw [List.foldl_cons]
    exact stable_trans (stable_deleteKey l _) (ih _)

theorem stable_sadd (l : Ledis) (p : Nat) (vs : List String) :
    Stable l (l.sadd (some p) vs).2 := by
  unfold Ledis.sadd
  dsimp only
  split_ifs
  · exact stable_refl l
  · obtain ⟨h1, h2, _⟩ := sadd_fold_fields (deref l.heap p).name vs l
    exact ⟨h1, fun n q h => by rwa [h2] at h⟩

theorem stable_srem (l : Ledis) (key : Option Nat) (vs : List String) :
    Stable l (l.srem key vs).2 := by
  cases key with
  | none => exact stable_refl l
  | some p =>
    unfold Ledis.srem
    dsimp only
    split_ifs
    · exact stable_refl l
    · obtain ⟨h1, h2, _⟩ := sremLoop_fields (deref l.heap p).name vs l
      exact ⟨h1, fun n q h => by rwa [h2] at h⟩

theorem kept_of_stable (l l' : Ledis) (h : Stable l l') : Kept l l' := by
  intro name k k' hk hk'
  obtain ⟨p', hp', hlt', hd'⟩ := keyMeta_some l' name k' hk'
  obtain ⟨p, hp, _, hd⟩ := keyMeta_some l name k hk
  have := h.2 name p' hp'
  rw [hp] at this
  cases this
  rw [← hd, ← hd', h.1]

theorem kept_fields {l l' : Ledis} (h : Kept l l') (name : String) (k k' : Key)
    (hk : l.keyMeta name = some k) (hk' : l'.keyMeta name = some k') :
    k'.lastRenewed = k.lastRenewed ∧ k'.expireTime = k.expireTime := by
  rw [h name k k' hk hk']
  exact ⟨rfl, rfl⟩

theorem kept_alloc_sadd (l : Ledis) (now : Int) (name : String) (vs : List String)
    (habs : mapGet l.keys name = none) :
    Kept l ((l.alloc now name .KeyTypeSet).sadd (some l.heap.length) vs).2 := by
  have hst := stable_sadd (l.alloc now name .KeyTypeSet) l.heap.length vs
  intro n k k' hk hk'
  obtain ⟨p', hp', _, hd'⟩ := keyMeta_some _ n k' hk'
  obtain ⟨p, hp, hlt, hd⟩ := keyMeta_some l n k hk
  have h1 := hst.2 n p' hp'
  have hne : n ≠ name := by
    intro h
    rw [h, habs] at hp
    cases hp
  simp only [Ledis.alloc] at h1
  rw [mapGet_mapSet_ne _ _ _ _ hne, hp] at h1
  cases h1
  rw [← hd, ← hd', hst.1]
  exact deref_append_left _ _ _ hlt

theorem kept_save (l : Ledis) : Kept l l.save.2 := by
  obtain ⟨heap1, c, hs, hc⟩ := save_eq l
  obtain ⟨heap1', c', hc', ⟨ext, hext⟩, _⟩ := copy_spec l.heap l.toStore
  rw [hc] at hc'
  cases hc'
  rw [hs]
  intro n k k' hk hk'
  obtain ⟨p', hp', _, hd'⟩ := keyMeta_some _ n k' hk'
  obtain ⟨p, hp, hlt, hd⟩ := keyMeta_some l n k hk
  simp only at hp' hd'
  rw [hp] at hp'
  cases hp'
  rw [← hd, ← hd', hext]
  exact deref_append_lt _ _ _ hlt

end Storage
namespace Storage

/-! ## The state after each of the verbs that do not renew -/

theorem HandleCommand_invalid (rt : Runtime) (l : Ledis) (now : Int) (line verb e : String)
    (args : List String) (h : isCmd rt line verb args)
    (hv : validateSwitch verb (verb :: args) = .error e) :
    l.HandleCommand rt now line = (.error e, l) := by
  rw [HandleCommand_of_isCmd rt l now line _ _ h, hv]

theorem HandleCommand_SADD_absent (rt : Runtime) (l : Ledis) (now : Int) (line name v : String)
    (vs : List String) (h : isCmd rt line "SADD" (name :: v :: vs))
    (hk : mapGet l.keys name = none) :
    l.HandleCommand rt now line =
      unitOutcome ((l.alloc now name .KeyTypeSet).sadd (some l.heap.length) (v :: vs)) := by
  rw [HandleCommand_of_isCmd rt l now line _ _ h]
  have h2 : ¬ (vs.length + 1 + 1 + 1 < 3) := by omega
  simp [validateSwitch, Ledis.dispatch, Ledis.convertKeys, Ledis.pruneLoop, hk, h2, Ledis.alloc]

theorem HandleCommand_SADD_present (rt : Runtime) (l : Ledis) (now : Int)
    (line name v : String) (vs : List String) (p : Nat)
    (h : isCmd rt line "SADD" (name :: v :: vs)) (hk : mapGet l.keys name = some p) :
    l.HandleCommand rt now line =
      unitOutcome ((l.prune1 now name).sadd (some p) (v :: vs)) := by
  rw [HandleCommand_of_isCmd rt l now line _ _ h]
  have h2 : ¬ (vs.length + 1 + 1 + 1 < 3) := by omega
  simp [validateSwitch, Ledis.dispatch, Ledis.convertKeys, Ledis.prune1, hk, h2]

theorem HandleCommand_SREM (rt : Runtime) (l : Ledis) (now : Int) (line name v : String)
    (vs : List String) (h : isCmd rt line "SREM" (name :: v :: vs)) :
    l.HandleCommand rt now line =
      unitOutcome ((l.prune1 now name).srem (mapGet l.keys name) (v :: vs)) := by
  rw [HandleCommand_of_isCmd rt l now line _ _ h]
  have h2 : ¬ (vs.length + 1 + 1 + 1 < 3) := by omega
  simp [validateSwitch, Ledis.dispatch, Ledis.convertKeys, Ledis.prune1, h2]

theorem arity_two (verb : String) (args : List String)
    (hv : verb = "GET" ∨ verb = "SMEMBERS" ∨ verb = "DEL" ∨ verb = "TTL") :
    (∃ e, validateSwitch verb (verb :: args) = .error e) ∨ ∃ name, args = [name] := by
  rcases args with _ | ⟨a, _ | ⟨b, rest⟩⟩
  · left
    rcases hv with h | h | h | h <;> subst h <;> simp [validateSwitch]
  · exact Or.inr ⟨a, rfl⟩
  · left
    rcases hv with h | h | h | h <;> subst h <;> simp [validateSwitch]

theorem arity_three_up (verb : String) (args : List String)
    (hv : verb = "SADD" ∨ verb = "SREM") :
    (∃ e, validateSwitch verb (verb :: args) = .error e) ∨
      ∃ name v vs, args = name :: v :: vs := by
  rcases args with _ | ⟨a, _ | ⟨b, rest⟩⟩
  · left
    rcases hv with h | h <;> subst h <;> simp [validateSwitch]
  · left
    rcases hv with h | h <;> subst h <;> simp [validateSwitch]
  · exact Or.inr ⟨a, b, rest, rfl⟩

theorem arity_one (verb : String) (args : List String)
    (hv : verb = "KEYS" ∨ verb = "SAVE") :
    (∃ e, validateSwitch verb (verb :: args) = .error e) ∨ args = [] := by
  rcases args with _ | ⟨a, rest⟩
  · exact Or.inr rfl
  · left
    rcases hv with h | h <;> subst h <;> simp [validateSwitch]

theorem arity_sinter (args : List String) :
    (∃ e, validateSwitch "SINTER" ("SINTER" :: args) = .error e) ∨ args ≠ [] := by
  rcases args with _ | ⟨a, rest⟩
  · exact Or.inl (by simp [validateSwitch])
  · exact Or.inr (by simp)

theorem HandleCommand_GET_state (rt : Runtime) (l : Ledis) (now : Int) (line name : String)
    (h : isCmd rt line "GET" [name]) : (l.HandleCommand rt now line).2 = l.prune1 now name := by
  rw [HandleCommand_GET rt l now line name h]
  cases (l.prune1 now name).get (mapGet l.keys name) <;> rfl

theorem HandleCommand_TTL_state (rt : Runtime) (l : Ledis) (now : Int) (line name : String)
    (h : isCmd rt line "TTL" [name]) : (l.HandleCommand rt now line).2 = l.prune1 now name := by
  rw [HandleCommand_TTL rt l now line name h]
  cases (l.prune1 now name).getTTL rt now (mapGet l.keys name) <;> rfl

theorem HandleCommand_DEL_state (rt : Runtime) (l : Ledis) (now : Int) (line name : String)
    (h : isCmd rt line "DEL" [name]) :
    (l.HandleCommand rt now line).2 = ((l.prune1 now name).deleteKey (mapGet l.keys name)).2 := by
  rw [HandleCommand_DEL rt l now line name h]
  generalize (l.prune1 now name).deleteKey (mapGet l.keys name) = r
  obtain ⟨a, b⟩ := r
  cases a <;> rfl

theorem HandleCommand_SAVE_state (rt : Runtime) (l : Ledis) (now : Int) (line : String)
    (h : isCmd rt line "SAVE" []) : (l.HandleCommand rt now line).2 = l.save.2 := by
  rw [HandleCommand_SAVE rt l now line h]
  generalize l.save = r
  obtain ⟨a, b⟩ := r
  cases a <;> rfl

theorem quiet_kept (rt : Runtime) (l : Ledis) (now : Int) (line : String)
    (h : isQuietCmd rt line) : Kept l (l.HandleCommand rt now line).2 := by
  obtain ⟨c0, args, hp, hv⟩ := h
  have hrefl : Kept l l := kept_of_stable l l (stable_refl l)
  simp only [List.mem_cons, List.mem_singleton, List.not_mem_nil, or_false] at hv
  rcases hv with hv | hv | hv | hv | hv | hv | hv | hv | hv
  · -- GET
    have hc : isCmd rt line "GET" args := ⟨c0, hp, hv⟩
    rcases arity_two "GET" args (Or.inl rfl) with ⟨e, he⟩ | ⟨name, hn⟩
    · rw [HandleCommand_invalid rt l now line _ e args hc he]; exact hrefl
    · subst hn
      rw [HandleCommand_GET_state rt l now line name hc]
      exact kept_of_stable _ _ (stable_prune1 l now name)
  · -- SADD
    have hc : isCmd rt line "SADD" args := ⟨c0, hp, hv⟩
    rcases arity_three_up "SADD" args (Or.inl rfl) with ⟨e, he⟩ | ⟨name, v, vs, hn⟩
    · rw [HandleCommand_invalid rt l now line _ e args hc he]; exact hrefl
    · subst hn
      cases hk : mapGet l.keys name with
      | none =>
        rw [HandleCommand_SADD_absent rt l now line name v vs hc hk, unitOutcome_snd]
        exact kept_alloc_sadd l now name (v :: vs) hk
      | some p =>
        rw [HandleCommand_SADD_present rt l now line name v vs p hc hk, unitOutcome_snd]
        exact kept_of_stable _ _ (stable_trans (stable_prune1 l now name) (stable_sadd _ p _))
  · -- SREM
    have hc : isCmd rt line "SREM" args := ⟨c0, hp, hv⟩
    rcases arity_three_up "SREM" args (Or.inr rfl) with ⟨e, he⟩ | ⟨name, v, vs, hn⟩
    · rw [HandleCommand_invalid rt l now line _ e args hc he]; exact hrefl
    · subst hn
      rw [HandleCommand_SREM rt l now line name v vs hc, unitOutcome_snd]
      exact kept_of_stable _ _ (stable_trans (stable_prune1 l now name) (stable_srem _ _ _))
  · -- SMEMBERS
    have hc : isCmd rt line "SMEMBERS" args := ⟨c0, hp, hv⟩
    rcases arity_two "SMEMBERS" args (Or.inr (Or.inl rfl)) with ⟨e, he⟩ | ⟨name, hn⟩
    · rw [HandleCommand_invalid rt l now line _ e args hc he]; exact hrefl
    · subst hn
      rw [HandleCommand_SMEMBERS rt l now line name hc, listOutcome_snd]
      exact kept_of_stable _ _ (stable_prune1 l now name)
  · -- SINTER
    have hc : isCmd rt line "SINTER" args := ⟨c0, hp, hv⟩
    rcases arity_sinter args with ⟨e, he⟩ | hne
    · rw [HandleCommand_invalid rt l now line _ e args hc he]; exact hrefl
    · rw [HandleCommand_SINTER rt l now line args hne hc, listOutcome_snd]
      exact kept_of_stable _ _ (stable_pruneLoop l now _)
  · -- KEYS
    have hc : isCmd rt line "KEYS" args := ⟨c0, hp, hv⟩
    rcases arity_one "KEYS" args (Or.inl rfl) with ⟨e, he⟩ | hn
    · rw [HandleCommand_invalid rt l now line _ e args hc he]; exact hrefl
    · subst hn
      rw [HandleCommand_KEYS rt l now line hc]
      exact kept_of_stable _ _ (stable_listKeys l now)
  · -- DEL
    have hc : isCmd rt line "DEL" args := ⟨c0, hp, hv⟩
    rcases arity_two "DEL" args (Or.inr (Or.inr (Or.inl rfl))) with ⟨e, he⟩ | ⟨name, hn⟩
    · rw [HandleCommand_invalid rt l now line _ e args hc he]; exact hrefl
    · subst hn
      rw [HandleCommand_DEL_state rt l now line name hc]
      exact kept_of_stable _ _ (stable_trans (stable_prune1 l now name) (stable_deleteKey _ _))
  · -- TTL
    have hc : isCmd rt line "TTL" args := ⟨c0, hp, hv⟩
    rcases arity_two "TTL" args (Or.inr (Or.inr (Or.inr rfl))) with ⟨e, he⟩ | ⟨name, hn⟩
    · rw [HandleCommand_invalid rt l now line _ e args hc he]; exact hrefl
    · subst hn
      rw [HandleCommand_TTL_state rt l now line name hc]
      exact kept_of_stable _ _ (stable_prune1 l now name)
  · -- SAVE
    have hc : isCmd rt line "SAVE" args := ⟨c0, hp, hv⟩
    rcases arity_one "SAVE" args (Or.inr rfl) with ⟨e, he⟩ | hn
    · rw [HandleCommand_invalid rt l now line _ e args hc he]; exact hrefl
    · subst hn
      rw [HandleCommand_SAVE_state rt l now line hc]
      exact kept_save l

end Storage
namespace Storage

/-! ## What SET and EXPIRE renew -/

theorem HandleCommand_SET_absent (rt : Runtime) (l : Ledis) (now : Int)
    (line name value : String) (h : isCmd rt line "SET" [name, value])
    (hk : mapGet l.keys name = none) :
    l.HandleCommand rt now line =
      unitOutcome ((l.alloc now name .KeyTypeString).set now (some l.heap.length) value) := by
  rw [HandleCommand_SET rt l now line name value h, hk, prune1_absent l now name hk]
  rfl

theorem HandleCommand_SET_present (rt : Runtime) (l : Ledis) (now : Int)
    (line name value : String) (p : Nat) (h : isCmd rt line "SET" [name, value])
    (hk : mapGet l.keys name = some p) :
    l.HandleCommand rt now line = unitOutcome ((l.prune1 now name).set now (some p) value) := by
  rw [HandleCommand_SET rt l now line name value h, hk]

theorem unitOutcome_ok (r : Result Unit × Ledis) (h : (unitOutcome r).1 = .ok none) :
    r.1 = .ok () := by
  obtain ⟨a, b⟩ := r
  cases a with
  | ok u => rfl
  | error e => cases h
  | crash => cases h

theorem setExpireKey_keys (l : Ledis) (now : Int) (p : Nat) (d : Int) :
    (l.setExpireKey now (some p) d).2.keys = l.keys := by
  unfold Ledis.setExpireKey
  dsimp only
  rw [renewKey_keys]

theorem setExpireKey_deref (l : Ledis) (now : Int) (p : Nat) (d : Int) (hlt : p < l.heap.length) :
    deref (l.setExpireKey now (some p) d).2.heap p =
      { deref l.heap p with lastRenewed := now, expireTime := d } := by
  unfold Ledis.setExpireKey
  dsimp only
  rw [renewKey_heap]
  dsimp only
  rw [deref_set_same _ _ _ (by simpa using hlt), deref_set_same _ _ _ hlt]

theorem renewed_present (s s1 s' : Ledis) (name : String) (p : Nat) (hn : s.named)
    (hk : mapGet s.keys name = some p) (hst : Stable s s1) (hkeys : s'.keys = s1.keys)
    (hq : ∀ q, q ≠ p → deref s'.heap q = deref s.heap q) :
    (∀ p', mapGet s'.keys name = some p' → p' = p) ∧
    (∀ n' q', n' ≠ name → mapGet s'.keys n' = some q' →
      mapGet s.keys n' = some q' ∧ deref s'.heap q' = deref s.heap q') := by
  refine ⟨fun p' hp' => ?_, fun n' q' hne hq' => ?_⟩
  · rw [hkeys] at hp'
    have := hst.2 name p' hp'
    rw [hk] at this
    exact (Option.some.inj this).symm
  · rw [hkeys] at hq'
    have h1 := hst.2 n' q' hq'
    refine ⟨h1, hq q' (fun heq => hne ?_)⟩
    rw [heq] at h1
    exact named_inj s hn n' name p h1 hk

theorem set_renewal (rt : Runtime) (s : Ledis) (t : Int) (line name v : String)
    (hn : s.named) (hc : isCmd rt line "SET" [name, v])
    (hok : (s.HandleCommand rt t line).1 = .ok none) :
    (∀ p, mapGet s.keys name = some p →
      deref (s.HandleCommand rt t line).2.heap p = { deref s.heap p with lastRenewed := t } ∧
      ∀ p', mapGet (s.HandleCommand rt t line).2.keys name = some p' → p' = p) ∧
    (∀ p', mapGet (s.HandleCommand rt t line).2.keys name = some p' →
      (deref (s.HandleCommand rt t line).2.heap p').lastRenewed = t) ∧
    (∀ n' q', n' ≠ name → mapGet (s.HandleCommand rt t line).2.keys n' = some q' →
      mapGet s.keys n' = some q' ∧
      deref (s.HandleCommand rt t line).2.heap q' = deref s.heap q') ∧
    ((∀ p, mapGet s.keys name = some p → (deref s.heap p).isExpired t = false) →
      ∃ p', mapGet (s.HandleCommand rt t line).2.keys name = some p' ∧
        p' < (s.HandleCommand rt t line).2.heap.length) := by
  have hwf := hn.1
  cases hk : mapGet s.keys name with
  | none =>
    rw [HandleCommand_SET_absent rt s t line name v hc hk, unitOutcome_snd]
    have hty : (deref (s.alloc t name .KeyTypeString).heap s.heap.length)._type
        = .KeyTypeString := by
      simp [Ledis.alloc, deref_append_length, newKey]
    rw [set_scalar _ _ _ _ hty]
    dsimp only
    rw [renewKey_heap, renewKey_keys]
    have hlen : s.heap.length < (s.alloc t name .KeyTypeString).heap.length := by
      simp [Ledis.alloc]
    have hkeys : (s.alloc t name .KeyTypeString).keys = mapSet s.keys name s.heap.length := rfl
    dsimp only
    refine ⟨fun p hp => (by cases hp), fun p' hp' => ?_, fun n' q' hne hq' => ?_, fun _ => ?_⟩
    · rw [hkeys, mapGet_mapSet_same] at hp'
      cases hp'
      rw [deref_set_same _ _ _ hlen]
    · rw [hkeys, mapGet_mapSet_ne _ _ _ _ hne] at hq'
      have hlt : q' < s.heap.length := hwf.2.2.2.2 _ (mapGet_some_mem _ _ _ hq')
      refine ⟨hq', ?_⟩
      rw [deref_set_ne _ _ _ _ (by omega)]
      exact deref_append_left _ _ _ hlt
    · refine ⟨s.heap.length, ?_, ?_⟩
      · rw [hkeys, mapGet_mapSet_same]
      · simpa using hlen
  | some p =>
    have hlt : p < s.heap.length := hwf.2.2.2.2 _ (mapGet_some_mem _ _ _ hk)
    have hst := stable_prune1 s t name
    rw [HandleCommand_SET_present rt s t line name v p hc hk] at hok ⊢
    have hr := unitOutcome_ok _ hok
    rw [unitOutcome_snd]
    by_cases hty : (deref (s.prune1 t name).heap p)._type = .KeyTypeString
    · rw [set_scalar _ _ _ _ hty]
      dsimp only
      rw [renewKey_heap, renewKey_keys]
      dsimp only
      rw [hst.1]
      have hp : deref (s.heap.set p { deref s.heap p with lastRenewed := t }) p
          = { deref s.heap p with lastRenewed := t } := deref_set_same _ _ _ hlt
      obtain ⟨r1, r2⟩ := renewed_present s (s.prune1 t name)
        { s.prune1 t name with
          heap := s.heap.set p { deref s.heap p with lastRenewed := t } }
        name p hn hk hst rfl (fun q hq => deref_set_ne _ _ _ _ hq)
      refine ⟨fun p0 hp0 => ?_, fun p' hp' => ?_, r2, fun hlive => ?_⟩
      · cases hp0
        exact ⟨hp, r1⟩
      · rw [r1 p' hp', hp]
      · rw [prune1_live s t name p hk (hlive p rfl)]
        exact ⟨p, hk, by simpa using hlt⟩
    · rw [set_not_scalar _ _ _ _ hty] at hr
      cases hr

theorem expire_renewal (rt : Runtime) (s : Ledis) (t : Int) (line name n : String)
    (hn : s.named) (hc : isCmd rt line "EXPIRE" [name, n])
    (hok : (s.HandleCommand rt t line).1 = .ok none) :
    ∃ d p, Str2TimeDuration rt n = .ok d ∧ mapGet s.keys name = some p ∧
      deref (s.HandleCommand rt t line).2.heap p
        = { deref s.heap p with lastRenewed := t, expireTime := d } ∧
      (∀ p', mapGet (s.HandleCommand rt t line).2.keys name = some p' → p' = p) ∧
      (∀ n' q', n' ≠ name → mapGet (s.HandleCommand rt t line).2.keys n' = some q' →
        mapGet s.keys n' = some q' ∧
        deref (s.HandleCommand rt t line).2.heap q' = deref s.heap q') ∧
      ((deref s.heap p).isExpired t = false →
        mapGet (s.HandleCommand rt t line).2.keys name = some p ∧
          p < (s.HandleCommand rt t line).2.heap.length) := by
  have hwf := hn.1
  cases hs : Str2TimeDuration rt n with
  | error e =>
    rw [HandleCommand_EXPIRE_error rt s t line name n e hc hs] at hok
    cases hok
  | ok d =>
    cases hk : mapGet s.keys name with
    | none =>
      rw [HandleCommand_EXPIRE_absent rt s t line name n d hc hs hk] at hok
      cases hok
    | some p =>
      have hlt : p < s.heap.length := hwf.2.2.2.2 _ (mapGet_some_mem _ _ _ hk)
      have hst := stable_prune1 s t name
      rw [HandleCommand_EXPIRE_ok rt s t line name n d p hc hs hk]
      have hf := frame_setExpireKey (s.prune1 t name) t p d
      have hp := setExpireKey_deref (s.prune1 t name) t p d (by rw [hst.1]; exact hlt)
      rw [hst.1] at hp
      obtain ⟨r1, r2⟩ := renewed_present s (s.prune1 t name)
        ((s.prune1 t name).setExpireKey t (some p) d).2 name p hn hk hst
        (setExpireKey_keys _ t p d)
        (fun q hq => by rw [hf.2.2.1 q (fun h => hq (Option.some.inj h)), hst.1])
      refine ⟨d, p, rfl, rfl, hp, r1, r2, fun hlive => ?_⟩
      rw [setExpireKey_keys, hf.2.1, prune1_live s t name p hk hlive]
      exact ⟨hk, hlt⟩

end Storage
namespace Storage

/-! ## Renewal on SET and EXPIRE -/

theorem reachable_storeScalar : Reachable storeScalar :=
  Reachable.step asciiRuntime _ 0 "SET k v" Reachable.init

theorem live_ptr_of_meta (s : Ledis) (t : Int) (name : String) (hwf : s.wf)
    (h : ∀ k, s.keyMeta name = some k → k.isExpired t = false) :
    ∀ p, mapGet s.keys name = some p → (deref s.heap p).isExpired t = false :=
  fun p hp => h _ (keyMeta_of_ptr s name p hp (hwf.2.2.2.2 _ (mapGet_some_mem _ _ _ hp)))

theorem others_kept (s s' : Ledis) (name : String)
    (h : ∀ n' q', n' ≠ name → mapGet s'.keys n' = some q' →
      mapGet s.keys n' = some q' ∧ deref s'.heap q' = deref s.heap q') :
    ∀ n' k k', n' ≠ name → s.keyMeta n' = some k → s'.keyMeta n' = some k' → k' = k := by
  intro n' k k' hne hk hk'
  obtain ⟨q', hq', _, hd'⟩ := keyMeta_some s' n' k' hk'
  obtain ⟨q, hq, _, hd⟩ := keyMeta_some s n' k hk
  obtain ⟨h1, h2⟩ := h n' q' hne hq'
  rw [hq] at h1
  cases h1
  rw [← hd, ← hd', h2]

/-- Renewal, as far as it holds: on every reachable state and at every instant. (1) A
command whose verb is GET, SADD, SREM, SMEMBERS, SINTER, KEYS, DEL, TTL or SAVE leaves every key that has metadata
before and after with the same last renewal and the same ttl. (2) After a successful
`SET name v` at the instant `t` the metadata of `name` has last renewal `t`; the record
that `name` had before is the same record with last renewal `t`, so the ttl is kept;
no other key has its record changed; and `name` has metadata afterwards unless it was
expired before. (3) The same holds after a successful `EXPIRE name n`, with the ttl of
`name` set to the duration `d` computed from `n`. -/
theorem renewal_only_on_set_and_expire (rt : Runtime) (s : Ledis) (t : Int) (line : String)
    (hs : Reachable s) :
    (isQuietCmd rt line → ∀ name k k', s.keyMeta name = some k →
      (s.HandleCommand rt t line).2.keyMeta name = some k' →
      k'.lastRenewed = k.lastRenewed ∧ k'.expireTime = k.expireTime) ∧
    (∀ name v, isCmd rt line "SET" [name, v] → (s.HandleCommand rt t line).1 = .ok none →
      (∀ k', (s.HandleCommand rt t line).2.keyMeta name = some k' → k'.lastRenewed = t) ∧
      (∀ p k, mapGet s.keys name = some p → s.keyMeta name = some k →
        deref (s.HandleCommand rt t line).2.heap p = { k with lastRenewed := t }) ∧
      (∀ k k', s.keyMeta name = some k →
        (s.HandleCommand rt t line).2.keyMeta name = some k' →
        k'.expireTime = k.expireTime) ∧
      (∀ n' k k', n' ≠ name → s.keyMeta n' = some k →
        (s.HandleCommand rt t line).2.keyMeta n' = some k' → k' = k) ∧
      ((∀ k, s.keyMeta name = some k → k.isExpired t = false) →
        ∃ k', (s.HandleCommand rt t line).2.keyMeta name = some k')) ∧
    (∀ name n, isCmd rt line "EXPIRE" [name, n] →
      (s.HandleCommand rt t line).1 = .ok none →
      ∃ d, Str2TimeDuration rt n = .ok d ∧
        (∀ k', (s.HandleCommand rt t line).2.keyMeta name = some k' →
          k'.lastRenewed = t ∧ k'.expireTime = d) ∧
        (∀ p k, mapGet s.keys name = some p → s.keyMeta name = some k →
          deref (s.HandleCommand rt t line).2.heap p
            = { k with lastRenewed := t, expireTime := d }) ∧
        (∀ n' k k', n' ≠ name → s.keyMeta n' = some k →
          (s.HandleCommand rt t line).2.keyMeta n' = some k' → k' = k) ∧
        ((∀ k, s.keyMeta name = some k → k.isExpired t = false) →
          ∃ k', (s.HandleCommand rt t line).2.keyMeta name = some k')) := by
  have hn := reachable_named s hs
  refine ⟨fun hq name k k' hk hk' => kept_fields (quiet_kept rt s t line hq) name k k' hk hk',
    fun name v hc hok => ?_, fun name n hc hok => ?_⟩
  · obtain ⟨hA, hB, hC, hD⟩ := set_renewal rt s t line name v hn hc hok
    refine ⟨fun k' hk' => ?_, fun p k hp hk => ?_, fun k k' hk hk' => ?_,
      others_kept s _ name hC, fun hlive => ?_⟩
    · obtain ⟨p', hp', _, hd'⟩ := keyMeta_some _ name k' hk'
      rw [← hd']
      exact hB p' hp'
    · obtain ⟨p0, hp0, _, hd⟩ := keyMeta_some s name k hk
      rw [hp] at hp0
      cases hp0
      rw [(hA p hp).1, hd]
    · obtain ⟨p, hp, _, hd⟩ := keyMeta_some s name k hk
      obtain ⟨p', hp', _, hd'⟩ := keyMeta_some _ name k' hk'
      have := (hA p hp).2 p' hp'
      subst this
      rw [← hd', (hA p' hp).1, ← hd]
    · obtain ⟨p', hp', hlt'⟩ := hD (live_ptr_of_meta s t name hn.1 hlive)
      exact ⟨_, keyMeta_of_ptr _ name p' hp' hlt'⟩
  · obtain ⟨d, p, hd, hk, hp, r1, r2, hl⟩ := expire_renewal rt s t line name n hn hc hok
    refine ⟨d, hd, fun k' hk' => ?_, fun p0 k hp0 hk0 => ?_, others_kept s _ name r2,
      fun hlive => ?_⟩
    · obtain ⟨p', hp', _, hd'⟩ := keyMeta_some _ name k' hk'
      have := r1 p' hp'
      subst this
      rw [← hd', hp]
      exact ⟨rfl, rfl⟩
    · obtain ⟨p1, hp1, _, hd1⟩ := keyMeta_some s name k hk0
      rw [hk] at hp0 hp1
      cases hp0
      cases hp1
      rw [hp, hd1]
    · obtain ⟨h1, h2⟩ := hl (live_ptr_of_meta s t name hn.1 hlive p hk)
      exact ⟨_, keyMeta_of_ptr _ name p h1 h2⟩

/-- Instance of the renewal by SET: `SET k w` at instant 7 on the store holding the scalar
key `k`. -/
theorem renewal_only_on_set_and_expire_witness :
    Reachable storeScalar ∧
    (storeScalar.HandleCommand asciiRuntime 7 "SET k w").1 = .ok none ∧
    ∀ k', (storeScalar.HandleCommand asciiRuntime 7 "SET k w").2.keyMeta "k" = some k' →
      k'.lastRenewed = 7 :=
  ⟨reachable_storeScalar, by decide,
   ((renewal_only_on_set_and_expire asciiRuntime storeScalar 7 "SET k w"
      reachable_storeScalar).2.1 "k" "w" ⟨"SET", rfl, rfl⟩ (by decide)).1⟩

end Storage
namespace Storage

/-! ## The answers of TTL -/

theorem getTTL_prune1 (rt : Runtime) (l : Ledis) (now : Int) (name : String)
    (key : Option Nat) :
    (l.prune1 now name).getTTL rt now key = l.getTTL rt now key := by
  unfold Ledis.getTTL
  rw [(stable_prune1 l now name).1]

/-- The answers of `TTL name` in every state: "key not found" for a name without
metadata; for a name with metadata "key has no expiration time" when the ttl is 0,
"key expired" when the ttl is not 0 and `last_renewed + ttl` is not after now, and
otherwise the whole seconds of the remaining time as the runtime converts them. -/
theorem ttl_answers (rt : Runtime) (l : Ledis) (now : Int) (line name : String)
    (h : isCmd rt line "TTL" [name]) :
    (mapGet l.keys name = none →
      (l.HandleCommand rt now line).1 = .error "key not found") ∧
    (∀ p, mapGet l.keys name = some p →
      ((deref l.heap p).expireTime = 0 →
        (l.HandleCommand rt now line).1 = .error "key has no expiration time") ∧
      ((deref l.heap p).expireTime ≠ 0 →
        timeSub ((deref l.heap p).lastRenewed + (deref l.heap p).expireTime) now ≤ 0 →
        (l.HandleCommand rt now line).1 = .error "key expired") ∧
      ((deref l.heap p).expireTime ≠ 0 →
        0 < timeSub ((deref l.heap p).lastRenewed + (deref l.heap p).expireTime) now →
        (l.HandleCommand rt now line).1 = .ok (some [toString (rt.wholeSeconds
          (timeSub ((deref l.heap p).lastRenewed + (deref l.heap p).expireTime) now))]))) := by
  rw [HandleCommand_TTL rt l now line name h, getTTL_prune1]
  refine ⟨fun hk => ?_, fun p hk => ⟨fun h0 => ?_, fun h0 hle => ?_, fun h0 hlt => ?_⟩⟩
  · rw [hk]
    rfl
  · rw [hk]
    simp [Ledis.getTTL, h0]
  · rw [hk]
    simp [Ledis.getTTL, h0, hle]
  · rw [hk]
    have : ¬ timeSub ((deref l.heap p).lastRenewed + (deref l.heap p).expireTime) now ≤ 0 := by
      omega
    simp [Ledis.getTTL, h0, this]

end Storage
namespace Storage

/-! ## Records shared with the snapshot, and renewal of a pruned key -/

set_option maxRecDepth 100000

/-- C7 (failing input): on the store after `SET k v`, `EXPIRE k 100`, SAVE copies the
record of `k` (record 0) into record 1 for the metadata map of the snapshot, but the
index of the snapshot holds record 0, the record of the live key. The command
`EXPIRE k 1` on the live store then changes the record that the index of the snapshot
refers to. With `EXPIRE k 0` instead, all at instant 0: after RESTORE the keyspace is
that of before (record 2, ttl 100 s) but the index holds record 0, and a tick of the
sweeper at instant 0 deletes `k`; and a tick of the sweeper of the snapshot before
RESTORE deletes `k` from the snapshot, so that RESTORE brings back an empty keyspace. -/
theorem snapshot_index_shares_live_records :
    (storeLongExpiry.HandleCommand asciiRuntime 0 "SAVE").2.keys = [("k", 0)] ∧
    (storeLongExpiry.HandleCommand asciiRuntime 0 "SAVE").2.snapshots.map (fun o => o.keys)
      = some [("k", 1)] ∧
    (storeLongExpiry.HandleCommand asciiRuntime 0 "SAVE").2.snapshots.map
      (fun o => o.gc.tree.inorder) = some [0] ∧
    (deref ((storeLongExpiry.HandleCommand asciiRuntime 0 "SAVE").2.HandleCommand
      asciiRuntime 0 "EXPIRE k 1").2.heap 0).expireTime = 1000000000 ∧
    ((storeLongExpiry.HandleCommand asciiRuntime 0 "SAVE").2.HandleCommand
      asciiRuntime 0 "EXPIRE k 1").2.snapshots.map (fun o => o.gc.tree.inorder) = some [0] ∧
    ((storeLongExpiry.HandleCommand asciiRuntime 0 "SAVE").2.run asciiRuntime
      [(0, "EXPIRE k 0"), (0, "RESTORE")]).keys = [("k", 2)] ∧
    (deref ((storeLongExpiry.HandleCommand asciiRuntime 0 "SAVE").2.run asciiRuntime
      [(0, "EXPIRE k 0"), (0, "RESTORE")]).heap 2).expireTime = 100000000000 ∧
    ((storeLongExpiry.HandleCommand asciiRuntime 0 "SAVE").2.run asciiRuntime
      [(0, "EXPIRE k 0"), (0, "RESTORE")]).gc.tree.inorder = [0] ∧
    (garbageCollector.clean ((storeLongExpiry.HandleCommand asciiRuntime 0 "SAVE").2.run
      asciiRuntime [(0, "EXPIRE k 0"), (0, "RESTORE")]) 0).keys = [] ∧
    (garbageCollector.cleanSnapshot ((storeLongExpiry.HandleCommand asciiRuntime 0 "SAVE").2.run
      asciiRuntime [(0, "EXPIRE k 0")]) 0).snapshots.map (fun o => o.keys) = some [] ∧
    ((garbageCollector.cleanSnapshot ((storeLongExpiry.HandleCommand asciiRuntime 0 "SAVE").2.run
      asciiRuntime [(0, "EXPIRE k 0")]) 0).HandleCommand asciiRuntime 0 "RESTORE").2.keys
      = [] := by
  decide

/-- C15 (failing input): the store after `SET k v`, `EXPIRE k 1` at instant 0 is
reachable and `k` has metadata in it. At instant 2 s the key is expired: `SET k w` and
`EXPIRE k 5` both answer OK, but afterwards `k` has no metadata at all, so no last renewal
equal to 2 s; the command has renewed the record it had just deleted from the metadata
map. -/
theorem renewing_expired_key_leaves_no_metadata :
    Reachable storeWithExpiry ∧
    storeWithExpiry.keyMeta "k" =
      some { name := "k", _type := .KeyTypeString, lastRenewed := 0, expireTime := 1000000000 } ∧
    (storeWithExpiry.HandleCommand asciiRuntime 2000000000 "SET k w").1 = .ok none ∧
    (storeWithExpiry.HandleCommand asciiRuntime 2000000000 "SET k w").2.keyMeta "k" = none ∧
    (storeWithExpiry.HandleCommand asciiRuntime 2000000000 "SET k w").2.keys = [] ∧
    (deref (storeWithExpiry.HandleCommand asciiRuntime 2000000000 "SET k w").2.heap 0).lastRenewed
      = 2000000000 ∧
    (storeWithExpiry.HandleCommand asciiRuntime 2000000000 "EXPIRE k 5").1 = .ok none ∧
    (storeWithExpiry.HandleCommand asciiRuntime 2000000000 "EXPIRE k 5").2.keyMeta "k" = none ∧
    (storeWithExpiry.HandleCommand asciiRuntime 2000000000 "EXPIRE k 5").2.keys = [] :=
  ⟨reachable_storeWithExpiry, by decide⟩

end Storage
